import Mathlib

/-!
# CPP-Custom-Excel: a shallow embedding of the spreadsheet engine

The definitions below are translated from `src/src/CPos.cpp`, `src/ExprElement.cpp`,
`src/src/CustomExpressionBuilder.cpp` and `src/src/CSpreadsheet.cpp`.

Conventions of the embedding.

* A `std::string` is a list of characters, each standing for one byte.
* `size_t` and `unsigned long` are natural numbers reduced modulo `2^64` wherever the C++
  arithmetic can wrap.
* `int` is an integer; the one product of two `int`s the program forms wraps in 32 bits.
* `double` is a type parameter `D` with the operations the program uses (`DoubleOps`); no law
  about floating point is assumed.  `Rat` carries an instance, exact numbers printed with six
  decimals, for the closed examples and for the statements about what a saved number reads
  back as.
* `std::unordered_map<size_t, CustomCValue>` is an association list; `find` reads the first
  binding of a key and `assign` (the C++ `sheet[key] = v`) overwrites it or adds one.
* A C++ exception, undefined behaviour and running out of fuel are explicit results.
* A variable the C++ code reads without having initialised it takes its value from an
  `Uninit` record.
* The parser `parseExpression` of the external expression library is a parameter of `setCell`.
-/

namespace Excel

/-! ## Basic types -/

/-- A `std::string`: a list of bytes. -/
abbrev Str := List Char

/-- The modulus of `size_t` / `unsigned long` arithmetic. -/
def sizeMod : Nat := 2 ^ 64

/-- The newline character. -/
def NL : Char := Char.ofNat 10

/-- The double quote character. -/
def QUOTE : Char := Char.ofNat 34

/-- The value of a character as `unsigned char`. -/
def byteVal (c : Char) : Nat := c.toNat % 256

/-- The C locale `isspace`. -/
def isspace (c : Char) : Bool :=
  c.toNat == 32 || (9 ≤ c.toNat && c.toNat ≤ 13)

/-- The C locale `isalpha`. -/
def isalpha (c : Char) : Bool :=
  (65 ≤ c.toNat && c.toNat ≤ 90) || (97 ≤ c.toNat && c.toNat ≤ 122)

/-- The C locale `isdigit`. -/
def isdigit (c : Char) : Bool := 48 ≤ c.toNat && c.toNat ≤ 57

/-- The C locale `toupper`, as a number. -/
def toupper (c : Char) : Nat :=
  if 97 ≤ c.toNat && c.toNat ≤ 122 then c.toNat - 32 else c.toNat

/-- The operations of `double` the program relies on. -/
class DoubleOps (D : Type) where
  /-- The literal `0.0`. -/
  zero : D
  /-- The literal `1.0`. -/
  one : D
  /-- Addition. -/
  add : D → D → D
  /-- Subtraction. -/
  sub : D → D → D
  /-- Multiplication. -/
  mul : D → D → D
  /-- Division. -/
  div : D → D → D
  /-- The function `std::pow`. -/
  pow : D → D → D
  /-- Unary minus. -/
  neg : D → D
  /-- The comparison `<`. -/
  lt : D → D → Bool
  /-- The comparison `<=`. -/
  le : D → D → Bool
  /-- The comparison `==`. -/
  eq : D → D → Bool
  /-- Conversion `static_cast<double>` of a `size_t`. -/
  ofSizeT : Nat → D
  /-- Conversion `static_cast<double>` of an `int`. -/
  ofInt : Int → D
  /-- Conversion of a `double` to `size_t`. -/
  toSizeT : D → Nat
  /-- The function `std::to_string(double)`. -/
  toStr : D → Str
  /-- The value `operator>>(double&)` stores, given the characters that follow the skipped
  white space (zero when they do not start a number). -/
  scan : Str → D
  /-- The function `std::stod`: the number at the head of the text and the count of characters
  it processed (leading white space included); `none` when it throws `std::invalid_argument` or
  `std::out_of_range`. -/
  stod : Str → Option (D × Nat)

/-- The position of a cell (class `CPos`). -/
structure CPos where
  /-- Column number. -/
  column : Nat
  /-- Row number. -/
  row : Nat
  deriving DecidableEq, Repr

/-- A reference node (class `Reference`). -/
structure Reference where
  /-- Row of the referenced cell. -/
  row : Nat
  /-- Column of the referenced cell. -/
  column : Nat
  /-- Is the row marked with a dollar sign. -/
  isAbsoluteRow : Bool
  /-- Is the column marked with a dollar sign. -/
  isAbsoluteColumn : Bool
  /-- The text of the reference. -/
  cellReference : Str
  deriving DecidableEq, Repr

/-- The nodes of an expression (subclasses of `ExprElement`). -/
inductive ExprElement (D : Type) where
  | constant (value : D)
  | stringVariable (name : Str)
  | binaryOperation (op : Str)
  | unaryOperation (op : Str)
  | range (rangeRef : Str)
  | functionCall (functionName : Str) (parameterCount : Nat)
  | reference (r : Reference)
  deriving DecidableEq, Repr

/-- A program: the content of a `std::stack<std::shared_ptr<ExprElement>>`, bottom first,
which is the order in which the builder pushed the nodes. -/
abbrev Program (D : Type) := List (ExprElement D)

/-- What a cell stores (the variant `CustomCValue`). -/
inductive CustomCValue (D : Type) where
  | monostate
  | double (d : D)
  | string (s : Str)
  | int (i : Int)
  | expr (prog : Program D)
  deriving DecidableEq, Repr

/-- What a cell shows (the variant `CValue`). -/
inductive CValue (D : Type) where
  | monostate
  | double (d : D)
  | string (s : Str)
  deriving DecidableEq, Repr

/-- The cell map `std::unordered_map<size_t, CustomCValue>`. -/
abbrev Sheet (D : Type) := List (Nat × CustomCValue D)

/-- The set `evaluationPath`. -/
abbrev Path := List Nat

/-- The lookup `sheet.find(key)`; `none` stands for `sheet.end()`. -/
def Sheet.find {D : Type} : Sheet D → Nat → Option (CustomCValue D)
  | [], _ => none
  | (k, v) :: rest, key => if k = key then some v else Sheet.find rest key

/-- The assignment `sheet[key] = v`. -/
def Sheet.assign {D : Type} : Sheet D → Nat → CustomCValue D → Sheet D
  | [], key, v => [(key, v)]
  | (k, w) :: rest, key, v =>
    if k = key then (key, v) :: rest else (k, w) :: Sheet.assign rest key v

/-! ## Positions -/

/-- The key `CPos::updateUniqueId` computes: `(column << 32) + row` in `size_t`. -/
def CPos.getUniqueId (p : CPos) : Nat :=
  ((p.column * 2 ^ 32) % sizeMod + p.row) % sizeMod

/-- The operator `CPos::operator-`: the componentwise difference in `size_t`. -/
def CPos.sub (a b : CPos) : CPos :=
  ⟨(a.column + sizeMod - b.column % sizeMod) % sizeMod,
   (a.row + sizeMod - b.row % sizeMod) % sizeMod⟩

/-- The method `CPos::shift`: the `int` offsets are converted to `size_t` and added. -/
def CPos.shift (p : CPos) (dx dy : Int) : CPos :=
  ⟨(((p.column : Int) + dx) % (sizeMod : Int)).toNat,
   (((p.row : Int) + dy) % (sizeMod : Int)).toNat⟩

/-- Decimal digits of a number, as `std::to_string` and `operator<<` print a `size_t`. -/
def toDecimal (n : Nat) : Str := Nat.toDigits 10 n

/-- The digits at the head of a text, read as a decimal number. -/
def digitsValue : Str → Nat → Nat
  | [], acc => acc
  | c :: cs, acc => if isdigit c then digitsValue cs (acc * 10 + (c.toNat - 48)) else acc

/-- The functions `std::stoul` / `std::stoull` in base 10: white space is skipped, a sign is
accepted, digits are read; `none` when an exception is thrown (`std::invalid_argument`
without digits, `std::out_of_range` above `2^64 - 1`). A minus sign negates in `size_t`. -/
def stoul (s : Str) : Option Nat :=
  let s1 := s.dropWhile isspace
  let (negative, s2) :=
    match s1 with
    | c :: cs => if c = '-' then (true, cs) else if c = '+' then (false, cs) else (false, s1)
    | [] => (false, s1)
  match s2 with
  | [] => none
  | c :: _ =>
    if isdigit c then
      let v := digitsValue s2 0
      if sizeMod ≤ v then none
      else some (if negative then (sizeMod - v) % sizeMod else v)
    else none

/-- The loop of `parseCellRef` and `parseReference` over the column letters: returns the
column and the rest of the text. -/
def parseColumn : Str → Nat → Nat × Str
  | [], col => (col, [])
  | c :: cs, col =>
    if isalpha c then parseColumn cs ((col * 26 + (toupper c - 65 + 1)) % sizeMod)
    else (col, c :: cs)

/-- The constructor `CPos::CPos(std::string_view)`; `none` when it throws. -/
def CPos.ofStr (cellRef : Str) : Option CPos :=
  let (column, rest) := parseColumn cellRef 0
  match rest with
  | [] => none
  | _ :: _ =>
    match stoul rest with
    | none => none
    | some row => some ⟨column, row⟩

/-! ## Reference nodes -/

/-- The method `Reference::parseReference` behind the constructor `Reference(std::string)`;
`none` when it throws. -/
def Reference.ofStr (ref : Str) : Option Reference :=
  let (isAbsoluteColumn, s1) :=
    match ref with
    | c :: cs => if c = '$' then (true, cs) else (false, ref)
    | [] => (false, ref)
  let (column, s2) := parseColumn s1 0
  let (isAbsoluteRow, s3) :=
    match s2 with
    | c :: cs => if c = '$' then (true, cs) else (false, s2)
    | [] => (false, s2)
  match s3 with
  | [] => none
  | _ :: _ =>
    match stoul s3 with
    | none => none
    | some row => some ⟨row, column, isAbsoluteRow, isAbsoluteColumn, ref⟩

/-- The loop of `updateCellReferenceString` that turns the column into letters. -/
def columnLetters : Nat → Nat → Str → Str
  | 0, _, columnPart => columnPart
  | fuel + 1, tempColumn, columnPart =>
    if 0 < tempColumn then
      columnLetters fuel ((tempColumn - 1) / 26)
        (Char.ofNat (65 + (tempColumn - 1) % 26) :: columnPart)
    else columnPart

/-- The method `Reference::updateCellReferenceString`. -/
def Reference.updateCellReferenceString (r : Reference) : Reference :=
  { r with
    cellReference :=
      (if r.isAbsoluteColumn then ['$'] else []) ++ columnLetters r.column r.column [] ++
        (if r.isAbsoluteRow then ['$'] else []) ++ toDecimal r.row }

/-- The method `Reference::moveRelativeReferencesBy`. -/
def Reference.moveRelativeReferencesBy (r : Reference) (offset : CPos) : Reference :=
  let r1 := if r.isAbsoluteRow then r else { r with row := (r.row + offset.row) % sizeMod }
  let r2 :=
    if r1.isAbsoluteColumn then r1 else { r1 with column := (r1.column + offset.column) % sizeMod }
  r2.updateCellReferenceString

/-! ## Input streams -/

/-- An input stream (`std::istringstream`): the characters not yet read and the state bits. -/
structure IStream where
  /-- Characters not yet extracted. -/
  buf : Str
  /-- The bit `eofbit`. -/
  eofbit : Bool
  /-- The bit `failbit`. -/
  failbit : Bool
  deriving DecidableEq, Repr

/-- A fresh stream over a text. -/
def IStream.ofStr (s : Str) : IStream := ⟨s, false, false⟩

/-- The test `good()`. -/
def IStream.good (s : IStream) : Bool := !s.eofbit && !s.failbit

/-- The sentry of a formatted input function (`skipws` set): a stream that is not good gets
`failbit`; otherwise white space is skipped, and reaching the end sets `eofbit` and
`failbit`. The boolean tells whether input may proceed. -/
def sentry (s : IStream) : IStream × Bool :=
  if s.good then
    match s.buf.dropWhile isspace with
    | [] => (⟨[], true, true⟩, false)
    | c :: cs => (⟨c :: cs, false, false⟩, true)
  else ({ s with failbit := true }, false)

/-- The function `std::getline(is, str, delim)`: returns the new content of `str` and the
stream. When the stream is not good `str` is left alone and `failbit` is set; otherwise
characters are taken up to the delimiter, which is dropped, or to the end, which sets
`eofbit`; `failbit` is set when nothing at all was extracted. -/
def getline (s : IStream) (str : Str) (delim : Char) : Str × IStream :=
  if s.good then
    let line := s.buf.takeWhile (fun c => c != delim)
    match s.buf.dropWhile (fun c => c != delim) with
    | [] => (line, ⟨[], true, line.isEmpty⟩)
    | _ :: rest => (line, ⟨rest, false, false⟩)
  else (str, { s with failbit := true })

/-- The extraction `is >> str` of a `std::string`: a word up to the next white space. -/
def readString (s : IStream) (str : Str) : Str × IStream :=
  match sentry s with
  | (s1, false) => (str, s1)
  | (s1, true) =>
    let rest := s1.buf.dropWhile (fun c => !isspace c)
    (s1.buf.takeWhile (fun c => !isspace c), ⟨rest, rest.isEmpty, false⟩)

/-- The extraction `is >> c` of a `char`. -/
def readChar (s : IStream) (old : Char) : Char × IStream :=
  match sentry s with
  | (s1, false) => (old, s1)
  | (s1, true) =>
    match s1.buf with
    | [] => (old, ⟨[], true, true⟩)
    | c :: cs => (c, ⟨cs, false, false⟩)

/-- The extraction `is >> n` of an `unsigned long` / `size_t`: an optional sign and decimal
digits. Without digits zero is stored and `failbit` set; above `2^64 - 1` the greatest value
is stored and `failbit` set; a minus sign negates in `size_t`. When the sentry fails the
variable keeps its old value. -/
def readULong (s : IStream) (old : Nat) : Nat × IStream :=
  match sentry s with
  | (s1, false) => (old, s1)
  | (s1, true) =>
    let (negative, s2) :=
      match s1.buf with
      | c :: cs => if c = '-' then (true, cs) else if c = '+' then (false, cs) else (false, s1.buf)
      | [] => (false, s1.buf)
    let rest := s2.dropWhile isdigit
    match s2 with
    | [] => (0, ⟨rest, true, true⟩)
    | c :: _ =>
      if isdigit c then
        let v := digitsValue s2 0
        if sizeMod ≤ v then (sizeMod - 1, ⟨rest, rest.isEmpty, true⟩)
        else (if negative then (sizeMod - v) % sizeMod else v, ⟨rest, rest.isEmpty, false⟩)
      else (0, ⟨rest, false, true⟩)

/-- The extraction `is >> d` of a `double`, of which only the stored value is used: the
variable keeps its old value when the sentry fails. -/
def readDouble {D : Type} [DoubleOps D] (s : IStream) (old : D) : D :=
  match sentry s with
  | (_, false) => old
  | (s1, true) => DoubleOps.scan s1.buf

/-- The call `is.get()`: `none` stands for the end-of-file value. -/
def IStream.get (s : IStream) : Option Char × IStream :=
  if s.good then
    match s.buf with
    | [] => (none, ⟨[], true, true⟩)
    | c :: cs => (some c, ⟨cs, false, false⟩)
  else (none, { s with failbit := true })

/-- The call `is.peek()`: `none` stands for the end-of-file value. -/
def IStream.peek (s : IStream) : Option Char × IStream :=
  if s.good then
    match s.buf with
    | [] => (none, ⟨[], true, false⟩)
    | c :: _ => (some c, s)
  else (none, { s with failbit := true })

/-- The manipulator `std::ws`. -/
def IStream.ws (s : IStream) : IStream :=
  if s.good then
    match s.buf.dropWhile isspace with
    | [] => ⟨[], true, false⟩
    | c :: cs => ⟨c :: cs, false, false⟩
  else { s with failbit := true }

/-- The lines a loop `while (getline(is, line))` reads, given enough fuel. -/
def readLines : Nat → IStream → Char → List Str
  | 0, _, _ => []
  | fuel + 1, s, delim =>
    match getline s [] delim with
    | (line, s1) => if s1.failbit then [] else line :: readLines fuel s1 delim

/-- All the pieces a loop `while (getline(is, piece, delim))` reads from a stream: every
successful call extracts at least one character, so the length of the text plus one is
enough fuel. -/
def allLines (s : IStream) (delim : Char) : List Str := readLines (s.buf.length + 1) s delim

/-! ## Saving -/

/-- Escaping of a text: every double quote is doubled. -/
def escape : Str → Str
  | [] => []
  | c :: cs => if c = QUOTE then QUOTE :: QUOTE :: escape cs else c :: escape cs

/-- The `save()` method of each node. -/
def ExprElement.save {D : Type} [DoubleOps D] : ExprElement D → Str
  | .constant value => "Constant ".toList ++ DoubleOps.toStr value
  | .stringVariable name => "String ".toList ++ [QUOTE] ++ escape name ++ [QUOTE]
  | .binaryOperation op => "BinaryOperation ".toList ++ op
  | .unaryOperation op => "UnaryOperation ".toList ++ op
  | .range rangeRef => "Range ".toList ++ rangeRef
  | .functionCall functionName parameterCount =>
    "Function ".toList ++ functionName ++ " ".toList ++ toDecimal parameterCount
  | .reference r => "Reference ".toList ++ r.cellReference

/-- The nodes of a program, separated by a comma and a space. -/
def saveElements {D : Type} [DoubleOps D] : Program D → Str
  | [] => []
  | [e] => e.save
  | e :: es => e.save ++ ", ".toList ++ saveElements es

/-- The text `save` writes for the content of one cell. -/
def saveCell {D : Type} [DoubleOps D] : CustomCValue D → Str
  | .expr prog => ['['] ++ saveElements prog ++ [']']
  | .double d => DoubleOps.toStr d
  | .string s => [QUOTE] ++ escape s ++ [QUOTE]
  | _ => "undefined".toList

/-- The data region `save` builds: one line per cell, in the order of iteration. -/
def saveData {D : Type} [DoubleOps D] : Sheet D → Str
  | [] => []
  | (key, val) :: rest => toDecimal key ++ ", ".toList ++ saveCell val ++ [NL] ++ saveData rest

/-- The checksum loop: the byte values are added in `unsigned long`. -/
def checksumOf (data : Str) : Nat :=
  data.foldl (fun acc c => (acc + byteVal c) % sizeMod) 0

/-- The method `CSpreadsheet::save`: the text written to the stream (the method always
returns true). -/
def save {D : Type} [DoubleOps D] (sheet : Sheet D) : Str :=
  let data := saveData sheet
  "CHECKSUM ".toList ++ toDecimal (checksumOf data) ++ [NL] ++ data

/-! ## Loading -/

/-- Values of the variables `load` declares without initialising them; they are read when
the extraction that should fill them does not store anything. -/
structure Uninit (D : Type) where
  /-- The variable `readChecksum`. -/
  readChecksum : Nat
  /-- The variable `key`. -/
  key : Nat
  /-- The variable `numValue`. -/
  numValue : D
  /-- The variable `value` of a `Constant`. -/
  value : D
  /-- The variable `paramCount`. -/
  paramCount : D

/-- How `load` can end without returning. -/
inductive LoadError where
  | threw
  | undefinedBehaviour
  deriving DecidableEq, Repr

/-- The result of `load`: it returns a boolean, or an exception leaves it, or its behaviour
is undefined; the sheet is given as far as it had been written. -/
inductive LoadOutcome (D : Type) where
  | returned (ok : Bool) (sheet : Sheet D)
  | threw (sheet : Sheet D)
  | undefinedBehaviour
  deriving DecidableEq, Repr

/-- The loop that replaces every pair of double quotes by one. -/
def unescape : Str → Str
  | [] => []
  | [c] => [c]
  | c :: d :: rest =>
    if c = QUOTE ∧ d = QUOTE then QUOTE :: unescape rest else c :: unescape (d :: rest)

/-- The two `getline` calls up to a double quote that read a quoted text, followed by the
unescaping loop. -/
def readQuoted (s : IStream) : Str :=
  let (content1, s1) := getline s [] QUOTE
  let (content2, _) := getline s1 content1 QUOTE
  unescape content2

/-- The body of the loop over the elements of a program line: from one piece between commas
to the node pushed, if any. -/
def parseElement {D : Type} [DoubleOps D] (u : Uninit D) (piece : Str) :
    Except LoadError (Option (ExprElement D)) :=
  let element1 := piece.dropWhile (fun c => c == ' ')
  match element1.getLast? with
  | none => .error .undefinedBehaviour
  | some b =>
    let element := if b = ']' then element1.dropLast else element1
    let (type, es1) := readString (IStream.ofStr element) []
    let es2 := es1.ws
    if type = "Reference".toList then
      match Reference.ofStr (readString es2 []).1 with
      | none => .error .threw
      | some r => .ok (some (.reference r))
    else if type = "Constant".toList then
      .ok (some (.constant (readDouble es2 u.value)))
    else if type = "UnaryOperation".toList then
      .ok (some (.unaryOperation (readString es2 []).1))
    else if type = "BinaryOperation".toList then
      .ok (some (.binaryOperation (readString es2 []).1))
    else if type = "String".toList then
      .ok (some (.stringVariable (readQuoted es2)))
    else if type = "Range".toList then
      .ok (some (.range (readString es2 []).1))
    else if type = "Function".toList then
      let (functionName, es3) := readString es2 []
      .ok (some (.functionCall functionName
        (DoubleOps.toSizeT (readDouble es3 u.paramCount) % sizeMod)))
    else .ok none

/-- The loop over the pieces of a program line. -/
def parseElements {D : Type} [DoubleOps D] (u : Uninit D) :
    List Str → Program D → Except LoadError (Program D)
  | [], exprStack => .ok exprStack
  | piece :: rest, exprStack =>
    match parseElement u piece with
    | .error e => .error e
    | .ok none => parseElements u rest exprStack
    | .ok (some e) => parseElements u rest (exprStack ++ [e])

/-- The body of the loop over the lines of the data region: the key and the content that the
line assigns. -/
def parseLine {D : Type} [DoubleOps D] (u : Uninit D) (line : Str) :
    Except LoadError (Nat × CustomCValue D) :=
  let (key, ss1) := readULong (IStream.ofStr line) u.key
  let (_, ss2) := readChar ss1 ' '
  let (_, ss3) := ss2.get
  let (pk, ss4) := ss3.peek
  if pk = some '[' then
    let (_, ss5) := ss4.get
    match parseElements u (allLines ss5 ',') [] with
    | .error e => .error e
    | .ok exprStack => .ok (key, .expr exprStack)
  else
    let (pk2, ss5) := ss4.peek
    if pk2 = some QUOTE then .ok (key, .string (readQuoted ss5))
    else
      let (pk3, ss6) := ss5.peek
      if pk3 ≠ some 'u' then .ok (key, .double (readDouble ss6 u.numValue))
      else .ok (key, .monostate)

/-- The loop of `load` over the lines of the data region. -/
def loadLines {D : Type} [DoubleOps D] (u : Uninit D) : List Str → Sheet D → LoadOutcome D
  | [], sheet => .returned true sheet
  | line :: rest, sheet =>
    match parseLine u line with
    | .error .threw => .threw sheet
    | .error .undefinedBehaviour => .undefinedBehaviour
    | .ok (key, val) => loadLines u rest (sheet.assign key val)

/-- The first line of the stream, if `getline` can read one, and the stream after it. -/
def headerLine (is : Str) : Option (Str × IStream) :=
  match getline (IStream.ofStr is) [] NL with
  | (line, s1) => if s1.failbit then none else some (line, s1)

/-- The word `checksumLabel` read from the first line. -/
def headerLabel (line : Str) : Str := (readString (IStream.ofStr line) []).1

/-- The number `readChecksum` read from the first line. -/
def declaredChecksum (readChecksum : Nat) (line : Str) : Nat :=
  (readULong (readString (IStream.ofStr line) []).2 readChecksum).1

/-- The text gathered in `contentStream`: every line read, followed by a newline. -/
def contentOf : List Str → Str
  | [] => []
  | line :: rest => line ++ [NL] ++ contentOf rest

/-- The value of `calculatedChecksum` after the reading loop. -/
def calculatedChecksum : List Str → Nat → Nat
  | [], acc => acc
  | line :: rest, acc =>
    calculatedChecksum rest
      ((line.foldl (fun a c => (a + byteVal c) % sizeMod) acc + byteVal NL) % sizeMod)

/-- The lines the second loop of `load` reads back from `contentStream`, given the stream
after the first line. -/
def dataLines (s1 : IStream) : List Str :=
  allLines (IStream.ofStr (contentOf (allLines s1 NL))) NL

/-- The method `CSpreadsheet::load` applied to a stream holding the text `is`. -/
def load {D : Type} [DoubleOps D] (u : Uninit D) (sheet : Sheet D) (is : Str) : LoadOutcome D :=
  match headerLine is with
  | none => .returned false sheet
  | some (line, s1) =>
    if headerLabel line ≠ "CHECKSUM".toList then .returned false sheet
    else if declaredChecksum u.readChecksum line ≠ calculatedChecksum (allLines s1 NL) 0 then
      .returned false sheet
    else loadLines u (dataLines s1) sheet

/-! ## Evaluation -/

/-- How a piece of the evaluator can end: normally with a result, by a C++ exception, with
undefined behaviour, or not at all within the fuel given. The set `evaluationPath` is passed
by reference, so it survives an exception. -/
inductive Outcome (α : Type) where
  | done (a : α) (path : Path)
  | threw (path : Path)
  | undefinedBehaviour
  | outOfFuel
  deriving DecidableEq, Repr

/-- The comparison `operator<` of `std::string`: lexicographic on the bytes. -/
def strLt : Str → Str → Bool
  | _, [] => false
  | [], _ :: _ => true
  | a :: as, b :: bs =>
    if byteVal a < byteVal b then true
    else if byteVal b < byteVal a then false
    else strLt as bs

/-- A truth value as the number `1.0` or `0.0`. -/
def boolValue {D : Type} [DoubleOps D] (b : Bool) : CValue D :=
  .double (if b then DoubleOps.one else DoubleOps.zero)

/-- The method `BinaryOperation::perform`; `none` when `std::get` throws. -/
def perform {D : Type} [DoubleOps D] (op : Str) (left right : CValue D) : Option (CValue D) :=
  if op = "+".toList then
    match left, right with
    | .string l, .string r => some (.string (l ++ r))
    | .string l, .double r => some (.string (l ++ DoubleOps.toStr r))
    | .double l, .string r => some (.string (DoubleOps.toStr l ++ r))
    | .string _, .monostate => none
    | .monostate, .string _ => none
    | .double l, .double r => some (.double (DoubleOps.add l r))
    | _, _ => some .monostate
  else if op = "-".toList ∨ op = "*".toList ∨ op = "/".toList ∨ op = "^".toList then
    match left, right with
    | .double l, .double r =>
      if op = "-".toList then some (.double (DoubleOps.sub l r))
      else if op = "*".toList then some (.double (DoubleOps.mul l r))
      else if op = "/".toList then
        if DoubleOps.eq r DoubleOps.zero then some .monostate
        else some (.double (DoubleOps.div l r))
      else if op = "^".toList then some (.double (DoubleOps.pow l r))
      else some .monostate
    | _, _ => some .monostate
  else if op = "<".toList ∨ op = "<=".toList ∨ op = ">".toList ∨ op = ">=".toList ∨
      op = "=".toList ∨ op = "<>".toList then
    match left, right with
    | .double l, .double r =>
      if op = "<".toList then some (boolValue (DoubleOps.lt l r))
      else if op = "<=".toList then some (boolValue (DoubleOps.le l r))
      else if op = ">".toList then some (boolValue (DoubleOps.lt r l))
      else if op = ">=".toList then some (boolValue (DoubleOps.le r l))
      else if op = "=".toList then some (boolValue (DoubleOps.eq l r))
      else if op = "<>".toList then some (boolValue (!DoubleOps.eq l r))
      else some .monostate
    | .string l, .string r =>
      if op = "=".toList then some (boolValue (decide (l = r)))
      else if op = "<>".toList then some (boolValue (decide (l ≠ r)))
      else if op = "<".toList then some (boolValue (strLt l r))
      else if op = "<=".toList then some (boolValue (!strLt r l))
      else if op = ">".toList then some (boolValue (strLt r l))
      else if op = ">=".toList then some (boolValue (!strLt l r))
      else some .monostate
    | _, _ => some .monostate
  else some .monostate

/-- The method `BinaryOperation::evaluate`; the stack has its top first. -/
def BinaryOperation.evaluate {D : Type} [DoubleOps D] (op : Str) (evalStack : List (CValue D))
    (path : Path) : Outcome (List (CValue D)) :=
  match evalStack with
  | rightValue :: leftValue :: rest =>
    match perform op leftValue rightValue with
    | none => .threw path
    | some .monostate => .threw path
    | some result => .done (result :: rest) path
  | _ => .threw path

/-- The method `UnaryOperation::evaluate`. -/
def UnaryOperation.evaluate {D : Type} [DoubleOps D] (op : Str) (evalStack : List (CValue D))
    (path : Path) : Outcome (List (CValue D)) :=
  match evalStack with
  | [] => .threw path
  | .double operand :: rest =>
    if op = "-".toList then .done (.double (DoubleOps.neg operand) :: rest) path
    else .threw path
  | _ :: _ => .threw path

/-- A loop body run over a list of indices, stopping at the first step that does not end
normally. -/
def foldIndices {σ : Type} (body : Nat → σ → Path → Outcome σ) :
    List Nat → σ → Path → Outcome σ
  | [], s, p => .done s p
  | i :: rest, s, p =>
    match body i s p with
    | .done s1 p1 => foldIndices body rest s1 p1
    | o => o

/-- A loop whose index wraps around and whose condition never fails. -/
def cycleIndices {σ : Type} (body : Nat → σ → Path → Outcome σ) :
    Nat → Nat → σ → Path → Outcome σ
  | 0, _, _, _ => .outOfFuel
  | fuel + 1, i, s, p =>
    match body i s p with
    | .done s1 p1 => cycleIndices body fuel ((i + 1) % sizeMod) s1 p1
    | o => o

/-- The loop `for (size_t i = first; i <= last; ++i)`: when `last` is the greatest `size_t`
the condition always holds and the index wraps around. -/
def forSizeT {σ : Type} (fuel : Nat) (first last : Nat) (body : Nat → σ → Path → Outcome σ)
    (init : σ) (path : Path) : Outcome σ :=
  if last + 1 < sizeMod then foldIndices body (List.range' first (last + 1 - first)) init path
  else cycleIndices body fuel first init path

/-- The two nested loops of a range function: rows outside, columns inside; the body gets
the key of the cell `CPos(c, r)`. -/
def forCells {σ : Type} (fuel : Nat) (start stop : CPos)
    (body : Nat → σ → Path → Outcome σ) (init : σ) (path : Path) : Outcome σ :=
  forSizeT fuel start.row stop.row
    (fun r => forSizeT fuel start.column stop.column
      (fun c => body (CPos.getUniqueId ⟨c, r⟩))) init path

/-- The value of a cell inside a range function: a stored number or text, or the result of
evaluating the stored program with `evaluateExpression` (passed as `rec`). -/
def cellValue {D : Type} (rec : Program D → Path → Outcome (CValue D)) (sheet : Sheet D)
    (id : Nat) (path : Path) : Outcome (Option (CustomCValue D) × CValue D) :=
  match sheet.find id with
  | some (.expr prog) =>
    match rec prog path with
    | .done result p => .done (some (.expr prog), result) p
    | .threw p => .threw p
    | .undefinedBehaviour => .undefinedBehaviour
    | .outOfFuel => .outOfFuel
  | some (.double d) => .done (some (.double d), .double d) path
  | some (.string s) => .done (some (.string s), .string s) path
  | other => .done (other, .monostate) path

/-- The body of the loop of `sum`. -/
def sumBody {D : Type} [DoubleOps D] (rec : Program D → Path → Outcome (CValue D))
    (sheet : Sheet D) (id : Nat) (acc : D × Bool) (path : Path) : Outcome (D × Bool) :=
  match cellValue rec sheet id path with
  | .done (some (.double _), .double d) p => .done (DoubleOps.add acc.1 d, true) p
  | .done (some (.expr _), .double d) p => .done (DoubleOps.add acc.1 d, true) p
  | .done _ p => .done acc p
  | .threw p => .threw p
  | .undefinedBehaviour => .undefinedBehaviour
  | .outOfFuel => .outOfFuel

/-- The body of the loop of `count`. -/
def countBody {D : Type} (rec : Program D → Path → Outcome (CValue D))
    (sheet : Sheet D) (id : Nat) (count : Nat) (path : Path) : Outcome Nat :=
  match cellValue rec sheet id path with
  | .done (none, _) p => .done count p
  | .done (some .monostate, _) p => .done count p
  | .done (some (.expr _), .monostate) p => .done count p
  | .done _ p => .done ((count + 1) % sizeMod) p
  | .threw p => .threw p
  | .undefinedBehaviour => .undefinedBehaviour
  | .outOfFuel => .outOfFuel

/-- The body of the loops of `min` and `max`: `better val best` is `val < *minVal` for `min`
and `val > *maxVal` for `max`. -/
def extremumBody {D : Type} (better : D → D → Bool)
    (rec : Program D → Path → Outcome (CValue D))
    (sheet : Sheet D) (id : Nat) (best : Option D) (path : Path) : Outcome (Option D) :=
  let update (val : D) : Option D :=
    match best with
    | none => some val
    | some b => if better val b then some val else some b
  match cellValue rec sheet id path with
  | .done (some (.double _), .double d) p => .done (update d) p
  | .done (some (.expr _), .double d) p => .done (update d) p
  | .done _ p => .done best p
  | .threw p => .threw p
  | .undefinedBehaviour => .undefinedBehaviour
  | .outOfFuel => .outOfFuel

/-- The body of the loop of `countval`. -/
def countvalBody {D : Type} [DoubleOps D] (valueToMatch : CValue D)
    (rec : Program D → Path → Outcome (CValue D))
    (sheet : Sheet D) (id : Nat) (count : Nat) (path : Path) : Outcome Nat :=
  match cellValue rec sheet id path with
  | .done (some _, .double d) p =>
    match valueToMatch with
    | .double m => .done (if DoubleOps.eq d m then (count + 1) % sizeMod else count) p
    | _ => .done count p
  | .done (some _, .string s) p =>
    match valueToMatch with
    | .string m => .done (if s = m then (count + 1) % sizeMod else count) p
    | _ => .done count p
  | .done _ p => .done count p
  | .threw p => .threw p
  | .undefinedBehaviour => .undefinedBehaviour
  | .outOfFuel => .outOfFuel

/-- The text of a range split at the first colon, dollar signs removed, both ends turned
into positions; `none` when an exception is thrown. -/
def parseRange (rangeStr : Str) : Option (CPos × CPos) :=
  match rangeStr.dropWhile (fun c => c != ':') with
  | [] => none
  | _ :: after =>
    let startStr := (rangeStr.takeWhile (fun c => c != ':')).filter (fun c => c != '$')
    let endStr := after.filter (fun c => c != '$')
    match CPos.ofStr startStr with
    | none => none
    | some start =>
      match CPos.ofStr endStr with
      | none => none
      | some stop => some (start, stop)

/-- The part of an outcome that does not depend on the type of the result. -/
def Outcome.bind {α β : Type} (o : Outcome α) (f : α → Path → Outcome β) : Outcome β :=
  match o with
  | .done a p => f a p
  | .threw p => .threw p
  | .undefinedBehaviour => .undefinedBehaviour
  | .outOfFuel => .outOfFuel

/-- The method `FunctionCall::evaluate` of `src/ExprElement.cpp`. -/
def FunctionCall.evaluate {D : Type} [DoubleOps D] (fuel : Nat)
    (rec : Program D → Path → Outcome (CValue D)) (sheet : Sheet D)
    (functionName : Str) (parameterCount : Nat) (evalStack : List (CValue D)) (path : Path) :
    Outcome (List (CValue D)) :=
  if evalStack.length < parameterCount then .threw path
  else
    let params : List (CValue D) := (evalStack.take parameterCount).reverse
    let rest := evalStack.drop parameterCount
    let isCountval : Bool := functionName = "countval".toList
    let isIf : Bool := functionName = "if".toList
    -- the test that the first parameter is a text
    let firstCheck : Outcome Unit :=
      if !isCountval && !isIf then
        match params.get? 0 with
        | none => .undefinedBehaviour
        | some (.string _) => .done () path
        | some _ => .threw path
      else .done () path
    firstCheck.bind fun _ _ =>
    -- the range
    let range : Outcome (CPos × CPos) :=
      if !isIf then
        match (if !isCountval then params.get? 0 else params.get? 1) with
        | none => .undefinedBehaviour
        | some (.string rangeStr) =>
          match parseRange rangeStr with
          | none => .threw path
          | some r => .done r path
        | some _ => .threw path
      else .done (⟨0, 0⟩, ⟨0, 0⟩) path
    range.bind fun (start, stop) _ =>
    if functionName = "sum".toList then
      (forCells fuel start stop (sumBody rec sheet) (DoubleOps.zero, false) path).bind
        fun acc p => if acc.2 then .done (.double acc.1 :: rest) p else .threw p
    else if functionName = "count".toList then
      (forCells fuel start stop (countBody rec sheet) 0 path).bind
        fun count p => .done (.double (DoubleOps.ofSizeT count) :: rest) p
    else if functionName = "min".toList then
      (forCells fuel start stop (extremumBody (fun a b => DoubleOps.lt a b) rec sheet) none
        path).bind
        fun best p =>
          match best with
          | some m => .done (.double m :: rest) p
          | none => .threw p
    else if functionName = "max".toList then
      (forCells fuel start stop (extremumBody (fun a b => DoubleOps.lt b a) rec sheet) none
        path).bind
        fun best p =>
          match best with
          | some m => .done (.double m :: rest) p
          | none => .threw p
    else if isCountval then
      if parameterCount ≠ 2 then .threw path
      else
        match params.get? 0 with
        | none => .undefinedBehaviour
        | some valueToMatch =>
          (forCells fuel start stop (countvalBody valueToMatch rec sheet) 0 path).bind
            fun count p => .done (.double (DoubleOps.ofSizeT count) :: rest) p
    else if isIf then
      if parameterCount ≠ 3 then .threw path
      else
        match params with
        | [.double cond, a, b] =>
          .done ((if !DoubleOps.eq cond DoubleOps.zero then a else b) :: rest) path
        | _ => .threw path
    else .threw path

/-- The method `Reference::evaluate`. -/
def Reference.evaluate {D : Type} (rec : Program D → Path → Outcome (CValue D))
    (sheet : Sheet D) (r : Reference) (evalStack : List (CValue D)) (path : Path) :
    Outcome (List (CValue D)) :=
  let id := CPos.getUniqueId ⟨r.column, r.row⟩
  match sheet.find id with
  | none => .threw path
  | some (.double d) => .done (.double d :: evalStack) path
  | some (.string s) => .done (.string s :: evalStack) path
  | some (.expr exprStack) =>
    if id ∈ path then .threw []
    else
      match rec exprStack (id :: path) with
      | .done result p => .done (result :: evalStack) (p.filter (fun k => k != id))
      | .threw p => .threw p
      | .undefinedBehaviour => .undefinedBehaviour
      | .outOfFuel => .outOfFuel
  | some _ => .threw path

/-- The virtual method `ExprElement::evaluate`. -/
def ExprElement.evaluate {D : Type} [DoubleOps D] (fuel : Nat)
    (rec : Program D → Path → Outcome (CValue D)) (sheet : Sheet D)
    (e : ExprElement D) (evalStack : List (CValue D)) (path : Path) :
    Outcome (List (CValue D)) :=
  match e with
  | .constant value => .done (.double value :: evalStack) path
  | .stringVariable name => .done (.string name :: evalStack) path
  | .binaryOperation op => BinaryOperation.evaluate op evalStack path
  | .unaryOperation op => UnaryOperation.evaluate op evalStack path
  | .range rangeRef => .done (.string rangeRef :: evalStack) path
  | .functionCall functionName parameterCount =>
    FunctionCall.evaluate fuel rec sheet functionName parameterCount evalStack path
  | .reference r => Reference.evaluate rec sheet r evalStack path

/-- The loop of `evaluateExpression` over the nodes, in the order the builder pushed them. -/
def runNodes {D : Type} (node : ExprElement D → List (CValue D) → Path →
    Outcome (List (CValue D))) : Program D → List (CValue D) → Path → Outcome (List (CValue D))
  | [], evalStack, p => .done evalStack p
  | e :: es, evalStack, p =>
    match node e evalStack p with
    | .done st p1 => runNodes node es st p1
    | o => o

/-- The function `evaluateExpression`: an exception of a node gives the empty value, a stack
that does not hold exactly one value at the end throws. The fuel bounds the depth of the
recursion through `Reference::evaluate` and `FunctionCall::evaluate`. -/
def evaluateExpression {D : Type} [DoubleOps D] :
    Nat → Sheet D → Program D → Path → Outcome (CValue D)
  | 0, _, _, _ => .outOfFuel
  | fuel + 1, sheet, exprStack, path =>
    match runNodes (ExprElement.evaluate (fuel + 1) (evaluateExpression fuel sheet) sheet)
        exprStack [] path with
    | .done [result] p => .done result p
    | .done _ p => .threw p
    | .threw p => .done .monostate p
    | .undefinedBehaviour => .undefinedBehaviour
    | .outOfFuel => .outOfFuel

/-- The method `CSpreadsheet::getValue`, with the set `evaluationPath` as it is on entry. -/
def getValue {D : Type} [DoubleOps D] (fuel : Nat) (sheet : Sheet D) (path : Path)
    (pos : CPos) : Outcome (CValue D) :=
  let uniqueId := pos.getUniqueId
  match sheet.find uniqueId with
  | some (.double d) => .done (.double d) path
  | some (.string s) => .done (.string s) path
  | some (.int i) => .done (.double (DoubleOps.ofInt i)) path
  | some (.expr exprStack) =>
    if uniqueId ∈ path then .threw []
    else
      match evaluateExpression fuel sheet exprStack (uniqueId :: path) with
      | .done result _ => .done result []
      | .threw _ => .done .monostate []
      | .undefinedBehaviour => .undefinedBehaviour
      | .outOfFuel => .outOfFuel
  | _ => .done .monostate []

/-! ## Copying a rectangle -/

/-- What `copyRect` does to one node: a `Reference` is copied and moved, any other node is
shared. -/
def relocate {D : Type} (offset : CPos) : ExprElement D → ExprElement D
  | .reference r => .reference (r.moveRelativeReferencesBy offset)
  | e => e

/-- The content `copyRect` stages for the destination of the source cell with key `fromId`. -/
def stagedContent {D : Type} (sheet : Sheet D) (offset : CPos) (fromId : Nat) :
    CustomCValue D :=
  match sheet.find fromId with
  | some (.expr prog) => .expr (prog.map (relocate offset))
  | some content => content
  | none => .monostate

/-- The vector `tempStorage` after the two loops of `copyRect`. -/
def tempStorage {D : Type} (sheet : Sheet D) (dst src : CPos) (w h : Int) :
    List (Nat × CustomCValue D) :=
  (List.range h.toNat).flatMap fun (y : Nat) =>
    (List.range w.toNat).map fun (x : Nat) =>
      ((dst.shift (x : Int) (y : Int)).getUniqueId,
        stagedContent sheet (dst.sub src) (src.shift (x : Int) (y : Int)).getUniqueId)

/-- The last loop of `copyRect`: the staged contents are assigned in order. -/
def applyStorage {D : Type} : List (Nat × CustomCValue D) → Sheet D → Sheet D
  | [], sheet => sheet
  | (id, val) :: rest, sheet => applyStorage rest (sheet.assign id val)

/-- The product `w * h` of two `int`s as the program computes it: in 32 bits, wrapping
around in two's complement when the exact product is no `int`. -/
def mulInt32 (w h : Int) : Int := (w * h + 2 ^ 31) % 2 ^ 32 - 2 ^ 31

/-- How a call of `copyRect` ends, with the sheet as it is then: it returns, or the call
`tempStorage.reserve(w * h)` throws `std::length_error`. -/
inductive CopyOutcome (D : Type) where
  | returned (sheet : Sheet D)
  | lengthError (sheet : Sheet D)

/-- The sheet after a call of `copyRect`, however the call ended. -/
def CopyOutcome.sheet {D : Type} : CopyOutcome D → Sheet D
  | .returned sheet => sheet
  | .lengthError sheet => sheet

/-- The method `CSpreadsheet::copyRect`. The call `tempStorage.reserve(w * h)` comes first:
its argument is the `int` product converted to `size_t`, so a negative product asks for more
than `max_size()` elements and `std::length_error` leaves the method before any cell is
read. A product that is not negative is below `2^31`, and the memory for so many elements is
taken to be there. -/
def copyRect {D : Type} (sheet : Sheet D) (dst src : CPos) (w h : Int) : CopyOutcome D :=
  if mulInt32 w h < 0 then .lengthError sheet
  else .returned (applyStorage (tempStorage sheet dst src w h) sheet)

/-! ## Setting a cell -/

/-- The calls the parser makes on a `CExprBuilder`. -/
inductive BuilderCall (D : Type) where
  | opAdd
  | opSub
  | opMul
  | opDiv
  | opPow
  | opNeg
  | opEq
  | opNe
  | opLt
  | opLe
  | opGt
  | opGe
  | valNumber (val : D)
  | valString (val : Str)
  | valReference (val : Str)
  | valRange (val : Str)
  | funcCall (fnName : Str) (paramCount : Int)
  deriving DecidableEq, Repr

/-- The node one method of `CustomExpressionBuilder` pushes; `none` when the constructor of
`Reference` throws. The `int` count of `funcCall` is converted to `size_t`. -/
def CustomExpressionBuilder.node {D : Type} : BuilderCall D → Option (ExprElement D)
  | .opAdd => some (.binaryOperation "+".toList)
  | .opSub => some (.binaryOperation "-".toList)
  | .opMul => some (.binaryOperation "*".toList)
  | .opDiv => some (.binaryOperation "/".toList)
  | .opPow => some (.binaryOperation "^".toList)
  | .opNeg => some (.unaryOperation "-".toList)
  | .opEq => some (.binaryOperation "=".toList)
  | .opNe => some (.binaryOperation "<>".toList)
  | .opLt => some (.binaryOperation "<".toList)
  | .opLe => some (.binaryOperation "<=".toList)
  | .opGt => some (.binaryOperation ">".toList)
  | .opGe => some (.binaryOperation ">=".toList)
  | .valNumber val => some (.constant val)
  | .valString val => some (.stringVariable val)
  | .valReference val =>
    match Reference.ofStr val with
    | none => none
    | some r => some (.reference r)
  | .valRange val => some (.range val)
  | .funcCall fnName paramCount =>
    some (.functionCall fnName ((paramCount % (sizeMod : Int)).toNat))

/-- The stack `expression` of a `CustomExpressionBuilder` after a sequence of calls, starting
from the stack given; `none` when one of the calls throws. -/
def CustomExpressionBuilder.getExpression {D : Type} :
    List (BuilderCall D) → Program D → Option (Program D)
  | [], expression => some expression
  | call :: rest, expression =>
    match CustomExpressionBuilder.node call with
    | none => none
    | some e => CustomExpressionBuilder.getExpression rest (expression ++ [e])

/-- The method `CSpreadsheet::DetermineValue`. -/
def DetermineValue {D : Type} [DoubleOps D] (contents : Str) : CustomCValue D :=
  if contents.isEmpty then .monostate
  else
    match DoubleOps.stod contents with
    | some (numVal, idx) => if idx = contents.length then .double numVal else .string contents
    | none => .string contents

/-- The result of `setCell`: it returns a boolean, or an exception leaves it. -/
inductive SetOutcome (D : Type) where
  | returned (ok : Bool) (sheet : Sheet D)
  | threw (sheet : Sheet D)
  deriving DecidableEq, Repr

/-- The method `CSpreadsheet::setCell`. The parser `parseExpression` comes from the library
behind `expression.h`, which is not part of the sources: it is a parameter that gives the
calls the parser makes on the builder for a text, `none` when the parser throws. -/
def setCell {D : Type} [DoubleOps D] (parseExpression : Str → Option (List (BuilderCall D)))
    (sheet : Sheet D) (pos : CPos) (contents : Str) : SetOutcome D :=
  if !contents.isEmpty && contents.head? = some '=' then
    match parseExpression contents with
    | none => .threw sheet
    | some calls =>
      match CustomExpressionBuilder.getExpression calls [] with
      | none => .threw sheet
      | some expression => .returned true (sheet.assign pos.getUniqueId (.expr expression))
  else .returned true (sheet.assign pos.getUniqueId (DetermineValue contents))

/-! ## Values named by the specification -/

/-- The rank of a letter in the alphabet, `A` and `a` being 1; zero for another character. -/
def letterRank (c : Char) : Nat :=
  if 65 ≤ c.toNat ∧ c.toNat ≤ 90 then c.toNat - 64
  else if 97 ≤ c.toNat ∧ c.toNat ≤ 122 then c.toNat - 96
  else 0

/-- The bijective base-26 value of a word of letters: `A` is 1, `Z` is 26, `AA` is 27. -/
def bijectiveBase26 (letters : Str) : Nat :=
  letters.foldl (fun acc c => acc * 26 + letterRank c) 0

/-- The decimal value of a word of digits. -/
def decimalValue (digits : Str) : Nat :=
  digits.foldl (fun acc c => acc * 10 + (c.toNat - 48)) 0

/-! ## An instance of the numbers for closed examples -/

/-- The text `std::to_string` prints for a rational: six decimals, rounded half to even. -/
def ratToStr (q : Rat) : Str :=
  let t : Rat := |q| * 1000000
  let f : Nat := t.floor.toNat
  let r : Rat := t - f
  let m : Nat := if 1 / 2 < r ∨ (r = 1 / 2 ∧ f % 2 = 1) then f + 1 else f
  let frac := toDecimal (m % 1000000)
  (if q < 0 then ['-'] else []) ++ toDecimal (m / 1000000) ++ ['.'] ++
    List.replicate (6 - frac.length) '0' ++ frac

/-- A decimal number with optional sign, fraction and exponent, read from the head of a
text; zero when the text does not start a number. -/
def scanRat (s : Str) : Rat :=
  let (negative, s1) :=
    match s with
    | c :: cs => if c = '-' then (true, cs) else if c = '+' then (false, cs) else (false, s)
    | [] => (false, s)
  let intDigits := s1.takeWhile isdigit
  let s2 := s1.dropWhile isdigit
  let (fracDigits, s3) :=
    match s2 with
    | c :: cs => if c = '.' then (cs.takeWhile isdigit, cs.dropWhile isdigit) else ([], s2)
    | [] => ([], s2)
  if intDigits.isEmpty && fracDigits.isEmpty then 0
  else
    let mantissa : Rat := (digitsValue (intDigits ++ fracDigits) 0 : Rat) / 10 ^ fracDigits.length
    let signed : Rat := if negative then -mantissa else mantissa
    match s3 with
    | c :: cs =>
      if c = 'e' ∨ c = 'E' then
        let (expNegative, s4) :=
          match cs with
          | d :: ds => if d = '-' then (true, ds) else if d = '+' then (false, ds) else (false, cs)
          | [] => (false, cs)
        match s4 with
        | d :: _ =>
          if isdigit d then
            if expNegative then signed / 10 ^ digitsValue s4 0 else signed * 10 ^ digitsValue s4 0
          else 0
        | [] => 0
      else signed
    | [] => signed

/-- The function `std::stod` on rationals: white space, an optional sign, digits with an
optional fraction, and an exponent when digits follow it; the count of characters processed is
returned with the value, and `none` stands for `std::invalid_argument`. -/
def stodRat (s : Str) : Option (Rat × Nat) :=
  let skipped := (s.takeWhile isspace).length
  let s0 := s.dropWhile isspace
  let (negative, signLen, s1) :=
    match s0 with
    | c :: cs =>
      if c = '-' then (true, 1, cs) else if c = '+' then (false, 1, cs) else (false, 0, s0)
    | [] => (false, 0, s0)
  let intDigits := s1.takeWhile isdigit
  let s2 := s1.dropWhile isdigit
  let (fracDigits, dotLen, s3) :=
    match s2 with
    | c :: cs =>
      if c = '.' then (cs.takeWhile isdigit, 1, cs.dropWhile isdigit) else ([], 0, s2)
    | [] => ([], 0, s2)
  if intDigits.isEmpty && fracDigits.isEmpty then none
  else
    let mantissa : Rat := mkRat (digitsValue (intDigits ++ fracDigits) 0) (10 ^ fracDigits.length)
    let signed : Rat := if negative then -mantissa else mantissa
    let processed := skipped + signLen + intDigits.length + dotLen + fracDigits.length
    match s3 with
    | c :: cs =>
      if c = 'e' ∨ c = 'E' then
        let (expNegative, expSignLen, s4) :=
          match cs with
          | d :: ds =>
            if d = '-' then (true, 1, ds) else if d = '+' then (false, 1, ds) else (false, 0, cs)
          | [] => (false, 0, cs)
        let expDigits := s4.takeWhile isdigit
        if expDigits.isEmpty then some (signed, processed)
        else
          some (if expNegative then signed / 10 ^ digitsValue expDigits 0
              else signed * 10 ^ digitsValue expDigits 0,
            processed + 1 + expSignLen + expDigits.length)
      else some (signed, processed)
    | [] => some (signed, processed)

/-- Numbers idealised as exact rationals: no rounding and no infinities. The power is only
represented for integer exponents. This instance serves to evaluate the definitions at
concrete sheets and to state what a number printed with six decimals reads back as; the
other theorems hold for every instance. -/
instance : DoubleOps Rat where
  zero := 0
  one := 1
  add a b := a + b
  sub a b := a - b
  mul a b := a * b
  div a b := a / b
  pow a b := if b.den = 1 then a ^ b.num else 0
  neg a := -a
  lt a b := decide (a < b)
  le a b := decide (a ≤ b)
  eq a b := decide (a = b)
  ofSizeT n := (n : Rat)
  ofInt i := (i : Rat)
  toSizeT a := (Int.toNat (a.num.tdiv a.den)) % sizeMod
  toStr := ratToStr
  scan := scanRat
  stod := stodRat

/-- A record of values for the uninitialised variables of `load`. -/
def uninit0 : Uninit Rat := ⟨0, 0, 0, 0, 0⟩

/-! ## Concrete sheets and streams used in the examples -/

/-- The key of the cell A1. -/
def idA1 : Nat := 4294967297

/-- The key of the cell B1. -/
def idB1 : Nat := 8589934593

/-- The node the builder makes for the reference `A1`. -/
def refA1 : Reference := ⟨1, 1, false, false, "A1".toList⟩

/-- The node the builder makes for the reference `B1`. -/
def refB1 : Reference := ⟨1, 2, false, false, "B1".toList⟩

/-- The program of the formula `=B1+A1`. -/
def progB1plusA1 : Program Rat :=
  [.reference refB1, .reference refA1, .binaryOperation "+".toList]

/-- The sheet with `A1 := =B1+A1` and `B1 := =B1`. -/
def cyclicSheet : Sheet Rat :=
  [(idA1, .expr progB1plusA1), (idB1, .expr [.reference refB1])]

/-- The sheet whose cell A1 holds the text `a"b`. -/
def quoteSheet : Sheet Rat := [(idA1, .string ['a', QUOTE, 'b'])]

/-- The sheet whose cell A1 holds the program of the formula `="a,b"`. -/
def commaSheet : Sheet Rat := [(idA1, .expr [.stringVariable "a,b".toList])]

/-- The sheet whose cell A1 holds a text of two lines, the second being
`5, [Reference A`. -/
def twoLineSheet : Sheet Rat := [(idA1, .string (['x', NL] ++ "5, [Reference A".toList))]

/-- The sheet whose cell A1 holds the text `x`. -/
def textSheet : Sheet Rat := [(idA1, .string ['x'])]

/-- The empty sheet. -/
def emptySheet : Sheet Rat := []

/-- A stream with a valid header and checksum whose only data line lists an unknown kind
of node. -/
def unknownNodeStream : Str := "CHECKSUM 694".toList ++ [NL] ++ "1, [Foo 3]".toList ++ [NL]

/-- A stream with a valid header and checksum whose data region is one empty line. -/
def emptyLineStream : Str := "CHECKSUM 10".toList ++ [NL, NL]

/-- A stream with a valid header and checksum and the data line `1, undefined`. -/
def undefinedCellStream : Str :=
  "CHECKSUM 1081".toList ++ [NL] ++ "1, undefined".toList ++ [NL]

/-- A stream whose declared checksum does not fit its data region. -/
def badChecksumStream : Str := "CHECKSUM 5".toList ++ [NL] ++ "1, undefined".toList ++ [NL]

/-- The key of the cell F10. -/
def idF10 : Nat := 25769803786

/-- The key of the cell G11. -/
def idG11 : Nat := 30064771083

/-- The node the builder makes for the reference `$E1`. -/
def refAbsE1 : Reference := ⟨1, 5, false, true, "$E1".toList⟩

/-- The program of the formula `=$E1+"x"`. -/
def progE1 : Program Rat :=
  [.reference refAbsE1, .stringVariable ['x'], .binaryOperation "+".toList]

/-- A sheet whose cell G11 holds the program of the formula `=$E1+"x"` and whose cell F10
holds a text. -/
def copySheet : Sheet Rat :=
  [(idG11, .expr progE1), (idF10, .string ['t'])]

/-- The key of the cell A2. -/
def idA2 : Nat := 4294967298

/-- The node the builder makes for the reference `A2`. -/
def refA2 : Reference := ⟨2, 1, false, false, "A2".toList⟩

/-- The sheet with `A1 := =A2` and `A2 := =A1`. -/
def twoCycleSheet : Sheet Rat :=
  [(idA1, .expr [.reference refA2]), (idA2, .expr [.reference refA1])]

/-- A parser that rejects every text; it stands for `parseExpression` where no formula is
parsed. -/
def noParser : Str → Option (List (BuilderCall Rat)) := fun _ => none

/-- A text with a double quote and a newline. -/
def rawText : Str := "raw ".toList ++ [QUOTE, NL]

/-! ## The range function `max` of the single-file build -/

/-- The body of the loop of `max` in `src/excel.cpp`: a stored number replaces the greatest
value found so far when `val > *maxVal`, the result of a stored program when
`val < *maxVal`. -/
def maxBodySingleFile {D : Type} [DoubleOps D] (rec : Program D → Path → Outcome (CValue D))
    (sheet : Sheet D) (id : Nat) (best : Option D) (path : Path) : Outcome (Option D) :=
  match cellValue rec sheet id path with
  | .done (some (.double _), .double d) p =>
    match best with
    | none => .done (some d) p
    | some b => .done (if DoubleOps.lt b d then some d else some b) p
  | .done (some (.expr _), .double d) p =>
    match best with
    | none => .done (some d) p
    | some b => .done (if DoubleOps.lt d b then some d else some b) p
  | .done _ p => .done best p
  | .threw p => .threw p
  | .undefinedBehaviour => .undefinedBehaviour
  | .outOfFuel => .outOfFuel

/-- The method `FunctionCall::evaluate` of `src/excel.cpp`. -/
def FunctionCall.evaluateSingleFile {D : Type} [DoubleOps D] (fuel : Nat)
    (rec : Program D → Path → Outcome (CValue D)) (sheet : Sheet D)
    (functionName : Str) (parameterCount : Nat) (evalStack : List (CValue D)) (path : Path) :
    Outcome (List (CValue D)) :=
  if evalStack.length < parameterCount then .threw path
  else
    let params : List (CValue D) := (evalStack.take parameterCount).reverse
    let rest := evalStack.drop parameterCount
    let isCountval : Bool := functionName = "countval".toList
    let isIf : Bool := functionName = "if".toList
    let firstCheck : Outcome Unit :=
      if !isCountval && !isIf then
        match params.get? 0 with
        | none => .undefinedBehaviour
        | some (.string _) => .done () path
        | some _ => .threw path
      else .done () path
    firstCheck.bind fun _ _ =>
    let range : Outcome (CPos × CPos) :=
      if !isIf then
        match (if !isCountval then params.get? 0 else params.get? 1) with
        | none => .undefinedBehaviour
        | some (.string rangeStr) =>
          match parseRange rangeStr with
          | none => .threw path
          | some r => .done r path
        | some _ => .threw path
      else .done (⟨0, 0⟩, ⟨0, 0⟩) path
    range.bind fun (start, stop) _ =>
    if functionName = "sum".toList then
      (forCells fuel start stop (sumBody rec sheet) (DoubleOps.zero, false) path).bind
        fun acc p => if acc.2 then .done (.double acc.1 :: rest) p else .threw p
    else if functionName = "count".toList then
      (forCells fuel start stop (countBody rec sheet) 0 path).bind
        fun count p => .done (.double (DoubleOps.ofSizeT count) :: rest) p
    else if functionName = "min".toList then
      (forCells fuel start stop (extremumBody (fun a b => DoubleOps.lt a b) rec sheet) none
        path).bind
        fun best p =>
          match best with
          | some m => .done (.double m :: rest) p
          | none => .threw p
    else if functionName = "max".toList then
      (forCells fuel start stop (maxBodySingleFile rec sheet) none path).bind
        fun best p =>
          match best with
          | some m => .done (.double m :: rest) p
          | none => .threw p
    else if isCountval then
      if parameterCount ≠ 2 then .threw path
      else
        match params.get? 0 with
        | none => .undefinedBehaviour
        | some valueToMatch =>
          (forCells fuel start stop (countvalBody valueToMatch rec sheet) 0 path).bind
            fun count p => .done (.double (DoubleOps.ofSizeT count) :: rest) p
    else if isIf then
      if parameterCount ≠ 3 then .threw path
      else
        match params with
        | [.double cond, a, b] =>
          .done ((if !DoubleOps.eq cond DoubleOps.zero then a else b) :: rest) path
        | _ => .threw path
    else .threw path

/-- The virtual method `ExprElement::evaluate` of `src/excel.cpp`; the classes other than
`FunctionCall` have the same text in both builds. -/
def ExprElement.evaluateSingleFile {D : Type} [DoubleOps D] (fuel : Nat)
    (rec : Program D → Path → Outcome (CValue D)) (sheet : Sheet D)
    (e : ExprElement D) (evalStack : List (CValue D)) (path : Path) :
    Outcome (List (CValue D)) :=
  match e with
  | .functionCall functionName parameterCount =>
    FunctionCall.evaluateSingleFile fuel rec sheet functionName parameterCount evalStack path
  | other => ExprElement.evaluate fuel rec sheet other evalStack path

/-- The function `evaluateExpression` of `src/excel.cpp`. -/
def evaluateExpressionSingleFile {D : Type} [DoubleOps D] :
    Nat → Sheet D → Program D → Path → Outcome (CValue D)
  | 0, _, _, _ => .outOfFuel
  | fuel + 1, sheet, exprStack, path =>
    match runNodes
        (ExprElement.evaluateSingleFile (fuel + 1) (evaluateExpressionSingleFile fuel sheet) sheet)
        exprStack [] path with
    | .done [result] p => .done result p
    | .done _ p => .threw p
    | .threw p => .done .monostate p
    | .undefinedBehaviour => .undefinedBehaviour
    | .outOfFuel => .outOfFuel

/-- The method `CSpreadsheet::getValue` of `src/excel.cpp`. -/
def getValueSingleFile {D : Type} [DoubleOps D] (fuel : Nat) (sheet : Sheet D) (path : Path)
    (pos : CPos) : Outcome (CValue D) :=
  let uniqueId := pos.getUniqueId
  match sheet.find uniqueId with
  | some (.double d) => .done (.double d) path
  | some (.string s) => .done (.string s) path
  | some (.int i) => .done (.double (DoubleOps.ofInt i)) path
  | some (.expr exprStack) =>
    if uniqueId ∈ path then .threw []
    else
      match evaluateExpressionSingleFile fuel sheet exprStack (uniqueId :: path) with
      | .done result _ => .done result []
      | .threw _ => .done .monostate []
      | .undefinedBehaviour => .undefinedBehaviour
      | .outOfFuel => .outOfFuel
  | _ => .done .monostate []

/-! ## The cells of a range, as the specification describes them -/

/-- The keys of the cells of the rectangle between two corners, row by row from the top and
from left to right within a row. -/
def rectangleIds (start stop : CPos) : List Nat :=
  (List.range' start.row (stop.row + 1 - start.row)).flatMap fun (r : Nat) =>
    (List.range' start.column (stop.column + 1 - start.column)).map fun (c : Nat) =>
      CPos.getUniqueId ⟨c, r⟩

/-- The numeric value of a cell, if it has one: a stored number, or the number that the stored
program evaluates to (`val` gives the value of the program of each cell). -/
def numericValue {D : Type} (val : Nat → CValue D) (sheet : Sheet D) (id : Nat) : Option D :=
  match sheet.find id with
  | some (.double d) => some d
  | some (.expr _) =>
    match val id with
    | .double d => some d
    | _ => none
  | _ => none

/-! ## More sheets used in the examples -/

/-- The key of the cell C1. -/
def idC1 : Nat := 12884901889

/-- The node the builder makes for the reference `C1`. -/
def refC1 : Reference := ⟨1, 3, false, false, "C1".toList⟩

/-- The sheet with `A1 := =sum(A1:A1)`. -/
def selfSumSheet : Sheet Rat :=
  [(idA1, .expr [.range "A1:A1".toList, .functionCall "sum".toList 1])]

/-- The sheet with `A1 := =if(1, "then", B1)` and `B1 := =C1`, the cell C1 being unset. -/
def ifSheet : Sheet Rat :=
  [(idA1, .expr [.constant 1, .stringVariable "then".toList, .reference refB1,
      .functionCall "if".toList 3]),
    (idB1, .expr [.reference refC1])]

/-- The sheet with `A1 := 10`, `A2 := =5` and `B1 := =sum(A1:A2)`. -/
def sumSheet : Sheet Rat :=
  [(idA1, .double 10), (idA2, .expr [.constant 5]),
    (idB1, .expr [.range "A1:A2".toList, .functionCall "sum".toList 1])]

/-- The sheet with `A1 := 10` and `B1 := =sum(A1:A2)`. -/
def sumBaseSheet : Sheet Rat :=
  [(idA1, .double 10), (idB1, .expr [.range "A1:A2".toList, .functionCall "sum".toList 1])]

/-- A stream with a valid header and checksum whose data line gives A2 a program of two
texts. -/
def twoTextsStream : Str :=
  "CHECKSUM 2543".toList ++ [NL] ++ "4294967298, [String ".toList ++ [QUOTE, 'a', QUOTE] ++
    ", String ".toList ++ [QUOTE, 'b', QUOTE] ++ [']', NL]

/-- The sheet that `load` makes of `sumBaseSheet` with `twoTextsStream`. -/
def twoTextsSheet : Sheet Rat :=
  [(idA1, .double 10), (idB1, .expr [.range "A1:A2".toList, .functionCall "sum".toList 1]),
    (idA2, .expr [.stringVariable ['a'], .stringVariable ['b']])]

/-- The sheet with `A1 := 1`, `A2 := =2` and `B1 := =max(A1:A2)`. -/
def maxSheet : Sheet Rat :=
  [(idA1, .double 1), (idA2, .expr [.constant 2]),
    (idB1, .expr [.range "A1:A2".toList, .functionCall "max".toList 1])]

/-! ## The cells counted by `count` and `countval`, as the specification describes them -/

/-- Is a cell set and not empty, a cell that holds a program being so when the program
evaluates to a value that is not empty (`val` gives the value of the program of each cell). -/
def countsAsNonEmpty {D : Type} (val : Nat → CValue D) (sheet : Sheet D) (id : Nat) : Bool :=
  match sheet.find id with
  | some (.double _) => true
  | some (.string _) => true
  | some (.int _) => true
  | some (.expr _) =>
    match val id with
    | .monostate => false
    | _ => true
  | _ => false

/-- The value of a cell for `countval`: the stored number or text, or the result of the stored
program (`val` gives the value of the program of each cell); empty otherwise. -/
def shownValue {D : Type} (val : Nat → CValue D) (sheet : Sheet D) (id : Nat) : CValue D :=
  match sheet.find id with
  | some (.double d) => .double d
  | some (.string s) => .string s
  | some (.expr _) => val id
  | _ => .monostate

/-- Two values of the same type that are equal: two numbers equal as `double`, or two equal
texts. -/
def strictlyEqual {D : Type} [DoubleOps D] (needle value : CValue D) : Bool :=
  match needle, value with
  | .double m, .double d => DoubleOps.eq d m
  | .string m, .string s => decide (s = m)
  | _, _ => false

/-! ## Sheets for the examples of `count` and `countval` -/

/-- The sheet with `A1 := 10`, `A2 := =5` and `B1 := =count(A1:A2)`. -/
def countSheet : Sheet Rat :=
  [(idA1, .double 10), (idA2, .expr [.constant 5]),
    (idB1, .expr [.range "A1:A2".toList, .functionCall "count".toList 1])]

/-- The sheet with `A1 := 10` and `B1 := =count(A1:A2)`. -/
def countBaseSheet : Sheet Rat :=
  [(idA1, .double 10), (idB1, .expr [.range "A1:A2".toList, .functionCall "count".toList 1])]

/-- The sheet that `load` makes of `countBaseSheet` with `twoTextsStream`. -/
def countTextsSheet : Sheet Rat :=
  [(idA1, .double 10), (idB1, .expr [.range "A1:A2".toList, .functionCall "count".toList 1]),
    (idA2, .expr [.stringVariable ['a'], .stringVariable ['b']])]

/-- The sheet with `A1 := 10`, `A2 := =10` and `B1 := =countval(10, A1:A2)`. -/
def countvalSheet : Sheet Rat :=
  [(idA1, .double 10), (idA2, .expr [.constant 10]),
    (idB1, .expr [.constant 10, .range "A1:A2".toList, .functionCall "countval".toList 2])]

/-- The sheet with `A1 := 10` and `B1 := =countval(10, A1:A2)`. -/
def countvalBaseSheet : Sheet Rat :=
  [(idA1, .double 10),
    (idB1, .expr [.constant 10, .range "A1:A2".toList, .functionCall "countval".toList 2])]

/-- The sheet that `load` makes of `countvalBaseSheet` with `twoTextsStream`. -/
def countvalTextsSheet : Sheet Rat :=
  [(idA1, .double 10),
    (idB1, .expr [.constant 10, .range "A1:A2".toList, .functionCall "countval".toList 2]),
    (idA2, .expr [.stringVariable ['a'], .stringVariable ['b']])]

/-! ## Numbers in a saved stream -/

/-- The comparator `valueMatch` of the tests in `src/excel.cpp`, on the idealised numbers: a
rational is neither a NaN nor an infinity, and `DBL_EPSILON` is `2^-52`. -/
def valueMatch (r s : CValue Rat) : Bool :=
  match r, s with
  | .monostate, .monostate => true
  | .string a, .string b => decide (a = b)
  | .double a, .double b => decide (|a - b| ≤ 100000000 * (1 / 2 ^ 52) * |a|)
  | _, _ => false

/-- Does a text start with a digit or a minus sign and hold neither a newline nor a comma
after it: the shape of what `std::to_string` prints for a finite number. -/
def wellPrinted (t : Str) : Bool :=
  match t with
  | [] => false
  | c :: cs => (isdigit c || c == '-') && cs.all (fun x => x != NL && x != ',')

/-- The sheet whose cell A1 holds the number `0.0000001`. -/
def tinySheet : Sheet Rat := [(idA1, .double (1 / 10000000))]

/-- The sheet with `A1 := 2.5` and `A2 := =40`. -/
def numbersSheet : Sheet Rat := [(idA1, .double (5 / 2)), (idA2, .expr [.constant 40])]

/-! ## Evaluation without the set of the path, as the specification describes it -/

/-- An outcome with its path replaced. -/
def Outcome.withPath {α : Type} (o : Outcome α) (p : Path) : Outcome α :=
  match o with
  | .done a _ => .done a p
  | .threw _ => .threw p
  | .undefinedBehaviour => .undefinedBehaviour
  | .outOfFuel => .outOfFuel

/-- A reference evaluated without any path: the program of the target is evaluated whenever
the reference is met. The path in the outcome is not used. -/
def Reference.evaluatePlain {D : Type} (rec : Program D → Outcome (CValue D))
    (sheet : Sheet D) (r : Reference) (evalStack : List (CValue D)) :
    Outcome (List (CValue D)) :=
  match sheet.find (CPos.getUniqueId ⟨r.column, r.row⟩) with
  | none => .threw []
  | some (.double d) => .done (.double d :: evalStack) []
  | some (.string s) => .done (.string s :: evalStack) []
  | some (.expr exprStack) =>
    match rec exprStack with
    | .done result _ => .done (result :: evalStack) []
    | .threw _ => .threw []
    | .undefinedBehaviour => .undefinedBehaviour
    | .outOfFuel => .outOfFuel
  | some _ => .threw []

/-- A node evaluated without any path: a reference as above, every other node as in the
program. -/
def ExprElement.evaluatePlain {D : Type} [DoubleOps D] (fuel : Nat)
    (rec : Program D → Outcome (CValue D)) (sheet : Sheet D)
    (e : ExprElement D) (evalStack : List (CValue D)) : Outcome (List (CValue D)) :=
  match e with
  | .reference r => Reference.evaluatePlain rec sheet r evalStack
  | other => ExprElement.evaluate fuel (fun prog _ => rec prog) sheet other evalStack []

/-- Plain recursive evaluation of a postfix program, without any path. -/
def plainEvaluate {D : Type} [DoubleOps D] : Nat → Sheet D → Program D → Outcome (CValue D)
  | 0, _, _ => .outOfFuel
  | fuel + 1, sheet, exprStack =>
    match runNodes
        (fun e st _ => ExprElement.evaluatePlain (fuel + 1) (plainEvaluate fuel sheet) sheet e st)
        exprStack [] [] with
    | .done [result] _ => .done result []
    | .done _ _ => .threw []
    | .threw _ => .done .monostate []
    | .undefinedBehaviour => .undefinedBehaviour
    | .outOfFuel => .outOfFuel

/-- The value of a cell by plain recursive evaluation. -/
def plainGetValue {D : Type} [DoubleOps D] (fuel : Nat) (sheet : Sheet D) (pos : CPos) :
    Outcome (CValue D) :=
  match sheet.find pos.getUniqueId with
  | some (.double d) => .done (.double d) []
  | some (.string s) => .done (.string s) []
  | some (.int i) => .done (.double (DoubleOps.ofInt i)) []
  | some (.expr exprStack) =>
    match plainEvaluate fuel sheet exprStack with
    | .done result _ => .done result []
    | .threw _ => .done .monostate []
    | .undefinedBehaviour => .undefinedBehaviour
    | .outOfFuel => .outOfFuel
  | _ => .done .monostate []

/-! ## Sheets without cycles, as the specification describes them -/

/-- Does a cell hold a program. -/
def holdsProgram {D : Type} (sheet : Sheet D) (id : Nat) : Bool :=
  match sheet.find id with
  | some (.expr _) => true
  | _ => false

/-- Is the name one of `sum`, `count`, `min`, `max`. -/
def isRangeFunction (name : Str) : Bool :=
  name = "sum".toList || name = "count".toList || name = "min".toList || name = "max".toList

/-- Does a function call take its range from the top of the stack: `sum`, `count`, `min` and
`max` with one argument, `countval` with two. -/
def readsTop (name : Str) (n : Nat) : Bool :=
  (isRangeFunction name && n == 1) || (name = "countval".toList && n == 2)

/-- Does a function call evaluate no cell at all. -/
def evaluatesNoCell (name : Str) (n : Nat) : Bool :=
  !isRangeFunction name && !(name = "countval".toList && n == 2)

/-- Does every program in the rectangle of a range lie in a cell of rank below `m`, the last
row and column being below the greatest `size_t`; a text that is no range passes. -/
def rangeBelow {D : Type} (rank : Nat → Nat) (sheet : Sheet D) (m : Nat) (s : Str) : Bool :=
  match parseRange s with
  | none => true
  | some (start, stop) =>
    decide (stop.row + 1 < sizeMod) && decide (stop.column + 1 < sizeMod) &&
      (rectangleIds start stop).all (fun c => !holdsProgram sheet c || decide (rank c < m))

/-- Does a program depend only on programs in cells of rank below `m`: the target of every
reference and the rectangle of every range function. A function that evaluates cells must
directly follow the `Range` node that names its rectangle; `top` is the text of that node
when the node before was one. -/
def dependsBelow {D : Type} (rank : Nat → Nat) (sheet : Sheet D) (m : Nat) :
    Option Str → Program D → Bool
  | _, [] => true
  | _, .range s :: rest => dependsBelow rank sheet m (some s) rest
  | top, .functionCall name n :: rest =>
    (evaluatesNoCell name n ||
      (readsTop name n &&
        match top with
        | some s => rangeBelow rank sheet m s
        | none => false)) &&
    dependsBelow rank sheet m none rest
  | _, .reference r :: rest =>
    (!holdsProgram sheet (CPos.getUniqueId ⟨r.column, r.row⟩) ||
      decide (rank (CPos.getUniqueId ⟨r.column, r.row⟩) < m)) &&
    dependsBelow rank sheet m none rest
  | _, _ :: rest => dependsBelow rank sheet m none rest

/-- The count of values a node takes from the stack. -/
def pops {D : Type} : ExprElement D → Nat
  | .unaryOperation _ => 1
  | .binaryOperation _ => 2
  | .functionCall _ n => n
  | _ => 0

/-- The height of the stack after a program, every node taking its operands and pushing one
value; `none` when a node lacks operands. -/
def finalDepth {D : Type} : Program D → Nat → Option Nat
  | [], d => some d
  | e :: es, d => if pops e ≤ d then finalDepth es (d + 1 - pops e) else none

/-- A sheet without cycles: the cells are ranked so that every program depends only on
programs of lower rank, and every program is a postfix expression that leaves one value. -/
def acyclicSheet {D : Type} (rank : Nat → Nat) (sheet : Sheet D) : Bool :=
  sheet.all fun kv =>
    match kv.2 with
    | .expr prog => dependsBelow rank sheet (rank kv.1) none prog && finalDepth prog 0 == some 1
    | _ => true

/-- The key of the cell B5. -/
def idB5 : Nat := 8589934597

/-- The key of the cell B6. -/
def idB6 : Nat := 8589934598

/-- The node the builder makes for the reference `B5`. -/
def refB5 : Reference := ⟨5, 2, false, false, "B5".toList⟩

/-- The sheet with `A1 := =1`, `B5 := =A1+A1` and `B6 := =A1+B5+sum(A1:A1)`. -/
def chainSheet : Sheet Rat :=
  [(idA1, .expr [.constant 1]),
    (idB5, .expr [.reference refA1, .reference refA1, .binaryOperation "+".toList]),
    (idB6, .expr [.reference refA1, .reference refB5, .binaryOperation "+".toList,
      .range "A1:A1".toList, .functionCall "sum".toList 1, .binaryOperation "+".toList])]

/-- A ranking of the cells of `chainSheet`. -/
def chainRank (id : Nat) : Nat :=
  if id = idB6 then 2 else if id = idB5 then 1 else 0

/-! ## What a saved number reads back as -/

/-- The count of millionths `std::to_string` prints for the magnitude of a number: the
magnitude times `10^6`, rounded to the nearest integer, a tie to the even one. -/
def sixDecimals (q : Rat) : Nat :=
  let t : Rat := |q| * 1000000
  let f : Nat := t.floor.toNat
  let r : Rat := t - f
  if 1 / 2 < r ∨ (r = 1 / 2 ∧ f % 2 = 1) then f + 1 else f

/-- A number rounded to six decimals. -/
def roundSix (q : Rat) : Rat :=
  if q < 0 then -((sixDecimals q : Rat) / 10 ^ 6) else (sixDecimals q : Rat) / 10 ^ 6

/-- A node with its number rounded to six decimals. -/
def roundNode : ExprElement Rat → ExprElement Rat
  | .constant q => .constant (roundSix q)
  | e => e

/-- The content of a cell with its numbers rounded to six decimals. -/
def roundCell : CustomCValue Rat → CustomCValue Rat
  | .double q => .double (roundSix q)
  | .expr prog => .expr (prog.map roundNode)
  | c => c

/-- A sheet with its numbers rounded to six decimals. -/
def roundSheet (S : Sheet Rat) : Sheet Rat := S.map fun kv => (kv.1, roundCell kv.2)

/-- A word that `>>` reads back whole from a piece of a program line: not empty, without
white space, comma or closing bracket. -/
def plainWord (s : Str) : Bool :=
  !s.isEmpty && s.all fun c => !isspace c && c != ',' && c != ']'

/-- A text that the two `getline` calls read back whole from a piece of a program line:
without double quote, comma or newline. -/
def plainText (s : Str) : Bool :=
  s.all fun c => c != QUOTE && c != ',' && c != NL

/-- The nodes whose saved text `load` reads back: a constant; an operator, a range or a
function whose text is a plain word, the arity being below `2^53`; a reference whose text is
a plain word that the constructor parses to the same reference; a text that is plain. -/
def persistableNode : ExprElement Rat → Bool
  | .constant _ => true
  | .stringVariable s => plainText s
  | .binaryOperation op => plainWord op
  | .unaryOperation op => plainWord op
  | .range r => plainWord r
  | .functionCall name n => plainWord name && decide (n < 2 ^ 53)
  | .reference r => plainWord r.cellReference && decide (Reference.ofStr r.cellReference = some r)

/-- The cells whose saved line `load` reads back: a number, a program of nodes as above, a
text without double quote or newline, an empty cell. -/
def persistableCell : CustomCValue Rat → Bool
  | .double _ => true
  | .expr prog => prog.all persistableNode
  | .string s => s.all fun c => c != QUOTE && c != NL
  | .monostate => true
  | .int _ => false

/-- Does the six-decimal text of a number read back within the tolerance of `valueMatch`:
the magnitude is at least 23, or the number has no more than six decimals. -/
def printsWithinTolerance (q : Rat) : Bool := decide (23 ≤ |q|) || decide (roundSix q = q)

/-- The sheet with `A1 := 33.333...` (the number `100/3`) and `A2 := =40+2.5`. -/
def thirdsSheet : Sheet Rat :=
  [(idA1, .double (100 / 3)),
    (idA2, .expr [.constant 40, .constant (5 / 2), .binaryOperation "+".toList])]

/-- The sheet with `A1 := =1000000.0000004-1000000`. -/
def cancelSheet : Sheet Rat :=
  [(idA1, .expr [.constant (10000000000004 / 10000000), .constant 1000000,
    .binaryOperation "-".toList])]
/-! ## Theorems -/

/-! ### The cell map -/

theorem find_assign_same {D : Type} (s : Sheet D) (k : Nat) (v : CustomCValue D) :
    (s.assign k v).find k = some v := by
  induction s with
  | nil => simp [Sheet.assign, Sheet.find]
  | cons p rest ih =>
    obtain ⟨k1, w⟩ := p
    by_cases h : k1 = k
    · simp [Sheet.assign, Sheet.find, h]
    · simp [Sheet.assign, Sheet.find, h, ih]

theorem find_assign_other {D : Type} (s : Sheet D) (k k2 : Nat) (v : CustomCValue D)
    (hne : k2 ≠ k) : (s.assign k v).find k2 = s.find k2 := by
  induction s with
  | nil => simp [Sheet.assign, Sheet.find, Ne.symm hne]
  | cons p rest ih =>
    obtain ⟨k1, w⟩ := p
    by_cases h : k1 = k
    · subst h
      simp [Sheet.assign, Sheet.find, Ne.symm hne]
    · by_cases h2 : k1 = k2
      · subst h2
        simp [Sheet.assign, Sheet.find, h]
      · simp [Sheet.assign, Sheet.find, h, h2, ih]

/-! ### Fuel of the bounded loops -/

theorem getline_shrinks (s : IStream) (str : Str) (delim : Char)
    (h : (getline s str delim).2.failbit = false) :
    (getline s str delim).2.buf.length < s.buf.length := by
  unfold getline at h ⊢
  by_cases hg : s.good = true
  · simp only [hg, if_true] at h ⊢
    have happ := List.takeWhile_append_dropWhile (fun c => c != delim) s.buf
    cases hd : List.dropWhile (fun c => c != delim) s.buf with
    | nil =>
      rw [hd] at h happ
      simp only [List.append_nil] at happ
      simp only at h ⊢
      rw [happ] at h
      cases hb : s.buf with
      | nil => simp [hb] at h
      | cons c cs => simp
    | cons c rest =>
      simp only
      have hlen := congrArg List.length happ
      rw [hd] at hlen
      simp only [List.length_append, List.length_cons] at hlen
      omega
  · simp [hg] at h

theorem readLines_fuel (n m : Nat) (s : IStream) (delim : Char)
    (hn : s.buf.length < n) (hm : s.buf.length < m) :
    readLines n s delim = readLines m s delim := by
  induction n generalizing m s with
  | zero => omega
  | succ n ih =>
    cases m with
    | zero => omega
    | succ m =>
      simp only [readLines]
      by_cases hf : (getline s [] delim).2.failbit = true
      · simp [hf]
      · have hf2 : (getline s [] delim).2.failbit = false := by simpa using hf
        have hlt := getline_shrinks s [] delim hf2
        simp only [hf2, Bool.false_eq_true, if_false]
        rw [ih m (getline s [] delim).2 (by omega) (by omega)]

/-- The fuel `allLines` gives to the reading loop is enough: more fuel reads the same
lines. -/
theorem allLines_fuel (n : Nat) (s : IStream) (delim : Char) (hn : s.buf.length < n) :
    readLines n s delim = allLines s delim :=
  readLines_fuel n (s.buf.length + 1) s delim hn (Nat.lt_succ_self _)

/-- The fuel `updateCellReferenceString` gives to the loop over the column letters is
enough: more fuel builds the same letters. -/
theorem columnLetters_fuel (n t : Nat) (acc : Str) (h : t ≤ n) :
    columnLetters n t acc = columnLetters t t acc := by
  have key : ∀ (k a b : Nat) (acc : Str), k ≤ a → k ≤ b →
      columnLetters a k acc = columnLetters b k acc := by
    intro k
    induction k using Nat.strong_induction_on with
    | _ k ih =>
      intro a b acc ha hb
      cases a with
      | zero =>
        have hk : k = 0 := by omega
        subst hk
        cases b <;> simp [columnLetters]
      | succ a =>
        cases b with
        | zero =>
          have hk : k = 0 := by omega
          subst hk
          simp [columnLetters]
        | succ b =>
          simp only [columnLetters]
          by_cases hpos : 0 < k
          · simp only [hpos, if_true]
            have hlt : (k - 1) / 26 < k := by
              have := Nat.div_le_self (k - 1) 26
              omega
            exact ih _ hlt a b _ (by have := Nat.div_le_self (k - 1) 26; omega)
              (by have := Nat.div_le_self (k - 1) 26; omega)
          · simp [hpos]
  exact key t n t acc h (le_refl t)

/-! ### Termination of `getValue` -/

/-- With the path holding only A1, the program of A1 in `cyclicSheet` never finishes: its
second node starts the same evaluation again, because detecting the cycle of B1 has emptied
the path. -/
theorem evaluateExpression_cyclicSheet (fuel : Nat) :
    evaluateExpression fuel cyclicSheet progB1plusA1 [idA1] = .outOfFuel := by
  induction fuel with
  | zero => rfl
  | succ n ih =>
    cases n with
    | zero => rfl
    | succ m =>
      have hB : evaluateExpression (m + 1) cyclicSheet [.reference refB1] [idB1, idA1]
          = .done .monostate [] := by
        simp [evaluateExpression, runNodes, ExprElement.evaluate, Reference.evaluate,
          cyclicSheet, Sheet.find, refB1, CPos.getUniqueId, sizeMod, idA1, idB1]
      have hfindB : Sheet.find cyclicSheet idB1 = some (.expr [.reference refB1]) := by decide
      have hfindA : Sheet.find cyclicSheet idA1 = some (.expr progB1plusA1) := by decide
      have hidB : CPos.getUniqueId ⟨refB1.column, refB1.row⟩ = idB1 := by decide
      have hidA : CPos.getUniqueId ⟨refA1.column, refA1.row⟩ = idA1 := by decide
      have hmem : idB1 ∉ [idA1] := by decide
      rw [evaluateExpression]
      simp only [progB1plusA1, runNodes, ExprElement.evaluate, Reference.evaluate, hfindB,
        hfindA, hidB, hidA, hmem, if_false, hB]
      simp only [progB1plusA1] at ih
      simp only [List.filter_nil, List.not_mem_nil, if_false, ih]

/-- Claim C1, evaluated at the sheet `A1 := =B1+A1`, `B1 := =B1`: whatever the fuel,
`getValue(A1)` does not return, so the evaluation of this finite sheet does not
terminate. -/
theorem getValue_cyclicSheet_never_returns (fuel : Nat) :
    getValue fuel cyclicSheet [] ⟨1, 1⟩ = .outOfFuel := by
  have h := evaluateExpression_cyclicSheet fuel
  have hfind : Sheet.find cyclicSheet idA1 = some (.expr progB1plusA1) := by decide
  have hid : CPos.getUniqueId ⟨1, 1⟩ = idA1 := by decide
  simp [getValue, hfind, hid, h]

/-! ### Persistence of texts and programs -/

/-- Claim C2, evaluated at a sheet whose cell A1 holds the text `a"b`: loading what `save`
wrote into an empty sheet returns true, but A1 then holds the text `a`. -/
theorem load_save_quoteSheet :
    load uninit0 [] (save quoteSheet) = .returned true [(idA1, .string ['a'])] := by
  decide

/-- Claim C3, evaluated at the program `[String "a,b"]`: the line `save` writes for it is
parsed by `load` into the program `[String "a"]`. -/
theorem load_save_commaSheet :
    load uninit0 [] (save commaSheet)
      = .returned true [(idA1, .expr [.stringVariable ['a']])] := by
  decide

/-- Claim C8, evaluated at a sheet whose cell A1 holds a text of two lines: `load` applied to
the output of `save` does not return true, an exception of the `Reference` constructor
leaves it after the first line has been assigned. -/
theorem load_save_twoLineSheet :
    load uninit0 [] (save twoLineSheet) = .threw [(idA1, .string ['x'])] := by
  decide

/-! ### What `load` returns -/

theorem loadLines_not_false {D : Type} [DoubleOps D] (u : Uninit D) (lines : List Str)
    (sheet s2 : Sheet D) : loadLines u lines sheet ≠ .returned false s2 := by
  induction lines generalizing sheet with
  | nil => simp [loadLines]
  | cons line rest ih =>
    unfold loadLines
    split
    · simp
    · simp
    · exact ih _

theorem loadLines_find_other {D : Type} [DoubleOps D] (u : Uninit D) (lines : List Str)
    (sheet s2 : Sheet D) (k : Nat) (h : loadLines u lines sheet = .returned true s2)
    (hk : ∀ line ∈ lines, ∀ key val, parseLine u line = .ok (key, val) → key ≠ k) :
    s2.find k = sheet.find k := by
  induction lines generalizing sheet with
  | nil =>
    simp [loadLines] at h
    rw [h]
  | cons line rest ih =>
    unfold loadLines at h
    split at h
    · simp at h
    · simp at h
    · rename_i key val hp
      have hne : k ≠ key := fun e => hk line (List.mem_cons_self _ _) key val hp e.symm
      rw [ih _ h (fun l hl => hk l (List.mem_cons_of_mem _ hl)), find_assign_other _ _ _ _ hne]

theorem loadLines_find_last {D : Type} [DoubleOps D] (u : Uninit D) (pre post : List Str)
    (line : Str) (sheet s2 : Sheet D) (k : Nat) (v : CustomCValue D)
    (h : loadLines u (pre ++ line :: post) sheet = .returned true s2)
    (hline : parseLine u line = .ok (k, v))
    (hk : ∀ l ∈ post, ∀ key val, parseLine u l = .ok (key, val) → key ≠ k) :
    s2.find k = some v := by
  induction pre generalizing sheet with
  | nil =>
    simp only [List.nil_append] at h
    unfold loadLines at h
    rw [hline] at h
    simp only at h
    rw [loadLines_find_other u post _ s2 k h hk, find_assign_same]
  | cons p rest ih =>
    simp only [List.cons_append] at h
    unfold loadLines at h
    split at h
    · simp at h
    · simp at h
    · exact ih _ h

theorem load_eq_loadLines {D : Type} [DoubleOps D] (u : Uninit D) (sheet s2 : Sheet D)
    (is line : Str) (s1 : IStream) (hh : headerLine is = some (line, s1))
    (h : load u sheet is = .returned true s2) :
    loadLines u (dataLines s1) sheet = .returned true s2 := by
  unfold load at h
  rw [hh] at h
  simp only at h
  split at h
  · simp at h
  · split at h
    · simp at h
    · exact h

/-- Claim C6: when the checksum read from the first line differs from the sum `load`
computes over the lines that follow, each counted with its newline, `load` returns false
and the sheet is the one it was before the call. -/
theorem load_checksum_mismatch {D : Type} [DoubleOps D] (u : Uninit D) (sheet : Sheet D)
    (is line : Str) (s1 : IStream) (hh : headerLine is = some (line, s1))
    (hne : declaredChecksum u.readChecksum line ≠ calculatedChecksum (allLines s1 NL) 0) :
    load u sheet is = .returned false sheet := by
  unfold load
  rw [hh]
  simp only
  split
  · rfl
  · simp [hne]

/-- The theorem `load_checksum_mismatch` applies to a stream that declares the checksum 5
over the data line `1, undefined`, whose bytes add up to 1081. -/
theorem load_checksum_mismatch_witness :
    headerLine badChecksumStream = some ("CHECKSUM 5".toList,
      ⟨"1, undefined".toList ++ [NL], false, false⟩) ∧
    declaredChecksum uninit0.readChecksum "CHECKSUM 5".toList = 5 ∧
    calculatedChecksum (allLines ⟨"1, undefined".toList ++ [NL], false, false⟩ NL) 0 = 1081 ∧
    load uninit0 textSheet badChecksumStream = .returned false textSheet :=
  ⟨by decide, by decide, by decide,
    load_checksum_mismatch uninit0 textSheet badChecksumStream "CHECKSUM 5".toList
      ⟨"1, undefined".toList ++ [NL], false, false⟩ (by decide) (by decide)⟩

/-- After `load` has returned true, a position whose key is the key of no data line holds
what it held before the call, and a position whose key is the key of a data line holds the
content of the last such line. -/
theorem load_overlays_stream {D : Type} [DoubleOps D] (u : Uninit D) (sheet s2 : Sheet D)
    (is line0 : Str) (s1 : IStream) (hh : headerLine is = some (line0, s1))
    (h : load u sheet is = .returned true s2) :
    (∀ k, (∀ line ∈ dataLines s1, ∀ key val, parseLine u line = .ok (key, val) → key ≠ k) →
      s2.find k = sheet.find k) ∧
    (∀ pre line post k v, dataLines s1 = pre ++ line :: post → parseLine u line = .ok (k, v) →
      (∀ l ∈ post, ∀ key val, parseLine u l = .ok (key, val) → key ≠ k) →
      s2.find k = some v) := by
  have hl := load_eq_loadLines u sheet s2 is line0 s1 hh h
  refine ⟨fun k hk => loadLines_find_other u _ sheet s2 k hl hk, ?_⟩
  intro pre line post k v hd hline hk
  rw [hd] at hl
  exact loadLines_find_last u pre post line sheet s2 k v hl hline hk

/-- The theorem `load_overlays_stream` applies to the stream with the data line
`1, undefined` loaded into a sheet whose cell A1 holds the text `x`. -/
theorem load_overlays_stream_witness :
    headerLine undefinedCellStream = some ("CHECKSUM 1081".toList,
      ⟨"1, undefined".toList ++ [NL], false, false⟩) ∧
    load uninit0 textSheet undefinedCellStream
      = .returned true [(idA1, .string ['x']), (1, .monostate)] ∧
    ((∀ k, (∀ line ∈ dataLines ⟨"1, undefined".toList ++ [NL], false, false⟩,
        ∀ key val, parseLine uninit0 line = .ok (key, val) → key ≠ k) →
      Sheet.find [(idA1, .string ['x']), (1, .monostate)] k = textSheet.find k) ∧
    (∀ pre line post k v,
      dataLines ⟨"1, undefined".toList ++ [NL], false, false⟩ = pre ++ line :: post →
      parseLine uninit0 line = .ok (k, v) →
      (∀ l ∈ post, ∀ key val, parseLine uninit0 l = .ok (key, val) → key ≠ k) →
      Sheet.find [(idA1, .string ['x']), (1, .monostate)] k = some v)) :=
  ⟨by decide, by decide,
    load_overlays_stream uninit0 textSheet [(idA1, .string ['x']), (1, .monostate)]
      undefinedCellStream "CHECKSUM 1081".toList
      ⟨"1, undefined".toList ++ [NL], false, false⟩ (by decide) (by decide)⟩

/-- The method `load` returns false exactly when no first line can be read, when the first
word of the first line is not `CHECKSUM`, or when the declared checksum differs from the
computed one; no data line makes it return false. -/
theorem load_returns_false_iff {D : Type} [DoubleOps D] (u : Uninit D) (sheet : Sheet D)
    (is : Str) :
    (∃ s2, load u sheet is = .returned false s2) ↔
      (headerLine is = none ∨
        ∃ line s1, headerLine is = some (line, s1) ∧
          (headerLabel line ≠ "CHECKSUM".toList ∨
            declaredChecksum u.readChecksum line ≠ calculatedChecksum (allLines s1 NL) 0)) := by
  unfold load
  cases hh : headerLine is with
  | none => simp
  | some p =>
    obtain ⟨line, s1⟩ := p
    simp only
    by_cases h1 : headerLabel line ≠ "CHECKSUM".toList
    · rw [if_pos h1]
      exact ⟨fun _ => Or.inr ⟨line, s1, rfl, Or.inl h1⟩, fun _ => ⟨sheet, rfl⟩⟩
    · rw [if_neg h1]
      by_cases h2 : declaredChecksum u.readChecksum line ≠ calculatedChecksum (allLines s1 NL) 0
      · rw [if_pos h2]
        exact ⟨fun _ => Or.inr ⟨line, s1, rfl, Or.inr h2⟩, fun _ => ⟨sheet, rfl⟩⟩
      · rw [if_neg h2]
        constructor
        · rintro ⟨s2, hs⟩
          exact absurd hs (loadLines_not_false u _ _ _)
        · rintro (hn | ⟨l, t, hlt, hor⟩)
          · simp at hn
          · simp only [Option.some.injEq, Prod.mk.injEq] at hlt
            obtain ⟨rfl, rfl⟩ := hlt
            rcases hor with hor | hor
            · exact absurd hor h1
            · exact absurd hor h2

/-! ### Copying a rectangle -/

theorem shift_id_inj (dst : CPos) (x y x2 y2 : Int)
    (hx : 0 ≤ x) (hx' : x < 2 ^ 31) (hy : 0 ≤ y) (hy' : y < 2 ^ 31)
    (hx2 : 0 ≤ x2) (hx2' : x2 < 2 ^ 31) (hy2 : 0 ≤ y2) (hy2' : y2 < 2 ^ 31)
    (h : (dst.shift x y).getUniqueId = (dst.shift x2 y2).getUniqueId) : x = x2 ∧ y = y2 := by
  simp only [CPos.shift, CPos.getUniqueId, sizeMod] at h
  norm_num at h
  omega

theorem applyStorage_find_absent {D : Type} (l : List (Nat × CustomCValue D)) (s : Sheet D)
    (k : Nat) (hk : ∀ p ∈ l, p.1 ≠ k) : (applyStorage l s).find k = s.find k := by
  induction l generalizing s with
  | nil => rfl
  | cons p rest ih =>
    obtain ⟨id, val⟩ := p
    have hne : k ≠ id := fun e => hk (id, val) (List.mem_cons_self _ _) e.symm
    simp only [applyStorage]
    rw [ih _ (fun q hq => hk q (List.mem_cons_of_mem _ hq)), find_assign_other _ _ _ _ hne]

theorem applyStorage_find_mem {D : Type} (l : List (Nat × CustomCValue D)) (s : Sheet D)
    (k : Nat) (v : CustomCValue D) (hmem : (k, v) ∈ l) (huniq : ∀ p ∈ l, p.1 = k → p.2 = v) :
    (applyStorage l s).find k = some v := by
  induction l generalizing s with
  | nil => simp at hmem
  | cons p rest ih =>
    obtain ⟨id, val⟩ := p
    simp only [applyStorage]
    by_cases hin : ∃ q ∈ rest, q.1 = k
    · obtain ⟨q, hq, hqk⟩ := hin
      have hq2 : q.2 = v := huniq q (List.mem_cons_of_mem _ hq) hqk
      have hq3 : (k, v) ∈ rest := by
        have : q = (k, v) := Prod.ext hqk hq2
        rw [← this]
        exact hq
      exact ih _ hq3 (fun r hr => huniq r (List.mem_cons_of_mem _ hr))
    · have hno : ∀ q ∈ rest, q.1 ≠ k := fun q hq e => hin ⟨q, hq, e⟩
      have hhead : (k, v) = (id, val) := by
        rcases List.mem_cons.mp hmem with h | h
        · exact h
        · exact absurd rfl (hno (k, v) h)
      obtain ⟨rfl, rfl⟩ := Prod.mk.inj hhead
      rw [applyStorage_find_absent rest _ _ hno, find_assign_same]

theorem mem_tempStorage {D : Type} (sheet : Sheet D) (dst src : CPos) (w h : Int)
    (p : Nat × CustomCValue D) :
    p ∈ tempStorage sheet dst src w h ↔
      ∃ y : Nat, y < h.toNat ∧ ∃ x : Nat, x < w.toNat ∧
        p = ((dst.shift x y).getUniqueId,
          stagedContent sheet (dst.sub src) (src.shift x y).getUniqueId) := by
  simp only [tempStorage, List.mem_flatMap, List.mem_map, List.mem_range]
  constructor
  · rintro ⟨y, hy, x, hx, rfl⟩
    exact ⟨y, hy, x, hx, rfl⟩
  · rintro ⟨y, hy, x, hx, rfl⟩
    exact ⟨y, hy, x, hx, rfl⟩

theorem mulInt32_of_lt (w h : Int) (h0 : 0 ≤ w * h) (h1 : w * h < 2 ^ 31) :
    mulInt32 w h = w * h := by
  unfold mulInt32
  omega

theorem copyRect_returns {D : Type} (sheet : Sheet D) (dst src : CPos) (w h : Int)
    (h0 : 0 ≤ w * h) (h1 : w * h < 2 ^ 31) :
    copyRect sheet dst src w h =
      .returned (applyStorage (tempStorage sheet dst src w h) sheet) := by
  unfold copyRect
  rw [mulInt32_of_lt w h h0 h1, if_neg (by omega)]

theorem copyRect_returned {D : Type} (sheet sheet2 : Sheet D) (dst src : CPos) (w h : Int)
    (hret : copyRect sheet dst src w h = .returned sheet2) :
    sheet2 = applyStorage (tempStorage sheet dst src w h) sheet := by
  unfold copyRect at hret
  split at hret
  · exact absurd hret (by simp)
  · simp only [CopyOutcome.returned.injEq] at hret
    exact hret.symm

theorem copyRect_find {D : Type} (sheet : Sheet D) (dst src : CPos) (w h x y : Int)
    (hw : w < 2 ^ 31) (hh : h < 2 ^ 31) (hx0 : 0 ≤ x) (hx : x < w) (hy0 : 0 ≤ y) (hy : y < h) :
    (applyStorage (tempStorage sheet dst src w h) sheet).find (dst.shift x y).getUniqueId
      = some (stagedContent sheet (dst.sub src) (src.shift x y).getUniqueId) := by
  apply applyStorage_find_mem
  · rw [mem_tempStorage]
    refine ⟨y.toNat, by omega, x.toNat, by omega, ?_⟩
    rw [Int.toNat_of_nonneg hx0, Int.toNat_of_nonneg hy0]
  · intro p hp hk
    rw [mem_tempStorage] at hp
    obtain ⟨y2, hy2, x2, hx2, rfl⟩ := hp
    simp only at hk
    have hinj := shift_id_inj dst x2 y2 x y (by omega) (by omega) (by omega) (by omega)
      hx0 (by omega) hy0 (by omega) hk
    simp only
    rw [hinj.1, hinj.2]

theorem moveRelativeReferencesBy_fields (r : Reference) (offset : CPos) :
    (r.moveRelativeReferencesBy offset).isAbsoluteRow = r.isAbsoluteRow ∧
    (r.moveRelativeReferencesBy offset).isAbsoluteColumn = r.isAbsoluteColumn ∧
    (r.moveRelativeReferencesBy offset).row
      = (if r.isAbsoluteRow then r.row else (r.row + offset.row) % sizeMod) ∧
    (r.moveRelativeReferencesBy offset).column
      = (if r.isAbsoluteColumn then r.column else (r.column + offset.column) % sizeMod) := by
  obtain ⟨row, column, ar, ac, text⟩ := r
  cases ar <;> cases ac <;>
    simp [Reference.moveRelativeReferencesBy, Reference.updateCellReferenceString]

theorem relocated_program {D : Type} (offset : CPos) (prog : Program D) :
    (prog.map (relocate offset)).length = prog.length ∧
      ∀ (i : Nat) (e : ExprElement D), prog[i]? = some e →
        ((∀ r : Reference, e ≠ .reference r) → (prog.map (relocate offset))[i]? = some e) ∧
        (∀ r : Reference, e = .reference r →
          (prog.map (relocate offset))[i]? =
            some (.reference (r.moveRelativeReferencesBy offset))) := by
  refine ⟨List.length_map _ _, ?_⟩
  intro i e hie
  have hget : (prog.map (relocate offset))[i]? = some (relocate offset e) := by
    rw [List.getElem?_map, hie]
    rfl
  refine ⟨?_, ?_⟩
  · intro hnot
    rw [hget]
    cases e with
    | reference r => exact absurd rfl (hnot r)
    | _ => rfl
  · intro r hr
    subst hr
    exact hget

/-- Claim C4: a call `copyRect(dst, src, w, h)` whose product `w * h` is an `int` returns,
and after a call that returned the destination cell of every source cell that held a
program holds a program of the same length; a node that is not a reference is the source
node; a reference keeps both absolute flags, keeps an absolute column or row, and has a
relative column or row changed by `dst - src`, also for a negative difference, as long as
the shifted coordinate is a `size_t` (not negative and below `2^64`). -/
theorem copyRect_relocates_references {D : Type} (sheet : Sheet D) (dst src : CPos)
    (w h x y : Int) (hw : w < 2 ^ 31) (hh : h < 2 ^ 31) (hx0 : 0 ≤ x) (hx : x < w)
    (hy0 : 0 ≤ y) (hy : y < h) (prog : Program D)
    (hsrc : sheet.find (src.shift x y).getUniqueId = some (.expr prog)) :
    (w * h < 2 ^ 31 → ∃ sheet2 : Sheet D, copyRect sheet dst src w h = .returned sheet2) ∧
    ∀ sheet2 : Sheet D, copyRect sheet dst src w h = .returned sheet2 →
    ∃ prog2 : Program D,
      sheet2.find (dst.shift x y).getUniqueId = some (.expr prog2) ∧
      prog2.length = prog.length ∧
      ∀ (i : Nat) (e : ExprElement D), prog[i]? = some e →
        ((∀ r : Reference, e ≠ .reference r) → prog2[i]? = some e) ∧
        (∀ r : Reference, e = .reference r → ∃ r2 : Reference, prog2[i]? = some (.reference r2) ∧
          r2.isAbsoluteColumn = r.isAbsoluteColumn ∧ r2.isAbsoluteRow = r.isAbsoluteRow ∧
          (r.isAbsoluteColumn = true → r2.column = r.column) ∧
          (r.isAbsoluteRow = true → r2.row = r.row) ∧
          (r.isAbsoluteColumn = false →
            0 ≤ (r.column : Int) + dst.column - src.column →
            (r.column : Int) + dst.column - src.column < sizeMod →
            (r2.column : Int) = (r.column : Int) + dst.column - src.column) ∧
          (r.isAbsoluteRow = false →
            0 ≤ (r.row : Int) + dst.row - src.row →
            (r.row : Int) + dst.row - src.row < sizeMod →
            (r2.row : Int) = (r.row : Int) + dst.row - src.row)) := by
  have hpos : 0 ≤ w * h := Int.mul_nonneg (by omega) (by omega)
  refine ⟨fun hprod => ⟨_, copyRect_returns sheet dst src w h hpos hprod⟩, ?_⟩
  intro sheet2 hret
  rw [copyRect_returned sheet sheet2 dst src w h hret]
  obtain ⟨hlen, hnodes⟩ := relocated_program (dst.sub src) prog
  refine ⟨prog.map (relocate (dst.sub src)), ?_, hlen, ?_⟩
  · rw [copyRect_find sheet dst src w h x y hw hh hx0 hx hy0 hy]
    simp [stagedContent, hsrc]
  · intro i e hie
    refine ⟨(hnodes i e hie).1, ?_⟩
    intro r hr
    obtain ⟨h1, h2, h3, h4⟩ := moveRelativeReferencesBy_fields r (dst.sub src)
    refine ⟨r.moveRelativeReferencesBy (dst.sub src), (hnodes i e hie).2 r hr, h2, h1,
      ?_, ?_, ?_, ?_⟩
    · intro ha
      rw [h4, if_pos ha]
    · intro ha
      rw [h3, if_pos ha]
    · intro ha hlo hhi
      rw [h4]
      simp only [ha, Bool.false_eq_true, if_false, CPos.sub, sizeMod] at hhi ⊢
      omega
    · intro ha hlo hhi
      rw [h3]
      simp only [ha, Bool.false_eq_true, if_false, CPos.sub, sizeMod] at hhi ⊢
      omega

/-- The theorem `copyRect_relocates_references` applies to the copy of G11 to F10, a
destination above and left of the source. -/
theorem copyRect_relocates_references_witness :
    Sheet.find copySheet (CPos.shift ⟨7, 11⟩ 0 0).getUniqueId = some (.expr progE1) ∧
    (((1 : Int) * 1 < 2 ^ 31 →
      ∃ sheet2 : Sheet Rat, copyRect copySheet ⟨6, 10⟩ ⟨7, 11⟩ 1 1 = .returned sheet2) ∧
    ∀ sheet2 : Sheet Rat, copyRect copySheet ⟨6, 10⟩ ⟨7, 11⟩ 1 1 = .returned sheet2 →
    ∃ prog2 : Program Rat,
      sheet2.find (CPos.shift ⟨6, 10⟩ 0 0).getUniqueId = some (.expr prog2) ∧
      prog2.length = progE1.length ∧
      ∀ (i : Nat) (e : ExprElement Rat), progE1[i]? = some e →
        ((∀ r : Reference, e ≠ .reference r) → prog2[i]? = some e) ∧
        (∀ r : Reference, e = .reference r → ∃ r2 : Reference, prog2[i]? = some (.reference r2) ∧
          r2.isAbsoluteColumn = r.isAbsoluteColumn ∧ r2.isAbsoluteRow = r.isAbsoluteRow ∧
          (r.isAbsoluteColumn = true → r2.column = r.column) ∧
          (r.isAbsoluteRow = true → r2.row = r.row) ∧
          (r.isAbsoluteColumn = false →
            0 ≤ (r.column : Int) + (CPos.mk 6 10).column - (CPos.mk 7 11).column →
            (r.column : Int) + (CPos.mk 6 10).column - (CPos.mk 7 11).column < sizeMod →
            (r2.column : Int)
              = (r.column : Int) + (CPos.mk 6 10).column - (CPos.mk 7 11).column) ∧
          (r.isAbsoluteRow = false →
            0 ≤ (r.row : Int) + (CPos.mk 6 10).row - (CPos.mk 7 11).row →
            (r.row : Int) + (CPos.mk 6 10).row - (CPos.mk 7 11).row < sizeMod →
            (r2.row : Int) = (r.row : Int) + (CPos.mk 6 10).row - (CPos.mk 7 11).row))) :=
  ⟨by decide,
    copyRect_relocates_references copySheet ⟨6, 10⟩ ⟨7, 11⟩ 1 1 0 0 (by norm_num)
      (by norm_num) (by norm_num) (by norm_num) (by norm_num) (by norm_num) progE1
      (by decide)⟩

theorem copyRect_staged_find {D : Type} (sheet : Sheet D) (dst src : CPos) (w h x y : Int)
    (hw : w < 2 ^ 31) (hh : h < 2 ^ 31) (hx0 : 0 ≤ x) (hx : x < w) (hy0 : 0 ≤ y) (hy : y < h) :
    (sheet.find (src.shift x y).getUniqueId = none →
      (applyStorage (tempStorage sheet dst src w h) sheet).find (dst.shift x y).getUniqueId
        = some .monostate) ∧
    (∀ prog, sheet.find (src.shift x y).getUniqueId = some (.expr prog) →
      (applyStorage (tempStorage sheet dst src w h) sheet).find (dst.shift x y).getUniqueId
        = some (.expr (prog.map (relocate (dst.sub src))))) ∧
    (∀ c, sheet.find (src.shift x y).getUniqueId = some c → (∀ prog, c ≠ .expr prog) →
      (applyStorage (tempStorage sheet dst src w h) sheet).find (dst.shift x y).getUniqueId
        = some c) := by
  rw [copyRect_find sheet dst src w h x y hw hh hx0 hx hy0 hy]
  refine ⟨?_, ?_, ?_⟩
  · intro hn
    simp [stagedContent, hn]
  · intro prog hp
    simp [stagedContent, hp]
  · intro c hc hnot
    cases c with
    | expr prog => exact absurd rfl (hnot prog)
    | _ => simp [stagedContent, hc]

/-- Claim C5, as the code has it. For a width of 65536 and a height of 32768 the product
`w * h` is `2^31`, which is no `int`: `reserve` is called with a negative number converted
to `size_t` and throws `std::length_error`, so the call copies nothing; on `copySheet` the
cell F10 keeps its text where the program of G11 should have arrived. Whenever the product
is an `int` the call returns and every destination cell `dst + (x, y)` holds what the source
cell `src + (x, y)` held before the call, relocated: the empty content when the source was
never set, the program with its references moved when it held a program, and the same
content otherwise; the source is read from the sheet as it was before the call, so
overlapping rectangles give the same result as disjoint ones. -/
theorem copyRect_large_rectangle_throws {D : Type} (sheet : Sheet D) (dst src : CPos) :
    copyRect sheet dst src 65536 32768 = .lengthError sheet ∧
    (Sheet.find copySheet (CPos.shift ⟨7, 11⟩ 0 0).getUniqueId = some (.expr progE1) ∧
      (copyRect copySheet ⟨6, 10⟩ ⟨7, 11⟩ 65536 32768).sheet.find
        (CPos.shift ⟨6, 10⟩ 0 0).getUniqueId = some (.string ['t'])) ∧
    ∀ w h x y : Int, w < 2 ^ 31 → h < 2 ^ 31 → w * h < 2 ^ 31 → 0 ≤ x → x < w → 0 ≤ y →
      y < h →
      ∃ sheet2 : Sheet D, copyRect sheet dst src w h = .returned sheet2 ∧
        (sheet.find (src.shift x y).getUniqueId = none →
          sheet2.find (dst.shift x y).getUniqueId = some .monostate) ∧
        (∀ prog, sheet.find (src.shift x y).getUniqueId = some (.expr prog) →
          sheet2.find (dst.shift x y).getUniqueId
            = some (.expr (prog.map (relocate (dst.sub src))))) ∧
        (∀ c, sheet.find (src.shift x y).getUniqueId = some c → (∀ prog, c ≠ .expr prog) →
          sheet2.find (dst.shift x y).getUniqueId = some c) := by
  have hprod : mulInt32 65536 32768 < 0 := by decide
  refine ⟨?_, ⟨by decide, ?_⟩, ?_⟩
  · unfold copyRect
    rw [if_pos hprod]
  · unfold copyRect
    rw [if_pos hprod]
    decide
  · intro w h x y hw hh hwh hx0 hx hy0 hy
    have hpos : 0 ≤ w * h := Int.mul_nonneg (by omega) (by omega)
    exact ⟨_, copyRect_returns sheet dst src w h hpos hwh,
      copyRect_staged_find sheet dst src w h x y hw hh hx0 hx hy0 hy⟩

/-! ### Corrupting the first line -/

theorem headerLine_of_ne_nil (is : Str) (hne : is ≠ []) :
    ∃ s1, headerLine is = some (is.takeWhile (fun c => c != NL), s1) := by
  unfold headerLine getline
  simp only [IStream.ofStr, IStream.good, Bool.not_false, Bool.and_self, if_true]
  cases hd : List.dropWhile (fun c => c != NL) is with
  | nil =>
    have htw : is.takeWhile (fun c => c != NL) = is := by
      have := List.takeWhile_append_dropWhile (fun c => c != NL) is
      rw [hd, List.append_nil] at this
      exact this
    have hemp : (is.takeWhile (fun c => c != NL)).isEmpty = false := by
      rw [htw]
      cases is with
      | nil => exact absurd rfl hne
      | cons c cs => rfl
    simp [hemp]
  | cons c cs => simp

theorem headerLabel_eq (line : Str) :
    headerLabel line = (line.dropWhile isspace).takeWhile (fun c => !isspace c) := by
  unfold headerLabel readString sentry
  simp only [IStream.ofStr, IStream.good, Bool.not_false, Bool.and_self, if_true]
  cases hd : List.dropWhile isspace line with
  | nil => simp
  | cons c cs => simp

theorem load_false_of_label {D : Type} [DoubleOps D] (u : Uninit D) (sheet : Sheet D) (is : Str)
    (h : ((is.takeWhile (fun c => c != NL)).dropWhile isspace).takeWhile (fun c => !isspace c)
      ≠ "CHECKSUM".toList) : load u sheet is = .returned false sheet := by
  by_cases hne : is = []
  · subst hne
    rfl
  · obtain ⟨s1, hs1⟩ := headerLine_of_ne_nil is hne
    unfold load
    rw [hs1]
    simp only
    rw [headerLabel_eq, if_pos h]

theorem firstWord_mutated (rest : Str) (i : Nat) (b : Char) (hi : i ≤ 8)
    (hb : ("CHECKSUM ".toList ++ rest)[i]? ≠ some b) (h8 : i = 8 → isspace b = false) :
    ((((("CHECKSUM ".toList ++ rest).set i b).takeWhile (fun c => c != NL)).dropWhile
      isspace).takeWhile (fun c => !isspace c)) ≠ "CHECKSUM".toList := by
  have hs : "CHECKSUM ".toList = ['C', 'H', 'E', 'C', 'K', 'S', 'U', 'M', ' '] := rfl
  have hs2 : "CHECKSUM".toList = ['C', 'H', 'E', 'C', 'K', 'S', 'U', 'M'] := rfl
  have nC : ('C' != NL) = true := by decide
  have nH : ('H' != NL) = true := by decide
  have nE : ('E' != NL) = true := by decide
  have nK : ('K' != NL) = true := by decide
  have nS : ('S' != NL) = true := by decide
  have nU : ('U' != NL) = true := by decide
  have nM : ('M' != NL) = true := by decide
  have nSp : (' ' != NL) = true := by decide
  have sC : isspace 'C' = false := by decide
  have sH : isspace 'H' = false := by decide
  have sE : isspace 'E' = false := by decide
  have sK : isspace 'K' = false := by decide
  have sS : isspace 'S' = false := by decide
  have sU : isspace 'U' = false := by decide
  have sM : isspace 'M' = false := by decide
  have sSp : isspace ' ' = true := by decide
  have sNL : isspace NL = true := by decide
  rw [hs] at hb ⊢
  rw [hs2]
  by_cases hnl : b = NL
  · subst hnl
    interval_cases i <;>
      simp [List.takeWhile, List.dropWhile, nC, nH, nE, nK, nS, nU, nM, nSp, sC, sH, sE, sK,
        sS, sU, sM, sSp, sNL] at hb h8 ⊢
  · have hnl2 : (b != NL) = true := by simpa using hnl
    cases hsp : isspace b with
    | true =>
      interval_cases i <;>
        simp [List.takeWhile, List.dropWhile, nC, nH, nE, nK, nS, nU, nM, nSp, sC, sH, sE, sK,
          sS, sU, sM, sSp, sNL, hnl2, hsp] at hb h8 ⊢
    | false =>
      interval_cases i <;>
        simp [List.takeWhile, List.dropWhile, nC, nH, nE, nK, nS, nU, nM, nSp, sC, sH, sE, sK,
          sS, sU, sM, sSp, sNL, hnl2, hsp] at hb h8 ⊢ <;>
        exact fun e => hb e.symm

/-- Claim C7 as stated fails: replacing byte 8 of a saved stream, the blank after the word
`CHECKSUM`, by a tabulator gives a stream that `load` accepts; so does replacing byte 9 of
the stream of the empty sheet, the digit `0` of its checksum, by the letter `x`, from which
the extraction stores zero. -/
theorem load_accepts_tab_after_label :
    (save textSheet)[8]? = some ' ' ∧ Char.ofNat 9 ≠ ' ' ∧
    load uninit0 emptySheet ((save textSheet).set 8 (Char.ofNat 9))
      = .returned true textSheet ∧
    (save emptySheet)[9]? = some '0' ∧
    load uninit0 textSheet ((save emptySheet).set 9 'x') = .returned true textSheet := by
  decide

/-- For every sheet `S`, replacing one of the eight bytes of the word `CHECKSUM` in the stream
`save` wrote by any other byte, or the blank that follows the word by a byte that is not
white space, makes `load` return false (and leave its sheet alone). -/
theorem load_rejects_mutated_label {D : Type} [DoubleOps D] (S : Sheet D) (u : Uninit D)
    (sheet : Sheet D) (i : Nat) (b : Char) (hi : i ≤ 8) (hb : (save S)[i]? ≠ some b)
    (h8 : i = 8 → isspace b = false) :
    load u sheet ((save S).set i b) = .returned false sheet := by
  have hsave : save S
      = "CHECKSUM ".toList ++ (toDecimal (checksumOf (saveData S)) ++ [NL] ++ saveData S) := by
    simp [save, List.append_assoc]
  rw [hsave] at hb ⊢
  exact load_false_of_label u sheet _ (firstWord_mutated _ i b hi hb h8)

/-! ### Decimal numbers -/

theorem digitChar_spec (k : Nat) (hk : k < 10) :
    isdigit (Nat.digitChar k) = true ∧ (Nat.digitChar k).toNat - 48 = k ∧
      isspace (Nat.digitChar k) = false ∧ Nat.digitChar k ≠ NL ∧
      Nat.digitChar k ≠ '-' ∧ Nat.digitChar k ≠ '+' := by
  interval_cases k <;> decide

theorem toDigitsCore_append (fuel n : Nat) (acc : Str) :
    Nat.toDigitsCore 10 fuel n acc = Nat.toDigitsCore 10 fuel n [] ++ acc := by
  induction fuel generalizing n acc with
  | zero => simp [Nat.toDigitsCore]
  | succ fuel ih =>
    simp only [Nat.toDigitsCore]
    by_cases h0 : n / 10 = 0
    · simp [h0]
    · simp only [h0, if_false]
      rw [ih (n / 10) (Nat.digitChar (n % 10) :: acc), ih (n / 10) [Nat.digitChar (n % 10)]]
      simp

theorem digitsValue_toDigitsCore (fuel n : Nat) (acc : Str) (h : n < fuel) :
    digitsValue (Nat.toDigitsCore 10 fuel n acc) 0 = digitsValue acc n := by
  induction fuel generalizing n acc with
  | zero => omega
  | succ fuel ih =>
    obtain ⟨hd, hv, -⟩ := digitChar_spec (n % 10) (Nat.mod_lt _ (by norm_num))
    simp only [Nat.toDigitsCore]
    by_cases h0 : n / 10 = 0
    · simp only [h0, if_true, digitsValue, hd, hv]
      congr 1
      omega
    · simp only [h0, if_false]
      rw [ih (n / 10) _ (by omega)]
      simp only [digitsValue, hd, hv, if_true]
      congr 1
      omega

theorem toDigitsCore_digits (fuel n : Nat) (acc : Str) (c : Char)
    (hc : c ∈ Nat.toDigitsCore 10 fuel n acc) :
    c ∈ acc ∨ ∃ k, k < 10 ∧ c = Nat.digitChar k := by
  induction fuel generalizing n acc with
  | zero => exact Or.inl (by simpa [Nat.toDigitsCore] using hc)
  | succ fuel ih =>
    simp only [Nat.toDigitsCore] at hc
    by_cases h0 : n / 10 = 0
    · simp only [h0, if_true, List.mem_cons] at hc
      rcases hc with rfl | hc
      · exact Or.inr ⟨n % 10, Nat.mod_lt _ (by norm_num), rfl⟩
      · exact Or.inl hc
    · simp only [h0, if_false] at hc
      rcases ih _ _ hc with h | h
      · rcases List.mem_cons.mp h with rfl | h
        · exact Or.inr ⟨n % 10, Nat.mod_lt _ (by norm_num), rfl⟩
        · exact Or.inl h
      · exact Or.inr h

theorem toDecimal_ne_nil (n : Nat) : toDecimal n ≠ [] := by
  unfold toDecimal Nat.toDigits
  simp only [Nat.toDigitsCore]
  by_cases h0 : n / 10 = 0
  · simp [h0]
  · simp only [h0, if_false]
    rw [toDigitsCore_append]
    simp

theorem toDecimal_digit (n : Nat) (c : Char) (hc : c ∈ toDecimal n) :
    ∃ k, k < 10 ∧ c = Nat.digitChar k := by
  rcases toDigitsCore_digits (n + 1) n [] c hc with h | h
  · simp at h
  · exact h

/-- Reading back the decimal digits `save` prints gives the number printed. -/
theorem digitsValue_toDecimal (n : Nat) : digitsValue (toDecimal n) 0 = n := by
  unfold toDecimal Nat.toDigits
  rw [digitsValue_toDigitsCore (n + 1) n [] (Nat.lt_succ_self n)]
  rfl

/-! ### The checks of `load` on a saved stream -/

theorem checksum_fold_lt (data : Str) (acc : Nat) (h : acc < sizeMod) :
    data.foldl (fun a c => (a + byteVal c) % sizeMod) acc < sizeMod := by
  induction data generalizing acc with
  | nil => exact h
  | cons c cs ih =>
    simp only [List.foldl]
    exact ih _ (Nat.mod_lt _ (by decide))

theorem checksumOf_lt (data : Str) : checksumOf data < sizeMod :=
  checksum_fold_lt data 0 (by decide)

theorem calculatedChecksum_eq (lines : List Str) (acc : Nat) :
    calculatedChecksum lines acc
      = (contentOf lines).foldl (fun a c => (a + byteVal c) % sizeMod) acc := by
  induction lines generalizing acc with
  | nil => rfl
  | cons line rest ih =>
    simp only [calculatedChecksum, contentOf, List.foldl_append, List.foldl]
    rw [ih]

theorem allLines_nil : allLines (IStream.ofStr []) NL = [] := by decide

theorem readLines_succ (n : Nat) (s : IStream) (delim : Char) :
    readLines (n + 1) s delim
      = if (getline s [] delim).2.failbit then []
        else (getline s [] delim).1 :: readLines n (getline s [] delim).2 delim := rfl

theorem allLines_cons_line (line rest : Str) (hline : ∀ c ∈ line, (c != NL) = true) :
    allLines (IStream.ofStr (line ++ NL :: rest)) NL
      = line :: allLines (IStream.ofStr rest) NL := by
  have hnl : (NL != NL) = false := by decide
  have hg : getline (IStream.ofStr (line ++ NL :: rest)) [] NL = (line, IStream.ofStr rest) := by
    unfold getline
    simp only [IStream.ofStr, IStream.good, Bool.not_false, Bool.and_self, if_true]
    rw [List.takeWhile_append_of_pos hline, List.dropWhile_append_of_pos hline]
    simp [List.takeWhile_cons, List.dropWhile_cons, hnl]
  unfold allLines
  rw [readLines_succ, hg]
  simp only [IStream.ofStr, Bool.false_eq_true, if_false]
  rw [readLines_fuel _ (rest.length + 1) ⟨rest, false, false⟩ NL (by simp; omega) (by simp)]

theorem contentOf_allLines (data : Str) :
    contentOf (allLines (IStream.ofStr (data ++ [NL])) NL) = data ++ [NL] := by
  have key : ∀ (k : Nat) (data : Str), data.length = k →
      contentOf (allLines (IStream.ofStr (data ++ [NL])) NL) = data ++ [NL] := by
    intro k
    induction k using Nat.strong_induction_on with
    | _ k ih =>
      intro data hlen
      have happ := List.takeWhile_append_dropWhile (fun c => c != NL) data
      have hline : ∀ c ∈ data.takeWhile (fun c => c != NL), (c != NL) = true :=
        fun c hc => by
          have h := List.mem_takeWhile_imp hc
          exact h
      cases hd : List.dropWhile (fun c => c != NL) data with
      | nil =>
        rw [hd, List.append_nil] at happ
        rw [happ] at hline
        rw [allLines_cons_line data [] hline, allLines_nil]
        simp [contentOf]
      | cons c rest =>
        have hc : c = NL := by
          have h1 := List.head_dropWhile_not (fun c => c != NL) data (by simp [hd])
          simpa [hd] using h1
        subst hc
        rw [hd] at happ
        have hlt : rest.length < k := by
          have := congrArg List.length happ
          simp only [List.length_append, List.length_cons] at this
          omega
        have hdata : data ++ [NL]
            = data.takeWhile (fun c => c != NL) ++ NL :: (rest ++ [NL]) := by
          conv_lhs => rw [← happ]
          simp
        rw [hdata, allLines_cons_line _ _ hline]
        simp only [contentOf]
        rw [ih rest.length hlt rest rfl]
        simp
  exact key data.length data rfl

theorem saveData_ends_with_newline {D : Type} [DoubleOps D] (S : Sheet D) :
    saveData S = [] ∨ ∃ d, saveData S = d ++ [NL] := by
  induction S with
  | nil => exact Or.inl rfl
  | cons p rest ih =>
    obtain ⟨key, val⟩ := p
    right
    rcases ih with h | ⟨d, h⟩
    · exact ⟨toDecimal key ++ ", ".toList ++ saveCell val, by simp [saveData, h]⟩
    · exact ⟨toDecimal key ++ ", ".toList ++ saveCell val ++ [NL] ++ d, by simp [saveData, h]⟩

theorem contentOf_allLines_saveData {D : Type} [DoubleOps D] (S : Sheet D) :
    contentOf (allLines (IStream.ofStr (saveData S)) NL) = saveData S := by
  rcases saveData_ends_with_newline S with h | ⟨d, h⟩
  · rw [h, allLines_nil]
    rfl
  · rw [h, contentOf_allLines]

theorem headerLine_save {D : Type} [DoubleOps D] (S : Sheet D) :
    headerLine (save S)
      = some ("CHECKSUM ".toList ++ toDecimal (checksumOf (saveData S)),
          IStream.ofStr (saveData S)) := by
  have hsave : save S
      = ("CHECKSUM ".toList ++ toDecimal (checksumOf (saveData S))) ++ NL :: saveData S := by
    simp [save, List.append_assoc]
  have hline : ∀ c ∈ "CHECKSUM ".toList ++ toDecimal (checksumOf (saveData S)),
      (c != NL) = true := by
    intro c hc
    rcases List.mem_append.mp hc with h | h
    · have hall : ∀ c ∈ "CHECKSUM ".toList, (c != NL) = true := by decide
      exact hall c h
    · obtain ⟨k, hk, rfl⟩ := toDecimal_digit _ c h
      simpa using (digitChar_spec k hk).2.2.2.1
  have hnl : (NL != NL) = false := by decide
  rw [hsave]
  unfold headerLine getline
  simp only [IStream.ofStr, IStream.good, Bool.not_false, Bool.and_self, if_true]
  rw [List.takeWhile_append_of_pos hline, List.dropWhile_append_of_pos hline]
  simp [List.takeWhile_cons, List.dropWhile_cons, hnl]

theorem headerLabel_save (n : Nat) :
    headerLabel ("CHECKSUM ".toList ++ toDecimal n) = "CHECKSUM".toList := by
  rw [headerLabel_eq]
  have hs : "CHECKSUM ".toList = ['C', 'H', 'E', 'C', 'K', 'S', 'U', 'M', ' '] := rfl
  have hs2 : "CHECKSUM".toList = ['C', 'H', 'E', 'C', 'K', 'S', 'U', 'M'] := rfl
  have sC : isspace 'C' = false := by decide
  have sH : isspace 'H' = false := by decide
  have sE : isspace 'E' = false := by decide
  have sK : isspace 'K' = false := by decide
  have sS : isspace 'S' = false := by decide
  have sU : isspace 'U' = false := by decide
  have sM : isspace 'M' = false := by decide
  have sSp : isspace ' ' = true := by decide
  rw [hs, hs2]
  simp [List.takeWhile_cons, List.dropWhile_cons, sC, sH, sE, sK, sS, sU, sM, sSp]

theorem declaredChecksum_save (r n : Nat) (hn : n < sizeMod) :
    declaredChecksum r ("CHECKSUM ".toList ++ toDecimal n) = n := by
  have hs : "CHECKSUM ".toList = ['C', 'H', 'E', 'C', 'K', 'S', 'U', 'M', ' '] := rfl
  have sC : isspace 'C' = false := by decide
  have sH : isspace 'H' = false := by decide
  have sE : isspace 'E' = false := by decide
  have sK : isspace 'K' = false := by decide
  have sS : isspace 'S' = false := by decide
  have sU : isspace 'U' = false := by decide
  have sM : isspace 'M' = false := by decide
  have sSp : isspace ' ' = true := by decide
  have hval := digitsValue_toDecimal n
  have hdig := toDecimal_digit n
  cases hd : toDecimal n with
  | nil => exact absurd hd (toDecimal_ne_nil n)
  | cons c cs =>
    rw [hd] at hval hdig
    obtain ⟨k, hk, hck⟩ := hdig c (List.mem_cons_self _ _)
    obtain ⟨h1, -, h3, -, h5, h6⟩ := digitChar_spec k hk
    rw [← hck] at h1 h3 h5 h6
    have hlt : ¬ sizeMod ≤ n := by omega
    unfold declaredChecksum readString readULong sentry
    simp [hs, IStream.ofStr, IStream.good, List.takeWhile_cons, List.dropWhile_cons, sC, sH,
      sE, sK, sS, sU, sM, sSp, h1, h3, h5, h6, hval, hlt]

/-- On the stream `save` wrote for any sheet, `load` passes the header check and the checksum
check and goes on to parse the lines of the data region. -/
theorem load_save_passes_checks {D : Type} [DoubleOps D] (S : Sheet D) (u : Uninit D)
    (sheet : Sheet D) :
    load u sheet (save S) = loadLines u (allLines (IStream.ofStr (saveData S)) NL) sheet := by
  unfold load
  rw [headerLine_save]
  simp only
  rw [headerLabel_save, declaredChecksum_save _ _ (checksumOf_lt _), calculatedChecksum_eq,
    contentOf_allLines_saveData]
  simp only [ne_eq, not_true_eq_false, if_false, dataLines, contentOf_allLines_saveData]
  simp [checksumOf]

/-- On the stream `save` wrote for any sheet, `load` never returns false. -/
theorem load_save_not_false {D : Type} [DoubleOps D] (S : Sheet D) (u : Uninit D)
    (sheet s2 : Sheet D) : load u sheet (save S) ≠ .returned false s2 := by
  rw [load_save_passes_checks]
  exact loadLines_not_false u _ sheet s2

/-! ### The checksum `save` writes -/

theorem checksum_fold_mod (data : Str) (acc : Nat) :
    data.foldl (fun a c => (a + byteVal c) % sizeMod) acc % sizeMod
      = (acc + (data.map byteVal).sum) % sizeMod := by
  induction data generalizing acc with
  | nil => simp
  | cons c cs ih =>
    simp only [List.foldl, List.map, List.sum_cons]
    rw [ih]
    simp only [sizeMod]
    omega

theorem checksumOf_eq_sum (data : Str) :
    checksumOf data = (data.map byteVal).sum % sizeMod := by
  have h := checksum_fold_mod data 0
  rw [Nat.zero_add] at h
  rw [← h]
  exact (Nat.mod_eq_of_lt (checksumOf_lt data)).symm

theorem digitsValue_eq_foldl (digits : Str) (acc : Nat) (h : ∀ c ∈ digits, isdigit c = true) :
    digitsValue digits acc = digits.foldl (fun a c => a * 10 + (c.toNat - 48)) acc := by
  induction digits generalizing acc with
  | nil => rfl
  | cons c cs ih =>
    have hc : isdigit c = true := h c (List.mem_cons_self _ _)
    simp only [digitsValue, hc, if_true, List.foldl]
    exact ih _ (fun d hd => h d (List.mem_cons_of_mem _ hd))

theorem toDecimal_isdigit (n : Nat) (c : Char) (hc : c ∈ toDecimal n) : isdigit c = true := by
  obtain ⟨k, hk, rfl⟩ := toDecimal_digit n c hc
  exact (digitChar_spec k hk).1

/-- Claim C11: for every sheet, what `save` writes is the word `CHECKSUM`, a blank, a
non-empty word of decimal digits, a newline and the data region; the first line `load` reads
from it is the word and the digits, the rest is the data region, and the decimal value of the
digits is the sum of the byte values of all characters of the data region, newlines included,
modulo `2^64`. -/
theorem save_checksum_is_byte_sum {D : Type} [DoubleOps D] (S : Sheet D) :
    ∃ digits data : Str,
      save S = "CHECKSUM ".toList ++ digits ++ [NL] ++ data ∧
      headerLine (save S) = some ("CHECKSUM ".toList ++ digits, IStream.ofStr data) ∧
      digits ≠ [] ∧ (∀ c ∈ digits, isdigit c = true) ∧
      decimalValue digits = (data.map byteVal).sum % sizeMod := by
  refine ⟨toDecimal (checksumOf (saveData S)), saveData S, ?_, headerLine_save S,
    toDecimal_ne_nil _, toDecimal_isdigit _, ?_⟩
  · simp [save]
  · unfold decimalValue
    rw [← digitsValue_eq_foldl _ 0 (toDecimal_isdigit _), digitsValue_toDecimal,
      checksumOf_eq_sum]

/-! ### The path after `getValue` -/

/-- Claim C13: when `getValue` is entered with an empty evaluation path and returns, the path
is empty again, whether the cell is missing, holds a literal, or holds a program that
evaluates or fails. The sheet is a constant reference in `getValue` and in every `evaluate`
method, and an argument that is only read in the embedding: it is the same after the call. -/
theorem getValue_leaves_path_empty {D : Type} [DoubleOps D] (fuel : Nat) (sheet : Sheet D)
    (pos : CPos) (v : CValue D) (p : Path) (h : getValue fuel sheet [] pos = .done v p) :
    p = [] := by
  unfold getValue at h
  simp only at h
  split at h
  · simp only [Outcome.done.injEq] at h
    exact h.2.symm
  · simp only [Outcome.done.injEq] at h
    exact h.2.symm
  · simp only [Outcome.done.injEq] at h
    exact h.2.symm
  · simp only [List.not_mem_nil, if_false] at h
    split at h
    · simp only [Outcome.done.injEq] at h
      exact h.2.symm
    · simp only [Outcome.done.injEq] at h
      exact h.2.symm
    · simp at h
    · simp at h
  · simp only [Outcome.done.injEq] at h
    exact h.2.symm

/-- Claim C13 applies to the sheet with `A1 := =A2` and `A2 := =A1`, where `getValue(A1)`
returns the empty value. -/
theorem getValue_leaves_path_empty_witness :
    getValue 2 twoCycleSheet [] ⟨1, 1⟩ = .done .monostate [] ∧ ([] : Path) = [] :=
  ⟨by decide, getValue_leaves_path_empty 2 twoCycleSheet ⟨1, 1⟩ .monostate [] (by decide)⟩

/-! ### Cells outside the destination of `copyRect` -/

/-- Claim C14: `copyRect` leaves every cell alone whose key is not the key of a destination
position `dst + (x, y)` with `0 ≤ x < w` and `0 ≤ y < h`: its content before and after the
call is the same, node for node, also for a source cell outside the destination, whether the
call returned or `reserve` threw. -/
theorem copyRect_frame {D : Type} (sheet : Sheet D) (dst src : CPos) (w h : Int) (k : Nat)
    (hk : ∀ x y : Int, 0 ≤ x → x < w → 0 ≤ y → y < h → (dst.shift x y).getUniqueId ≠ k) :
    (copyRect sheet dst src w h).sheet.find k = sheet.find k := by
  unfold copyRect
  split
  · rfl
  simp only [CopyOutcome.sheet]
  apply applyStorage_find_absent
  intro p hp
  rw [mem_tempStorage] at hp
  obtain ⟨y, hy, x, hx, rfl⟩ := hp
  exact hk x y (by omega) (by omega) (by omega) (by omega)

/-- The theorem `copyRect_frame` applies to the copy of the cell F10 to G11: the source F10
keeps its content. -/
theorem copyRect_frame_witness :
    (copyRect copySheet ⟨7, 11⟩ ⟨6, 10⟩ 1 1).sheet.find idF10 = Sheet.find copySheet idF10 :=
  copyRect_frame copySheet ⟨7, 11⟩ ⟨6, 10⟩ 1 1 idF10 (by
    intro x y hx0 hx hy0 hy
    obtain rfl : x = 0 := by omega
    obtain rfl : y = 0 := by omega
    decide)

/-! ### The key of a position -/

/-- Claim C15 as stated fails: the positions `A4294967296` (column 1, row `2^32`) and `B0`
(column 2, row 0) have columns below `2^32`, rows in the 64-bit range, and the same key. -/
theorem getUniqueId_collision :
    (1 : Nat) < 2 ^ 32 ∧ (2 : Nat) < 2 ^ 32 ∧ (4294967296 : Nat) < 2 ^ 64 ∧
    CPos.getUniqueId ⟨1, 4294967296⟩ = CPos.getUniqueId ⟨2, 0⟩ ∧
    CPos.ofStr "A4294967296".toList = some ⟨1, 4294967296⟩ ∧
    CPos.ofStr "B0".toList = some ⟨2, 0⟩ := by
  decide

/-- Claim C15, amended: for columns and rows below `2^32` the key is free of collisions: two
positions with the same key have the same column and the same row. -/
theorem getUniqueId_injective (c1 r1 c2 r2 : Nat) (hc1 : c1 < 2 ^ 32) (hc2 : c2 < 2 ^ 32)
    (hr1 : r1 < 2 ^ 32) (hr2 : r2 < 2 ^ 32)
    (h : CPos.getUniqueId ⟨c1, r1⟩ = CPos.getUniqueId ⟨c2, r2⟩) : c1 = c2 ∧ r1 = r2 := by
  simp only [CPos.getUniqueId, sizeMod] at h
  omega

/-- The theorem `getUniqueId_injective` applies to the position A1 taken twice. -/
theorem getUniqueId_injective_witness :
    CPos.getUniqueId ⟨1, 1⟩ = CPos.getUniqueId ⟨1, 1⟩ ∧ ((1 : Nat) = 1 ∧ (1 : Nat) = 1) :=
  ⟨rfl, getUniqueId_injective 1 1 1 1 (by decide) (by decide) (by decide) (by decide) rfl⟩

/-! ### Literal cells -/

/-- Claim C19: for a non-empty text that does not begin with `=` and that `std::stod` does
not process entirely (it throws, or stops before the end), `setCell` returns true and stores
the text, and a following `getValue` returns the text unchanged. -/
theorem setCell_text {D : Type} [DoubleOps D]
    (parseExpression : Str → Option (List (BuilderCall D))) (sheet : Sheet D) (pos : CPos)
    (t : Str) (fuel : Nat) (path : Path) (hne : t ≠ []) (heq : t.head? ≠ some '=')
    (hnum : ∀ (v : D) (idx : Nat), DoubleOps.stod t = some (v, idx) → idx ≠ t.length) :
    setCell parseExpression sheet pos t
      = .returned true (sheet.assign pos.getUniqueId (.string t)) ∧
    getValue fuel (sheet.assign pos.getUniqueId (.string t)) path pos
      = .done (.string t) path := by
  have hdet : (DetermineValue t : CustomCValue D) = .string t := by
    unfold DetermineValue
    have hemp : t.isEmpty = false := by
      cases t with
      | nil => exact absurd rfl hne
      | cons c cs => rfl
    simp only [hemp, Bool.false_eq_true, if_false]
    cases hs : (DoubleOps.stod t : Option (D × Nat)) with
    | none => rfl
    | some q =>
      obtain ⟨v, idx⟩ := q
      simp [hnum v idx hs]
  refine ⟨?_, ?_⟩
  · unfold setCell
    simp [heq, hdet]
  · unfold getValue
    simp [find_assign_same]

/-- The theorem `setCell_text` applies to a text with a double quote and a newline. -/
theorem setCell_text_witness :
    setCell noParser emptySheet ⟨1, 1⟩ rawText = .returned true [(idA1, .string rawText)] ∧
    getValue 0 (Sheet.assign emptySheet (CPos.getUniqueId ⟨1, 1⟩) (.string rawText)) [] ⟨1, 1⟩
      = .done (.string rawText) [] :=
  ⟨by decide,
    (setCell_text noParser emptySheet ⟨1, 1⟩ rawText 0 [] (by decide) (by decide)
      (by
        intro v idx h
        have hn : (DoubleOps.stod rawText : Option (Rat × Nat)) = none := by decide
        rw [hn] at h
        exact absurd h (by simp))).2⟩

/-- Claim C12: when two distinct positions `a` and `b` hold the programs `[Ref b]` and
`[Ref a]`, `getValue(a)` returns the empty value (with fuel for the two nested evaluations),
and after `setCell(a, "10")`, for which `std::stod` gives the number ten, `getValue(a)`
returns that number. -/
theorem getValue_two_cycle {D : Type} [DoubleOps D]
    (parseExpression : Str → Option (List (BuilderCall D))) (sheet : Sheet D) (a b : CPos)
    (ra rb : Reference) (ten : D) (fuel : Nat) (hab : a ≠ b)
    (hra : ra.column = a.column ∧ ra.row = a.row) (hrb : rb.column = b.column ∧ rb.row = b.row)
    (ha : sheet.find a.getUniqueId = some (.expr [.reference rb]))
    (hb : sheet.find b.getUniqueId = some (.expr [.reference ra]))
    (hten : (DoubleOps.stod "10".toList : Option (D × Nat)) = some (ten, 2))
    (hfuel : 2 ≤ fuel) :
    getValue fuel sheet [] a = .done .monostate [] ∧
    setCell parseExpression sheet a "10".toList
      = .returned true (sheet.assign a.getUniqueId (.double ten)) ∧
    getValue fuel (sheet.assign a.getUniqueId (.double ten)) [] a = .done (.double ten) [] := by
  have hida : CPos.getUniqueId ⟨ra.column, ra.row⟩ = a.getUniqueId := by
    rw [hra.1, hra.2]
  have hidb : CPos.getUniqueId ⟨rb.column, rb.row⟩ = b.getUniqueId := by
    rw [hrb.1, hrb.2]
  have hne : b.getUniqueId ≠ a.getUniqueId := by
    intro he
    rw [he, ha] at hb
    simp only [Option.some.injEq, CustomCValue.expr.injEq, List.cons.injEq,
      ExprElement.reference.injEq, and_true] at hb
    apply hab
    have h1 : a.column = b.column := by rw [← hra.1, ← hrb.1, hb]
    have h2 : a.row = b.row := by rw [← hra.2, ← hrb.2, hb]
    cases a
    cases b
    simp only at h1 h2
    rw [h1, h2]
  obtain ⟨n, rfl⟩ : ∃ n, fuel = n + 2 := ⟨fuel - 2, by omega⟩
  refine ⟨?_, ?_, ?_⟩
  · have hinner : evaluateExpression (n + 1) sheet [.reference ra]
        [b.getUniqueId, a.getUniqueId] = .done .monostate [] := by
      simp [evaluateExpression, runNodes, ExprElement.evaluate, Reference.evaluate, hida, ha]
    have houter : evaluateExpression (n + 2) sheet [.reference rb] [a.getUniqueId]
        = .done .monostate [] := by
      rw [evaluateExpression]
      simp [runNodes, ExprElement.evaluate, Reference.evaluate, hidb, hb, hne, hinner]
    unfold getValue
    simp [ha, houter]
  · have hten2 : (DoubleOps.stod ['1', '0'] : Option (D × Nat)) = some (ten, 2) := hten
    simp [setCell, DetermineValue, hten2]
  · unfold getValue
    simp [find_assign_same]

/-- The theorem `getValue_two_cycle` applies to the sheet with `A1 := =A2` and
`A2 := =A1`. -/
theorem getValue_two_cycle_witness :
    Sheet.find twoCycleSheet (CPos.getUniqueId ⟨1, 1⟩) = some (.expr [.reference refA2]) ∧
    Sheet.find twoCycleSheet (CPos.getUniqueId ⟨1, 2⟩) = some (.expr [.reference refA1]) ∧
    (getValue 2 twoCycleSheet [] ⟨1, 1⟩ = .done .monostate [] ∧
    setCell noParser twoCycleSheet ⟨1, 1⟩ "10".toList
      = .returned true (Sheet.assign twoCycleSheet (CPos.getUniqueId ⟨1, 1⟩) (.double 10)) ∧
    getValue 2 (Sheet.assign twoCycleSheet (CPos.getUniqueId ⟨1, 1⟩) (.double 10)) [] ⟨1, 1⟩
      = .done (.double 10) []) :=
  ⟨by decide, by decide,
    getValue_two_cycle noParser twoCycleSheet ⟨1, 1⟩ ⟨1, 2⟩ refA1 refA2 10 2 (by decide)
      (by decide) (by decide) (by decide) (by decide) (by decide) (by decide)⟩

/-! ### Parsing a position -/

theorem letterRank_of_isalpha (c : Char) (h : isalpha c = true) :
    toupper c - 65 + 1 = letterRank c ∧ 1 ≤ letterRank c := by
  simp only [isalpha, Bool.or_eq_true, Bool.and_eq_true, decide_eq_true_eq] at h
  unfold toupper letterRank
  simp only [Bool.and_eq_true, decide_eq_true_eq]
  split_ifs <;> omega

theorem isalpha_not_isdigit (c : Char) (h : isalpha c = true) : isdigit c = false := by
  simp only [isalpha, Bool.or_eq_true, Bool.and_eq_true, decide_eq_true_eq] at h
  simp only [isdigit, Bool.and_eq_false_iff, decide_eq_false_iff_not]
  omega

theorem isdigit_not_isalpha (c : Char) (h : isdigit c = true) : isalpha c = false := by
  cases ha : isalpha c with
  | false => rfl
  | true => rw [isalpha_not_isdigit c ha] at h; exact absurd h (by simp)

theorem isdigit_not_isspace (c : Char) (h : isdigit c = true) : isspace c = false := by
  simp only [isdigit, Bool.and_eq_true, decide_eq_true_eq] at h
  simp only [isspace, Bool.or_eq_false_iff, beq_eq_false_iff_ne, ne_eq,
    Bool.and_eq_false_iff, decide_eq_false_iff_not]
  omega

theorem isdigit_not_sign (c : Char) (h : isdigit c = true) : c ≠ '-' ∧ c ≠ '+' := by
  constructor <;> (intro he; subst he; exact absurd h (by decide))

/-- The loop over the column letters reads all of a word of letters that is followed by
nothing or by another character, and leaves the rest. -/
theorem parseColumn_append (letters rest : Str) (col : Nat)
    (hl : ∀ c ∈ letters, isalpha c = true) (hr : ∀ c cs, rest = c :: cs → isalpha c = false) :
    parseColumn (letters ++ rest) col
      = (letters.foldl (fun a c => (a * 26 + (toupper c - 65 + 1)) % sizeMod) col, rest) := by
  induction letters generalizing col with
  | nil =>
    cases rest with
    | nil => rfl
    | cons c cs => simp [parseColumn, hr c cs rfl]
  | cons l ls ih =>
    have hla : isalpha l = true := hl l (List.mem_cons_self _ _)
    simp only [List.cons_append, parseColumn, hla, if_true, List.foldl]
    exact ih _ (fun c hc => hl c (List.mem_cons_of_mem _ hc))

theorem base26_fold_ge (letters : Str) (acc : Nat) :
    acc ≤ letters.foldl (fun a c => a * 26 + letterRank c) acc := by
  induction letters generalizing acc with
  | nil => exact le_refl _
  | cons c cs ih =>
    simp only [List.foldl]
    exact le_trans (by omega) (ih _)

theorem base26_fold_mod (letters : Str) (acc : Nat) (hl : ∀ c ∈ letters, isalpha c = true)
    (hlt : letters.foldl (fun a c => a * 26 + letterRank c) acc < sizeMod) :
    letters.foldl (fun a c => (a * 26 + (toupper c - 65 + 1)) % sizeMod) acc
      = letters.foldl (fun a c => a * 26 + letterRank c) acc := by
  induction letters generalizing acc with
  | nil => rfl
  | cons c cs ih =>
    have hc := (letterRank_of_isalpha c (hl c (List.mem_cons_self _ _))).1
    simp only [List.foldl] at hlt ⊢
    have hge := base26_fold_ge cs (acc * 26 + letterRank c)
    rw [hc, Nat.mod_eq_of_lt (lt_of_le_of_lt hge hlt)]
    exact ih _ (fun d hd => hl d (List.mem_cons_of_mem _ hd)) hlt

theorem parseColumn_rest_subset (t : Str) (col : Nat) (c : Char)
    (hc : c ∈ (parseColumn t col).2) : c ∈ t := by
  induction t generalizing col with
  | nil => simp [parseColumn] at hc
  | cons d ds ih =>
    unfold parseColumn at hc
    by_cases hd : isalpha d = true
    · simp only [hd, if_true] at hc
      exact List.mem_cons_of_mem _ (ih _ hc)
    · simp only [hd] at hc
      exact hc

/-- A word of decimal digits below `2^64` is read by `std::stoul` as its decimal value. -/
theorem stoul_digits (digits : Str) (hne : digits ≠ []) (hd : ∀ c ∈ digits, isdigit c = true)
    (hlt : decimalValue digits < sizeMod) : stoul digits = some (decimalValue digits) := by
  cases digits with
  | nil => exact absurd rfl hne
  | cons c cs =>
    have hc : isdigit c = true := hd c (List.mem_cons_self _ _)
    have hsp := isdigit_not_isspace c hc
    obtain ⟨hm, hp⟩ := isdigit_not_sign c hc
    have hval : digitsValue (c :: cs) 0 = decimalValue (c :: cs) :=
      digitsValue_eq_foldl _ 0 hd
    unfold stoul
    simp only [List.dropWhile_cons, hsp, Bool.false_eq_true, if_false, hm, hp, hc, if_true,
      hval]
    simp [Nat.not_le.mpr hlt]

/-- Without a digit at the place where it looks for one, `std::stoul` throws. -/
theorem stoul_none_of_no_digit (s : Str) (h : ∀ c ∈ s, isdigit c = false) : stoul s = none := by
  have hsub : ∀ c ∈ s.dropWhile isspace, isdigit c = false :=
    fun c hc => h c ((List.dropWhile_sublist _).subset hc)
  unfold stoul
  cases hd : List.dropWhile isspace s with
  | nil => rfl
  | cons c cs =>
    rw [hd] at hsub
    by_cases hm : c = '-'
    · simp only [hm, if_true]
      cases cs with
      | nil => rfl
      | cons d ds => simp [hsub d (by simp)]
    · by_cases hp : c = '+'
      · simp only [hp, if_true]
        cases cs with
        | nil => rfl
        | cons d ds => simp [hsub d (by simp)]
      · simp [hm, hp, hsub c (by simp)]

theorem stoul_none_of_foreign (c : Char) (rest : Str) (hs : isspace c = false)
    (hd : isdigit c = false) (hp : c ≠ '+') (hm : c ≠ '-') : stoul (c :: rest) = none := by
  unfold stoul
  simp [List.dropWhile_cons, hs, hd, hp, hm]

/-- Claim C17 as stated fails: a text without column letters and a text with a foreign
character after the row digits are accepted by the constructor of `CPos`. -/
theorem CPos_ofStr_accepts_malformed :
    CPos.ofStr "123".toList = some ⟨0, 123⟩ ∧ CPos.ofStr "A1x".toList = some ⟨1, 1⟩ := by
  decide

/-- Claim C17, amended: constructing a position from a text fails whenever the text holds no
decimal digit, and whenever its leading letters are followed by a character that is neither
a digit, nor white space, nor a sign. -/
theorem CPos_ofStr_fails (t : Str)
    (h : (∀ c ∈ t, isdigit c = false) ∨
      ∃ (letters : Str) (c : Char) (rest : Str), t = letters ++ c :: rest ∧
        (∀ l ∈ letters, isalpha l = true) ∧ isalpha c = false ∧ isdigit c = false ∧
        isspace c = false ∧ c ≠ '+' ∧ c ≠ '-') :
    CPos.ofStr t = none := by
  rcases h with h | ⟨letters, c, rest, rfl, hl, ha, hd, hs, hp, hm⟩
  · have hno : stoul (parseColumn t 0).2 = none :=
      stoul_none_of_no_digit _ (fun c hc => h c (parseColumn_rest_subset t 0 c hc))
    unfold CPos.ofStr
    cases hpc : parseColumn t 0 with
    | mk column rest =>
      rw [hpc] at hno
      cases rest with
      | nil => rfl
      | cons d ds => simp [hno]
  · unfold CPos.ofStr
    rw [parseColumn_append letters (c :: rest) 0 hl (by
      intro d ds hd2
      simp only [List.cons.injEq] at hd2
      rw [← hd2.1]
      exact ha)]
    simp [stoul_none_of_foreign c rest hs hd hp hm]

/-- The theorem `CPos_ofStr_fails` applies to the text `A`, which has no digit. -/
theorem CPos_ofStr_fails_witness : CPos.ofStr "A".toList = none :=
  CPos_ofStr_fails "A".toList (Or.inl (by decide))

/-- Claim C18: a text made of letters, in upper or lower case, followed by one or more
decimal digits, whose bijective base-26 value and decimal value are below `2^64`, is parsed
by the constructor of `CPos` into the position with that column and that row (one letter or
more is the case of the claim; without a letter the column is 0). -/
theorem CPos_ofStr_letters_digits (letters digits : Str)
    (hl : ∀ c ∈ letters, isalpha c = true) (hd0 : digits ≠ [])
    (hd : ∀ c ∈ digits, isdigit c = true) (hcol : bijectiveBase26 letters < sizeMod)
    (hrow : decimalValue digits < sizeMod) :
    CPos.ofStr (letters ++ digits) = some ⟨bijectiveBase26 letters, decimalValue digits⟩ := by
  unfold CPos.ofStr
  rw [parseColumn_append letters digits 0 hl (by
    intro d ds hd2
    exact isdigit_not_isalpha d (hd d (by rw [hd2]; exact List.mem_cons_self _ _)))]
  rw [base26_fold_mod letters 0 hl hcol]
  cases digits with
  | nil => exact absurd rfl hd0
  | cons d ds =>
    simp only [stoul_digits (d :: ds) hd0 hd hrow]
    rfl

/-- The theorem `CPos_ofStr_letters_digits` applies to the text `AAAA9999` of the tests and
to a text in lower case. -/
theorem CPos_ofStr_letters_digits_witness :
    bijectiveBase26 "AAAA".toList = 18279 ∧ decimalValue "9999".toList = 9999 ∧
    CPos.ofStr ("AAAA".toList ++ "9999".toList) = some ⟨18279, 9999⟩ ∧
    CPos.ofStr ("aa".toList ++ "27".toList)
      = some ⟨bijectiveBase26 "aa".toList, decimalValue "27".toList⟩ :=
  ⟨by decide, by decide, by decide,
    CPos_ofStr_letters_digits "aa".toList "27".toList (by decide) (by decide) (by decide)
      (by decide) (by decide)⟩

/-! ### The text of a reference -/

theorem letterChar_spec (k : Nat) (hk : k < 26) :
    isalpha (Char.ofNat (65 + k)) = true ∧ toupper (Char.ofNat (65 + k)) = 65 + k ∧
      Char.ofNat (65 + k) ≠ '$' := by
  interval_cases k <;> decide

theorem columnLetters_append (n t : Nat) (acc : Str) :
    columnLetters n t acc = columnLetters n t [] ++ acc := by
  induction n generalizing t acc with
  | zero => simp [columnLetters]
  | succ n ih =>
    simp only [columnLetters]
    by_cases h : 0 < t
    · simp only [h, if_true]
      rw [ih _ (_ :: acc), ih _ [_]]
      simp
    · simp [h]

theorem parseColumn_columnLetters (n t : Nat) (acc : Str) (hn : t ≤ n) (ht : t < sizeMod) :
    parseColumn (columnLetters n t acc) 0 = parseColumn acc t := by
  induction n generalizing t acc with
  | zero =>
    have h0 : t = 0 := by omega
    subst h0
    rfl
  | succ n ih =>
    simp only [columnLetters]
    by_cases h : 0 < t
    · simp only [h, if_true]
      have hdiv : (t - 1) / 26 ≤ n := by
        have := Nat.div_le_self (t - 1) 26
        omega
      have hdiv2 : (t - 1) / 26 < sizeMod := by
        have := Nat.div_le_self (t - 1) 26
        omega
      obtain ⟨h1, h2, -⟩ := letterChar_spec ((t - 1) % 26) (Nat.mod_lt _ (by norm_num))
      rw [ih _ _ hdiv hdiv2]
      simp only [parseColumn, h1, if_true, h2]
      have hval : ((t - 1) / 26 * 26 + (65 + (t - 1) % 26 - 65 + 1)) % sizeMod = t := by
        have hm := Nat.div_add_mod (t - 1) 26
        rw [Nat.mod_eq_of_lt (by omega)]
        omega
      rw [hval]
    · have h0 : t = 0 := by omega
      subst h0
      simp

theorem columnLetters_head (t : Nat) (ht : 1 ≤ t) :
    ∃ (k : Nat) (ls : Str), k < 26 ∧ columnLetters t t [] = Char.ofNat (65 + k) :: ls := by
  have key : ∀ (n t : Nat) (acc : Str),
      (∃ (k : Nat) (ls : Str), k < 26 ∧ acc = Char.ofNat (65 + k) :: ls) →
      ∃ (k : Nat) (ls : Str), k < 26 ∧ columnLetters n t acc = Char.ofNat (65 + k) :: ls := by
    intro n
    induction n with
    | zero => intro t acc h; simpa [columnLetters] using h
    | succ n ih =>
      intro t acc h
      simp only [columnLetters]
      by_cases h0 : 0 < t
      · simp only [h0, if_true]
        exact ih _ _ ⟨(t - 1) % 26, acc, Nat.mod_lt _ (by norm_num), rfl⟩
      · simpa [h0] using h
  obtain ⟨n, rfl⟩ : ∃ n, t = n + 1 := ⟨t - 1, by omega⟩
  simp only [columnLetters, Nat.succ_pos, if_true]
  exact key _ _ _ ⟨(n + 1 - 1) % 26, [], Nat.mod_lt _ (by norm_num), rfl⟩

theorem decimalValue_toDecimal (n : Nat) : decimalValue (toDecimal n) = n := by
  unfold decimalValue
  rw [← digitsValue_eq_foldl _ 0 (toDecimal_isdigit n), digitsValue_toDecimal]

theorem stoul_toDecimal (n : Nat) (hn : n < sizeMod) : stoul (toDecimal n) = some n := by
  have h := stoul_digits (toDecimal n) (toDecimal_ne_nil n) (toDecimal_isdigit n)
    (by rw [decimalValue_toDecimal]; exact hn)
  rw [decimalValue_toDecimal] at h
  exact h

/-- Claim C16: for a reference with a column of at least 1, a row, and any two flags, the
text `updateCellReferenceString` builds is parsed by the constructor of `Reference` into a
reference with the same column, row and flags. -/
theorem Reference_text_roundtrip (r : Reference) (hc1 : 1 ≤ r.column)
    (hc : r.column < sizeMod) (hr : r.row < sizeMod) :
    ∃ parsed : Reference,
      Reference.ofStr (r.updateCellReferenceString).cellReference = some parsed ∧
      parsed.column = r.column ∧ parsed.row = r.row ∧
      parsed.isAbsoluteColumn = r.isAbsoluteColumn ∧ parsed.isAbsoluteRow = r.isAbsoluteRow := by
  obtain ⟨row, column, absR, absC, text⟩ := r
  simp only at hc1 hc hr
  obtain ⟨k, ls, hk, hL⟩ := columnLetters_head column hc1
  obtain ⟨hk1, -, hk3⟩ := letterChar_spec k hk
  have hdec := stoul_toDecimal row hr
  have hparse : ∀ rest : Str, (∀ c cs, rest = c :: cs → isalpha c = false) →
      parseColumn (columnLetters column column [] ++ rest) 0 = (column, rest) := by
    intro rest hrest
    rw [← columnLetters_append, parseColumn_columnLetters column column rest (le_refl _) hc]
    cases rest with
    | nil => rfl
    | cons c cs => simp [parseColumn, hrest c cs rfl]
  cases hd : toDecimal row with
  | nil => exact absurd hd (toDecimal_ne_nil row)
  | cons d ds =>
    have hdig : isdigit d = true := toDecimal_isdigit row d (by rw [hd]; exact List.mem_cons_self _ _)
    have hdalpha : isalpha d = false := isdigit_not_isalpha d hdig
    have hddollar : d ≠ '$' := by
      intro he
      subst he
      exact absurd hdig (by decide)
    have hdollar : isalpha '$' = false := by decide
    rw [hd] at hdec
    have hp1 := hparse (d :: ds) (by
      intro c cs h
      simp only [List.cons.injEq] at h
      rw [← h.1]
      exact hdalpha)
    have hp2 := hparse ('$' :: d :: ds) (by
      intro c cs h
      simp only [List.cons.injEq] at h
      rw [← h.1]
      exact hdollar)
    rw [hL] at hp1 hp2
    simp only [List.cons_append] at hp1 hp2
    cases absR <;> cases absC <;>
      simp [Reference.updateCellReferenceString, Reference.ofStr, hd, hL, hk3, hp1, hp2,
        hddollar, hdec]

/-- The theorem `Reference_text_roundtrip` applies to the reference `$AB12`. -/
theorem Reference_text_roundtrip_witness :
    ∃ parsed : Reference,
      Reference.ofStr
        (Reference.updateCellReferenceString ⟨12, 28, false, true, []⟩).cellReference
          = some parsed ∧
      parsed.column = 28 ∧ parsed.row = 12 ∧
      parsed.isAbsoluteColumn = true ∧ parsed.isAbsoluteRow = false :=
  Reference_text_roundtrip ⟨12, 28, false, true, []⟩ (by decide) (by decide) (by decide)

/-! ### The nodes of a program in sequence -/

theorem runNodes_append {D : Type}
    (node : ExprElement D → List (CValue D) → Path → Outcome (List (CValue D)))
    (pre post : Program D) (st : List (CValue D)) (p : Path) :
    runNodes node (pre ++ post) st p = (runNodes node pre st p).bind (runNodes node post) := by
  induction pre generalizing st p with
  | nil => simp [runNodes, Outcome.bind]
  | cons e es ih =>
    simp only [List.cons_append, runNodes]
    cases h : node e st p with
    | done st1 p1 => exact ih st1 p1
    | threw q => simp [Outcome.bind]
    | undefinedBehaviour => simp [Outcome.bind]
    | outOfFuel => simp [Outcome.bind]

theorem getValue_of_done {D : Type} [DoubleOps D] (fuel : Nat) (sheet : Sheet D) (pos : CPos)
    (prog : Program D) (st : List (CValue D)) (p : Path)
    (hfind : sheet.find pos.getUniqueId = some (.expr prog))
    (hrun : runNodes (ExprElement.evaluate (fuel + 1) (evaluateExpression fuel sheet) sheet)
      prog [] [pos.getUniqueId] = .done st p) :
    getValue (fuel + 1) sheet [] pos = .done (if st.length = 1 then st.headD .monostate
      else .monostate) [] := by
  unfold getValue
  simp only [hfind, List.not_mem_nil, if_false, evaluateExpression, hrun]
  match st with
  | [] => rfl
  | [v] => rfl
  | _ :: _ :: _ => rfl

theorem getValue_of_threw {D : Type} [DoubleOps D] (fuel : Nat) (sheet : Sheet D) (pos : CPos)
    (prog : Program D) (p : Path)
    (hfind : sheet.find pos.getUniqueId = some (.expr prog))
    (hrun : runNodes (ExprElement.evaluate (fuel + 1) (evaluateExpression fuel sheet) sheet)
      prog [] [pos.getUniqueId] = .threw p) :
    getValue (fuel + 1) sheet [] pos = .done .monostate [] := by
  unfold getValue
  simp only [hfind, List.not_mem_nil, if_false, evaluateExpression, hrun]

theorem getValue_node_threw {D : Type} [DoubleOps D] (fuel : Nat) (sheet : Sheet D) (pos : CPos)
    (pre post : Program D) (e : ExprElement D) (st : List (CValue D)) (p q : Path)
    (hfind : sheet.find pos.getUniqueId = some (.expr (pre ++ e :: post)))
    (hpre : runNodes (ExprElement.evaluate (fuel + 1) (evaluateExpression fuel sheet) sheet)
      pre [] [pos.getUniqueId] = .done st p)
    (hnode : ExprElement.evaluate (fuel + 1) (evaluateExpression fuel sheet) sheet e st p =
      .threw q) :
    getValue (fuel + 1) sheet [] pos = .done .monostate [] := by
  apply getValue_of_threw fuel sheet pos _ q hfind
  rw [runNodes_append, hpre]
  simp [Outcome.bind, runNodes, hnode]

theorem evaluateExpression_succ {D : Type} [DoubleOps D] (fuel : Nat) (sheet : Sheet D)
    (exprStack : Program D) (path : Path) :
    evaluateExpression (fuel + 1) sheet exprStack path =
      match runNodes (ExprElement.evaluate (fuel + 1) (evaluateExpression fuel sheet) sheet)
          exprStack [] path with
      | .done [result] p => .done result p
      | .done _ p => .threw p
      | .threw p => .done .monostate p
      | .undefinedBehaviour => .undefinedBehaviour
      | .outOfFuel => .outOfFuel := rfl

/-! ### The values left on the stack -/

/-- Claim C21: when every node of the program of a cell executes without error, `getValue` returns
the value left on the stack if exactly one is left, and the empty value if none or several
are left. -/
theorem getValue_final_stack {D : Type} [DoubleOps D] (fuel : Nat) (sheet : Sheet D)
    (pos : CPos) (prog : Program D) (st : List (CValue D)) (p : Path)
    (hfind : sheet.find pos.getUniqueId = some (.expr prog))
    (hrun : runNodes (ExprElement.evaluate (fuel + 1) (evaluateExpression fuel sheet) sheet)
      prog [] [pos.getUniqueId] = .done st p) :
    (∀ v, st = [v] → getValue (fuel + 1) sheet [] pos = .done v []) ∧
    (st.length ≠ 1 → getValue (fuel + 1) sheet [] pos = .done .monostate []) := by
  have h := getValue_of_done fuel sheet pos prog st p hfind hrun
  refine ⟨fun v hv => ?_, fun hlen => ?_⟩
  · rw [h, hv]
    rfl
  · rw [h, if_neg hlen]

/-- The theorem `getValue_final_stack` applies to the cell A2 of `twoTextsSheet`, whose
program leaves two texts. -/
theorem getValue_final_stack_witness :
    getValue 1 twoTextsSheet [] ⟨1, 2⟩ = .done .monostate [] :=
  (getValue_final_stack 0 twoTextsSheet ⟨1, 2⟩ [.stringVariable ['a'], .stringVariable ['b']]
    [.string ['b'], .string ['a']] [idA2] (by decide) (by decide)).2 (by decide)

/-! ### References -/

/-- Claim C23, as the code has it: on the sheet with `A1 := =if(1, "then", B1)` and `B1 := =C1`,
where C1 is unset, the only node of the program of B1 throws and the value of B1 is empty,
yet the value of A1, whose program contains a reference to B1, is the text `then`. -/
theorem getValue_ifSheet_not_empty :
    Sheet.find ifSheet (CPos.getUniqueId ⟨3, 1⟩) = none ∧
    ∀ fuel : Nat,
      ExprElement.evaluate (fuel + 1) (evaluateExpression fuel ifSheet) ifSheet
        (.reference refC1) [] [idB1, idA1] = .threw [idB1, idA1] ∧
      getValue (fuel + 1) ifSheet [] ⟨2, 1⟩ = .done .monostate [] ∧
      getValue (fuel + 2) ifSheet [] ⟨1, 1⟩ = .done (.string "then".toList) [] := by
  refine ⟨by decide, fun fuel => ?_⟩
  have hC : Sheet.find ifSheet (CPos.getUniqueId ⟨refC1.column, refC1.row⟩) = none := by decide
  have hB : Sheet.find ifSheet (CPos.getUniqueId ⟨refB1.column, refB1.row⟩) =
      some (.expr [.reference refC1]) := by decide
  have hidA : CPos.getUniqueId ⟨1, 1⟩ = idA1 := by decide
  have hidB : CPos.getUniqueId ⟨2, 1⟩ = idB1 := by decide
  have hidB2 : CPos.getUniqueId ⟨refB1.column, refB1.row⟩ = idB1 := by decide
  have hfA : Sheet.find ifSheet idA1 = some (.expr [.constant 1, .stringVariable "then".toList,
      .reference refB1, .functionCall "if".toList 3]) := by decide
  have hfB : Sheet.find ifSheet idB1 = some (.expr [.reference refC1]) := by decide
  have hmem : idB1 ∉ [idA1] := by decide
  have hone : DoubleOps.eq (1 : Rat) DoubleOps.zero = false := by decide
  have hnode : ∀ (f : Nat) (st : List (CValue Rat)) (p : Path),
      ExprElement.evaluate (f + 1) (evaluateExpression f ifSheet) ifSheet
        (.reference refC1) st p = .threw p := by
    intro f st p
    simp [ExprElement.evaluate, Reference.evaluate, hC]
  refine ⟨hnode fuel _ _, ?_, ?_⟩
  · unfold getValue
    simp [hidB, hfB, evaluateExpression, runNodes, hnode]
  · unfold getValue
    simp only [hidA, hfA, List.not_mem_nil, if_false]
    have hinner : evaluateExpression (fuel + 1) ifSheet [.reference refC1] [idB1, idA1] =
        .done .monostate [idB1, idA1] := by
      simp [evaluateExpression, runNodes, hnode]
    have hfilter : [idB1, idA1].filter (fun k => k != idB1) = [idA1] := by decide
    have href : ∀ st : List (CValue Rat),
        Reference.evaluate (evaluateExpression (fuel + 1) ifSheet) ifSheet refB1 st [idA1] =
          .done (.monostate :: st) [idA1] := by
      intro st
      simp only [Reference.evaluate, hidB2, hfB, hmem, if_false, hinner, hfilter]
    rw [evaluateExpression_succ]
    simp [runNodes, ExprElement.evaluate, href, FunctionCall.evaluate, Outcome.bind, hone]

theorem BinaryOperation_evaluate_monostate {D : Type} [DoubleOps D] (op : Str)
    (st : List (CValue D)) (p : Path) :
    BinaryOperation.evaluate op (.monostate :: st) p = .threw p ∧
    ∀ v : CValue D, BinaryOperation.evaluate op (v :: .monostate :: st) p = .threw p := by
  constructor
  · cases st with
    | nil => rfl
    | cons v rest =>
      unfold BinaryOperation.evaluate perform
      cases v <;> simp only <;> split_ifs <;> simp
  · intro v
    unfold BinaryOperation.evaluate perform
    cases v <;> simp only <;> split_ifs <;> simp

/-- Claim C23, amended: when the nodes before a reference execute without error and the target of
the reference holds a program one of whose nodes throws, the reference pushes the empty value
and the program goes on with the nodes after it. The value of the cell is empty when the
reference is the whole program, when a unary or binary operator follows the reference, and
when a literal and a binary operator follow it. -/
theorem getValue_ref_to_failing_program {D : Type} [DoubleOps D] (fuel : Nat)
    (sheet : Sheet D) (pos : CPos) (pre post target : Program D) (r : Reference)
    (st : List (CValue D)) (p p1 : Path)
    (hfind : sheet.find pos.getUniqueId = some (.expr (pre ++ .reference r :: post)))
    (hpre : runNodes (ExprElement.evaluate (fuel + 2) (evaluateExpression (fuel + 1) sheet)
      sheet) pre [] [pos.getUniqueId] = .done st p)
    (htarget : sheet.find (CPos.getUniqueId ⟨r.column, r.row⟩) = some (.expr target))
    (hfresh : CPos.getUniqueId ⟨r.column, r.row⟩ ∉ p)
    (hfail : runNodes (ExprElement.evaluate (fuel + 1) (evaluateExpression fuel sheet) sheet)
      target [] (CPos.getUniqueId ⟨r.column, r.row⟩ :: p) = .threw p1) :
    runNodes (ExprElement.evaluate (fuel + 2) (evaluateExpression (fuel + 1) sheet) sheet)
        (pre ++ .reference r :: post) [] [pos.getUniqueId] =
      runNodes (ExprElement.evaluate (fuel + 2) (evaluateExpression (fuel + 1) sheet) sheet)
        post (.monostate :: st)
        (p1.filter (fun k => k != CPos.getUniqueId ⟨r.column, r.row⟩)) ∧
    (pre = [] → post = [] → getValue (fuel + 2) sheet [] pos = .done .monostate []) ∧
    (∀ (op : Str) (post2 : Program D),
      post = .unaryOperation op :: post2 ∨ post = .binaryOperation op :: post2 →
      getValue (fuel + 2) sheet [] pos = .done .monostate []) ∧
    (∀ (e : ExprElement D) (op : Str) (post2 : Program D),
      (∃ c, e = .constant c) ∨ (∃ s, e = .stringVariable s) →
      post = e :: .binaryOperation op :: post2 →
      getValue (fuel + 2) sheet [] pos = .done .monostate []) := by
  have hinner : evaluateExpression (fuel + 1) sheet target
      (CPos.getUniqueId ⟨r.column, r.row⟩ :: p) = .done .monostate p1 := by
    rw [evaluateExpression_succ, hfail]
  have href : ExprElement.evaluate (fuel + 2) (evaluateExpression (fuel + 1) sheet) sheet
      (.reference r) st p =
      .done (.monostate :: st)
        (p1.filter (fun k => k != CPos.getUniqueId ⟨r.column, r.row⟩)) := by
    simp only [ExprElement.evaluate, Reference.evaluate, htarget, hfresh, if_false, hinner]
  have hrun : runNodes (ExprElement.evaluate (fuel + 2) (evaluateExpression (fuel + 1) sheet)
      sheet) (pre ++ .reference r :: post) [] [pos.getUniqueId] =
      runNodes (ExprElement.evaluate (fuel + 2) (evaluateExpression (fuel + 1) sheet) sheet)
        post (.monostate :: st)
        (p1.filter (fun k => k != CPos.getUniqueId ⟨r.column, r.row⟩)) := by
    rw [runNodes_append, hpre]
    simp only [Outcome.bind, runNodes, href]
  refine ⟨hrun, ?_, ?_, ?_⟩
  · intro hp hq
    subst hp hq
    simp only [runNodes] at hpre
    injection hpre with hst hp
    subst hst
    have h := getValue_of_done (fuel + 1) sheet pos _ _ _ hfind hrun
    rw [h]
    rfl
  · intro op post2 hpost
    refine getValue_of_threw (fuel + 1) sheet pos _
      (p1.filter (fun k => k != CPos.getUniqueId ⟨r.column, r.row⟩)) hfind ?_
    rw [hrun]
    rcases hpost with h | h <;> subst h
    · simp [runNodes, ExprElement.evaluate, UnaryOperation.evaluate]
    · simp [runNodes, ExprElement.evaluate, (BinaryOperation_evaluate_monostate op st _).1]
  · intro e op post2 he hpost
    refine getValue_of_threw (fuel + 1) sheet pos _
      (p1.filter (fun k => k != CPos.getUniqueId ⟨r.column, r.row⟩)) hfind ?_
    rw [hrun]
    subst hpost
    rcases he with ⟨c, hc⟩ | ⟨s, hs⟩
    · subst hc
      simp [runNodes, ExprElement.evaluate, (BinaryOperation_evaluate_monostate op st _).2]
    · subst hs
      simp [runNodes, ExprElement.evaluate, (BinaryOperation_evaluate_monostate op st _).2]

/-- The theorem `getValue_ref_to_failing_program` applies to the cell A1 of `ifSheet`. -/
theorem getValue_ref_to_failing_program_witness :
    runNodes (ExprElement.evaluate 2 (evaluateExpression 1 ifSheet) ifSheet)
        ([.constant 1, .stringVariable "then".toList] ++
          .reference refB1 :: [.functionCall "if".toList 3]) [] [CPos.getUniqueId ⟨1, 1⟩] =
      runNodes (ExprElement.evaluate 2 (evaluateExpression 1 ifSheet) ifSheet)
        [.functionCall "if".toList 3] [.monostate, .string "then".toList, .double 1]
        ([idB1, idA1].filter
          (fun k => k != CPos.getUniqueId ⟨refB1.column, refB1.row⟩)) :=
  (getValue_ref_to_failing_program 0 ifSheet ⟨1, 1⟩ [.constant 1, .stringVariable "then".toList]
    [.functionCall "if".toList 3] [.reference refC1] refB1
    [.string "then".toList, .double 1] [idA1] [idB1, idA1]
    (by decide) (by decide) (by decide) (by decide) (by decide)).1

/-! ### A range that contains the cell of its formula -/

theorem evaluateExpression_selfSumSheet (fuel : Nat) :
    evaluateExpression fuel selfSumSheet
      [.range "A1:A1".toList, .functionCall "sum".toList 1] [idA1] = .outOfFuel := by
  induction fuel with
  | zero => rfl
  | succ n ih =>
    have hrange : parseRange ['A', '1', ':', 'A', '1'] = some (⟨1, 1⟩, ⟨1, 1⟩) := by decide
    have hid : CPos.getUniqueId ⟨1, 1⟩ = idA1 := by decide
    have hfind : Sheet.find selfSumSheet idA1 =
        some (.expr [.range "A1:A1".toList, .functionCall "sum".toList 1]) := by decide
    have hlt : (1 : Nat) + 1 < sizeMod := by decide
    have ih2 : evaluateExpression n selfSumSheet
        [.range ['A', '1', ':', 'A', '1'], .functionCall ['s', 'u', 'm'] 1] [idA1] =
        .outOfFuel := ih
    simp [evaluateExpression, runNodes, ExprElement.evaluate, FunctionCall.evaluate,
      Outcome.bind, hrange, forCells, forSizeT, hlt, foldIndices, List.range', hid, sumBody,
      cellValue, hfind, ih2]

/-- Claim C24: on the sheet with `A1 := =sum(A1:A1)` the evaluation of A1 enters the program of A1
again through the range, without end: whatever the fuel, `getValue` does not return. -/
theorem getValue_selfSumSheet_never_returns (fuel : Nat) :
    getValue fuel selfSumSheet [] ⟨1, 1⟩ = .outOfFuel := by
  have hid : CPos.getUniqueId ⟨1, 1⟩ = idA1 := by decide
  have hfind : Sheet.find selfSumSheet idA1 =
      some (.expr [.range "A1:A1".toList, .functionCall "sum".toList 1]) := by decide
  unfold getValue
  simp only [hid, hfind, List.not_mem_nil, if_false, evaluateExpression_selfSumSheet]

/-! ### The operators -/

/-- Claim C25: the operator `+` on the operands `left` and `right`: two numbers give their sum; a
text with a text or a number gives the text of the left operand followed by the text of the
right one, a number being printed by `std::to_string`; an empty operand makes the node throw. -/
theorem plus_operator {D : Type} [DoubleOps D] (rest : List (CValue D)) (path : Path) :
    (∀ l r : D, BinaryOperation.evaluate "+".toList (.double r :: .double l :: rest) path =
      .done (.double (DoubleOps.add l r) :: rest) path) ∧
    (∀ l r : Str, BinaryOperation.evaluate "+".toList (.string r :: .string l :: rest) path =
      .done (.string (l ++ r) :: rest) path) ∧
    (∀ (l : Str) (r : D),
      BinaryOperation.evaluate "+".toList (.double r :: .string l :: rest) path =
        .done (.string (l ++ DoubleOps.toStr r) :: rest) path) ∧
    (∀ (l : D) (r : Str),
      BinaryOperation.evaluate "+".toList (.string r :: .double l :: rest) path =
        .done (.string (DoubleOps.toStr l ++ r) :: rest) path) ∧
    (∀ v : CValue D,
      BinaryOperation.evaluate "+".toList (.monostate :: v :: rest) path = .threw path ∧
      BinaryOperation.evaluate "+".toList (v :: .monostate :: rest) path = .threw path) := by
  refine ⟨fun l r => ?_, fun l r => ?_, fun l r => ?_, fun l r => ?_, fun v => ⟨?_, ?_⟩⟩
  · simp [BinaryOperation.evaluate, perform]
  · simp [BinaryOperation.evaluate, perform]
  · simp [BinaryOperation.evaluate, perform]
  · simp [BinaryOperation.evaluate, perform]
  · cases v <;> simp [BinaryOperation.evaluate, perform]
  · cases v <;> simp [BinaryOperation.evaluate, perform]

theorem arithmetic_names_distinct :
    "-".toList ≠ "+".toList ∧ "*".toList ≠ "+".toList ∧ "/".toList ≠ "+".toList ∧
    "^".toList ≠ "+".toList ∧ "*".toList ≠ "-".toList ∧ "/".toList ≠ "-".toList ∧
    "^".toList ≠ "-".toList ∧ "/".toList ≠ "*".toList ∧ "^".toList ≠ "*".toList ∧
    "^".toList ≠ "/".toList := by decide

/-- Claim C26: with both operands on the stack, each of the operators `-`, `*`, `/`, `^` throws
exactly when an operand is not a number or, for `/`, the divisor equals zero, and pushes a
number otherwise; unary `-` throws exactly when its operand is not a number and pushes the
negated number otherwise. When such a node of the program of a cell throws, `getValue` of the
cell returns the empty value. -/
theorem numeric_operators {D : Type} [DoubleOps D] (op : Str) (left right : CValue D)
    (rest : List (CValue D)) (path : Path)
    (hop : op = "-".toList ∨ op = "*".toList ∨ op = "/".toList ∨ op = "^".toList) :
    (BinaryOperation.evaluate op (right :: left :: rest) path = .threw path ↔
      ((¬ ∃ l, left = .double l) ∨ (¬ ∃ r, right = .double r) ∨
        (op = "/".toList ∧ ∃ r, right = .double r ∧ DoubleOps.eq r DoubleOps.zero = true))) ∧
    (∀ l r : D, left = .double l → right = .double r →
      ¬ (op = "/".toList ∧ DoubleOps.eq r DoubleOps.zero = true) →
      BinaryOperation.evaluate op (right :: left :: rest) path =
        .done (.double (if op = "-".toList then DoubleOps.sub l r
          else if op = "*".toList then DoubleOps.mul l r
          else if op = "/".toList then DoubleOps.div l r
          else DoubleOps.pow l r) :: rest) path) ∧
    (UnaryOperation.evaluate "-".toList (left :: rest) path = .threw path ↔
      ¬ ∃ l, left = .double l) ∧
    (∀ l : D, left = .double l →
      UnaryOperation.evaluate "-".toList (left :: rest) path =
        .done (.double (DoubleOps.neg l) :: rest) path) ∧
    (∀ (e : ExprElement D), e = .binaryOperation op ∨ e = .unaryOperation "-".toList →
      ∀ (fuel : Nat) (sheet : Sheet D) (pos : CPos) (pre post : Program D)
        (st : List (CValue D)) (p q : Path),
        sheet.find pos.getUniqueId = some (.expr (pre ++ e :: post)) →
        runNodes (ExprElement.evaluate (fuel + 1) (evaluateExpression fuel sheet) sheet)
          pre [] [pos.getUniqueId] = .done st p →
        ExprElement.evaluate (fuel + 1) (evaluateExpression fuel sheet) sheet e st p =
          .threw q →
        getValue (fuel + 1) sheet [] pos = .done .monostate []) := by
  obtain ⟨h1, h2, h3, h4, h5, h6, h7, h8, h9, h10⟩ := arithmetic_names_distinct
  refine ⟨?_, ?_, ?_, ?_, ?_⟩
  · rcases hop with h | h | h | h <;> subst h <;> cases left <;> cases right <;>
      (try (rename_i l r; cases hz : DoubleOps.eq r DoubleOps.zero)) <;>
      first
      | simp [BinaryOperation.evaluate, perform, h1, h2, h3, h4, h5, h6, h7, h8, h9, h10, hz]
      | simp [BinaryOperation.evaluate, perform, h1, h2, h3, h4, h5, h6, h7, h8, h9, h10]
  · intro l r hl hr hdiv
    subst hl hr
    rcases hop with h | h | h | h <;> subst h <;>
      simp [BinaryOperation.evaluate, perform, h1, h2, h3, h4, h5, h6, h7, h8, h9, h10]
    simp at hdiv
    simp [hdiv]
  · cases left <;> simp [UnaryOperation.evaluate]
  · intro l hl
    subst hl
    simp [UnaryOperation.evaluate]
  · intro e _ fuel sheet pos pre post st p q hfind hpre hnode
    exact getValue_node_threw fuel sheet pos pre post e st p q hfind hpre hnode

/-- The theorem `numeric_operators` applies to the division of 1 by 0. -/
theorem numeric_operators_witness :
    BinaryOperation.evaluate "/".toList [.double (0 : Rat), .double 1] [] = .threw [] :=
  (numeric_operators "/".toList (.double (1 : Rat)) (.double 0) [] []
    (Or.inr (Or.inr (Or.inl rfl)))).1.2 (Or.inr (Or.inr ⟨rfl, 0, rfl, by decide⟩))

/-! ### Comparison of texts -/

theorem lex_cons_cons (x y : Nat) (xs ys : List Nat) :
    List.Lex (· < ·) (x :: xs) (y :: ys) ↔ x < y ∨ (x = y ∧ List.Lex (· < ·) xs ys) := by
  constructor
  · intro h
    cases h with
    | cons h => exact Or.inr ⟨rfl, h⟩
    | rel h => exact Or.inl h
  · rintro (h | ⟨h, h2⟩)
    · exact List.Lex.rel h
    · subst h
      exact List.Lex.cons h2

theorem strLt_iff_lex (l r : Str) :
    strLt l r = true ↔ List.Lex (· < ·) (l.map byteVal) (r.map byteVal) := by
  induction l generalizing r with
  | nil =>
    cases r with
    | nil => simp [strLt]
    | cons b bs => simp [strLt, List.Lex.nil]
  | cons a as ih =>
    cases r with
    | nil => simp [strLt]
    | cons b bs =>
      simp only [strLt, List.map_cons, lex_cons_cons]
      by_cases h1 : byteVal a < byteVal b
      · simp [h1]
      · by_cases h2 : byteVal b < byteVal a
        · simp only [h1, h2, if_true, if_false]
          constructor
          · intro h
            exact absurd h (by simp)
          · rintro (h | ⟨h, _⟩) <;> first | exact h.elim | omega
        · have heq : byteVal a = byteVal b := by omega
          simp only [h1, h2, if_false, ih bs]
          constructor
          · intro h
            exact Or.inr ⟨heq, h⟩
          · rintro (h | ⟨_, h⟩)
            · exact h.elim
            · exact h

theorem strLt_false_iff (l r : Str) :
    strLt r l = false ↔
      (List.Lex (· < ·) (l.map byteVal) (r.map byteVal) ∨ l.map byteVal = r.map byteVal) := by
  induction l generalizing r with
  | nil =>
    cases r with
    | nil => simp [strLt]
    | cons b bs => simp [strLt, List.Lex.nil]
  | cons a as ih =>
    cases r with
    | nil => simp [strLt]
    | cons b bs =>
      simp only [strLt, List.map_cons, lex_cons_cons, List.cons.injEq]
      by_cases h1 : byteVal b < byteVal a
      · simp only [h1, if_true]
        constructor
        · intro h
          exact absurd h (by simp)
        · rintro ((h | ⟨h, _⟩) | ⟨h, _⟩) <;> first | exact h.elim | omega
      · by_cases h2 : byteVal a < byteVal b
        · simp [h1, h2]
        · have heq : byteVal a = byteVal b := by omega
          simp only [h1, h2, if_false, ih bs]
          constructor
          · rintro (h | h)
            · exact Or.inl (Or.inr ⟨heq, h⟩)
            · exact Or.inr ⟨heq, h⟩
          · rintro ((h | ⟨_, h⟩) | ⟨_, h⟩)
            · exact h.elim
            · exact Or.inl h
            · exact Or.inr h

/-- Claim C27: each of the six comparison operators pushes `1.0` when the relation holds between
its operands and `0.0` when it does not, for two numbers (compared as `double`) and for two
texts (compared in the lexicographic order of their bytes); on a number and a text in either
order, and on an empty operand, the node throws, and then `getValue` of the cell returns the
empty value. -/
theorem comparison_operators {D : Type} [DoubleOps D] (rest : List (CValue D)) (path : Path) :
    (∀ l r : D,
      BinaryOperation.evaluate "<".toList (.double r :: .double l :: rest) path =
        .done (boolValue (DoubleOps.lt l r) :: rest) path ∧
      BinaryOperation.evaluate "<=".toList (.double r :: .double l :: rest) path =
        .done (boolValue (DoubleOps.le l r) :: rest) path ∧
      BinaryOperation.evaluate ">".toList (.double r :: .double l :: rest) path =
        .done (boolValue (DoubleOps.lt r l) :: rest) path ∧
      BinaryOperation.evaluate ">=".toList (.double r :: .double l :: rest) path =
        .done (boolValue (DoubleOps.le r l) :: rest) path ∧
      BinaryOperation.evaluate "=".toList (.double r :: .double l :: rest) path =
        .done (boolValue (DoubleOps.eq l r) :: rest) path ∧
      BinaryOperation.evaluate "<>".toList (.double r :: .double l :: rest) path =
        .done (boolValue (!DoubleOps.eq l r) :: rest) path) ∧
    (∀ l r : Str,
      BinaryOperation.evaluate "<".toList (.string r :: .string l :: rest) path =
        .done (boolValue (decide
          (List.Lex (· < ·) (l.map byteVal) (r.map byteVal))) :: rest) path ∧
      BinaryOperation.evaluate "<=".toList (.string r :: .string l :: rest) path =
        .done (boolValue (decide
          (List.Lex (· < ·) (l.map byteVal) (r.map byteVal) ∨
            l.map byteVal = r.map byteVal)) :: rest) path ∧
      BinaryOperation.evaluate ">".toList (.string r :: .string l :: rest) path =
        .done (boolValue (decide
          (List.Lex (· < ·) (r.map byteVal) (l.map byteVal))) :: rest) path ∧
      BinaryOperation.evaluate ">=".toList (.string r :: .string l :: rest) path =
        .done (boolValue (decide
          (List.Lex (· < ·) (r.map byteVal) (l.map byteVal) ∨
            r.map byteVal = l.map byteVal)) :: rest) path ∧
      BinaryOperation.evaluate "=".toList (.string r :: .string l :: rest) path =
        .done (boolValue (decide (l = r)) :: rest) path ∧
      BinaryOperation.evaluate "<>".toList (.string r :: .string l :: rest) path =
        .done (boolValue (decide (l ≠ r)) :: rest) path) ∧
    (∀ op : Str, op ∈ ["<".toList, "<=".toList, ">".toList, ">=".toList, "=".toList,
        "<>".toList] →
      (∀ (d : D) (s : Str),
        BinaryOperation.evaluate op (.string s :: .double d :: rest) path = .threw path ∧
        BinaryOperation.evaluate op (.double d :: .string s :: rest) path = .threw path) ∧
      (∀ v : CValue D,
        BinaryOperation.evaluate op (.monostate :: v :: rest) path = .threw path ∧
        BinaryOperation.evaluate op (v :: .monostate :: rest) path = .threw path) ∧
      (∀ (fuel : Nat) (sheet : Sheet D) (pos : CPos) (pre post : Program D)
        (st : List (CValue D)) (p q : Path),
        sheet.find pos.getUniqueId = some (.expr (pre ++ .binaryOperation op :: post)) →
        runNodes (ExprElement.evaluate (fuel + 1) (evaluateExpression fuel sheet) sheet)
          pre [] [pos.getUniqueId] = .done st p →
        BinaryOperation.evaluate op st p = .threw q →
        getValue (fuel + 1) sheet [] pos = .done .monostate [])) := by
  refine ⟨fun l r => ?_, fun l r => ?_, fun op hop => ⟨fun d s => ?_, fun v => ?_, ?_⟩⟩
  · simp [BinaryOperation.evaluate, perform, boolValue]
  · have hlt : ∀ a b : Str, strLt a b =
        decide (List.Lex (· < ·) (a.map byteVal) (b.map byteVal)) := by
      intro a b
      rw [Bool.eq_iff_iff, strLt_iff_lex]
      simp
    have hle : ∀ a b : Str, (!strLt b a) =
        decide (List.Lex (· < ·) (a.map byteVal) (b.map byteVal) ∨
          a.map byteVal = b.map byteVal) := by
      intro a b
      rw [Bool.eq_iff_iff]
      simp only [Bool.not_eq_true', strLt_false_iff, decide_eq_true_eq]
    refine ⟨?_, ?_, ?_, ?_, ?_, ?_⟩
    · simp [BinaryOperation.evaluate, perform, boolValue, hlt]
    · simp only [BinaryOperation.evaluate, perform, ← hle]
      simp [boolValue]
    · simp [BinaryOperation.evaluate, perform, boolValue, hlt]
    · simp only [BinaryOperation.evaluate, perform, ← hle]
      simp [boolValue]
    · simp [BinaryOperation.evaluate, perform, boolValue]
    · simp [BinaryOperation.evaluate, perform, boolValue]
  · simp only [List.mem_cons, List.mem_singleton, List.not_mem_nil, or_false] at hop
    rcases hop with h | h | h | h | h | h <;> subst h <;>
      simp [BinaryOperation.evaluate, perform]
  · simp only [List.mem_cons, List.mem_singleton, List.not_mem_nil, or_false] at hop
    rcases hop with h | h | h | h | h | h <;> subst h <;> cases v <;>
      simp [BinaryOperation.evaluate, perform]
  · intro fuel sheet pos pre post st p q hfind hpre hnode
    exact getValue_node_threw fuel sheet pos pre post (.binaryOperation op) st p q hfind hpre
      hnode

/-- The theorem `comparison_operators` applies to the texts `ab` and `b`. -/
theorem comparison_operators_witness :
    BinaryOperation.evaluate "<".toList [.string ['b'], .string ['a', 'b']] [] =
      .done [(.double 1 : CValue Rat)] [] :=
  ((comparison_operators ([] : List (CValue Rat)) []).2.1 ['a', 'b'] ['b']).1.trans
    (by decide)

/-! ### The function `if` -/

/-- Claim C28: the function `if` with three arguments `cond`, `a`, `b` in the order of the formula
pushes `a` unchanged when `cond` is a number different from zero and `b` unchanged when
`cond` is the number zero; it throws when `cond` is not a number, and with any other count of
arguments. -/
theorem if_function {D : Type} [DoubleOps D] (fuel : Nat)
    (rec : Program D → Path → Outcome (CValue D)) (sheet : Sheet D)
    (a b : CValue D) (rest : List (CValue D)) (path : Path) :
    (∀ c : D, DoubleOps.eq c DoubleOps.zero = false →
      FunctionCall.evaluate fuel rec sheet "if".toList 3 (b :: a :: .double c :: rest) path =
        .done (a :: rest) path) ∧
    (∀ c : D, DoubleOps.eq c DoubleOps.zero = true →
      FunctionCall.evaluate fuel rec sheet "if".toList 3 (b :: a :: .double c :: rest) path =
        .done (b :: rest) path) ∧
    (∀ cond : CValue D, (¬ ∃ c, cond = .double c) →
      FunctionCall.evaluate fuel rec sheet "if".toList 3 (b :: a :: cond :: rest) path =
        .threw path) ∧
    (∀ (n : Nat) (evalStack : List (CValue D)), n ≠ 3 →
      FunctionCall.evaluate fuel rec sheet "if".toList n evalStack path = .threw path) := by
  refine ⟨fun c hc => ?_, fun c hc => ?_, fun cond hcond => ?_, fun n evalStack hn => ?_⟩
  · simp [FunctionCall.evaluate, Outcome.bind, hc]
  · simp [FunctionCall.evaluate, Outcome.bind, hc]
  · cases cond with
    | double c => exact absurd ⟨c, rfl⟩ hcond
    | monostate => simp [FunctionCall.evaluate, Outcome.bind]
    | string s => simp [FunctionCall.evaluate, Outcome.bind]
  · unfold FunctionCall.evaluate
    by_cases hlen : evalStack.length < n
    · simp [hlen]
    · simp [hlen, Outcome.bind, hn]

/-- The theorem `if_function` applies to the arguments of the formula of A1 in `ifSheet`. -/
theorem if_function_witness :
    FunctionCall.evaluate 0 (evaluateExpression 0 ifSheet) ifSheet "if".toList 3
      [.monostate, .string "then".toList, .double 1] [idA1] =
      .done [.string "then".toList] [idA1] :=
  (if_function 0 (evaluateExpression 0 ifSheet) ifSheet (.string "then".toList) .monostate []
    [idA1]).1 1 (by decide)

/-! ### The loops over a range -/

theorem foldIndices_map {σ : Type} (body : Nat → σ → Path → Outcome σ) (g : Nat → Nat)
    (cols : List Nat) (s : σ) (p : Path) :
    foldIndices (fun c => body (g c)) cols s p = foldIndices body (cols.map g) s p := by
  induction cols generalizing s p with
  | nil => rfl
  | cons c cs ih =>
    simp only [foldIndices, List.map_cons]
    cases body (g c) s p with
    | done s1 p1 => exact ih s1 p1
    | threw q => rfl
    | undefinedBehaviour => rfl
    | outOfFuel => rfl

theorem foldIndices_append {σ : Type} (body : Nat → σ → Path → Outcome σ)
    (xs ys : List Nat) (s : σ) (p : Path) :
    foldIndices body (xs ++ ys) s p =
      match foldIndices body xs s p with
      | .done s1 p1 => foldIndices body ys s1 p1
      | o => o := by
  induction xs generalizing s p with
  | nil => rfl
  | cons x xs ih =>
    simp only [List.cons_append, foldIndices]
    cases body x s p with
    | done s1 p1 => exact ih s1 p1
    | threw q => rfl
    | undefinedBehaviour => rfl
    | outOfFuel => rfl

theorem foldIndices_flatMap {σ : Type} (body : Nat → σ → Path → Outcome σ)
    (g : Nat → List Nat) (rows : List Nat) (s : σ) (p : Path) :
    foldIndices (fun r => foldIndices body (g r)) rows s p =
      foldIndices body (rows.flatMap g) s p := by
  induction rows generalizing s p with
  | nil => rfl
  | cons r rs ih =>
    simp only [foldIndices, List.flatMap_cons, foldIndices_append]
    cases foldIndices body (g r) s p with
    | done s1 p1 => exact ih s1 p1
    | threw q => rfl
    | undefinedBehaviour => rfl
    | outOfFuel => rfl

theorem forCells_eq_foldIndices {σ : Type} (fuel : Nat) (start stop : CPos)
    (body : Nat → σ → Path → Outcome σ) (init : σ) (path : Path)
    (hrow : stop.row + 1 < sizeMod) (hcol : stop.column + 1 < sizeMod) :
    forCells fuel start stop body init path =
      foldIndices body (rectangleIds start stop) init path := by
  unfold forCells forSizeT rectangleIds
  simp only [hrow, hcol, if_true]
  rw [← foldIndices_flatMap]
  congr 1
  funext r
  exact funext fun s => funext fun p => foldIndices_map body _ _ s p

/-! ### The function `sum` -/

theorem sumBody_eq {D : Type} [DoubleOps D] (rec : Program D → Path → Outcome (CValue D))
    (sheet : Sheet D) (val : Nat → CValue D) (id : Nat) (acc : D × Bool) (path : Path)
    (hrec : ∀ prog, sheet.find id = some (.expr prog) → rec prog path = .done (val id) path) :
    sumBody rec sheet id acc path =
      .done (match numericValue val sheet id with
        | some d => (DoubleOps.add acc.1 d, true)
        | none => acc) path := by
  unfold sumBody cellValue numericValue
  cases hf : sheet.find id with
  | none => rfl
  | some v =>
    cases v with
    | monostate => rfl
    | double d => rfl
    | string s => rfl
    | int i => rfl
    | expr prog =>
      simp only [hrec prog hf]
      cases val id <;> rfl

theorem foldIndices_sumBody {D : Type} [DoubleOps D]
    (rec : Program D → Path → Outcome (CValue D)) (sheet : Sheet D) (val : Nat → CValue D)
    (path : Path) (cells : List Nat)
    (hrec : ∀ id ∈ cells, ∀ prog, sheet.find id = some (.expr prog) →
      rec prog path = .done (val id) path) (acc : D × Bool) :
    foldIndices (sumBody rec sheet) cells acc path =
      .done ((cells.filterMap (numericValue val sheet)).foldl DoubleOps.add acc.1,
        acc.2 || !(cells.filterMap (numericValue val sheet)).isEmpty) path := by
  induction cells generalizing acc with
  | nil => simp [foldIndices]
  | cons id ids ih =>
    have h1 := sumBody_eq rec sheet val id acc path (hrec id (List.mem_cons_self _ _))
    have h2 := fun a => ih (fun k hk => hrec k (List.mem_cons_of_mem _ hk)) a
    simp only [foldIndices, h1, h2, List.filterMap_cons]
    cases numericValue val sheet id with
    | none => rfl
    | some d => simp

/-- Claim C29, amended: for a range whose last row and column are below the greatest `size_t`, and
in which every program, evaluated with the current path, returns a value and leaves the path
as it was, `sum` pushes the sum, from zero and row by row, of the stored numbers and of the
numbers the programs evaluate to; texts, empty and unset cells and programs that evaluate to
the empty value or to a text are passed over; it throws exactly when there is no number. -/
theorem sum_function {D : Type} [DoubleOps D] (fuel : Nat) (sheet : Sheet D) (rangeStr : Str)
    (start stop : CPos) (val : Nat → CValue D) (rest : List (CValue D)) (path : Path)
    (hrange : parseRange rangeStr = some (start, stop))
    (hrow : stop.row + 1 < sizeMod) (hcol : stop.column + 1 < sizeMod)
    (hrec : ∀ id ∈ rectangleIds start stop, ∀ prog, sheet.find id = some (.expr prog) →
      evaluateExpression fuel sheet prog path = .done (val id) path) :
    ExprElement.evaluate (fuel + 1) (evaluateExpression fuel sheet) sheet
        (.functionCall "sum".toList 1) (.string rangeStr :: rest) path =
      if ((rectangleIds start stop).filterMap (numericValue val sheet)).isEmpty then
        .threw path
      else
        .done (.double (((rectangleIds start stop).filterMap (numericValue val sheet)).foldl
          DoubleOps.add DoubleOps.zero) :: rest) path := by
  have hfold := foldIndices_sumBody (evaluateExpression fuel sheet) sheet val path
    (rectangleIds start stop) hrec (DoubleOps.zero, false)
  have hcells := forCells_eq_foldIndices (fuel + 1) start stop
    (sumBody (evaluateExpression fuel sheet) sheet) (DoubleOps.zero, false) path hrow hcol
  simp only [ExprElement.evaluate, FunctionCall.evaluate]
  simp [Outcome.bind, hrange, hcells, hfold]
  generalize ((rectangleIds start stop).filterMap (numericValue val sheet)).isEmpty = b
  cases b <;> rfl

/-- The theorem `sum_function` applies to the range `A1:A2` of `sumSheet`. -/
theorem sum_function_witness :
    ExprElement.evaluate 2 (evaluateExpression 1 sumSheet) sumSheet
        (.functionCall "sum".toList 1) [.string "A1:A2".toList] [idB1] =
      .done [.double 15] [idB1] := by
  have hcells : rectangleIds ⟨1, 1⟩ ⟨1, 2⟩ = [idA1, idA2] := by decide
  have hnums : (rectangleIds ⟨1, 1⟩ ⟨1, 2⟩).filterMap
      (numericValue (fun _ => CValue.double (5 : Rat)) sumSheet) = [10, 5] := by decide
  have hrec : ∀ id ∈ rectangleIds ⟨1, 1⟩ ⟨1, 2⟩, ∀ prog,
      Sheet.find sumSheet id = some (.expr prog) →
      evaluateExpression 1 sumSheet prog [idB1] = .done (.double 5) [idB1] := by
    intro id hid prog hprog
    rw [hcells] at hid
    simp only [List.mem_cons, List.mem_singleton, List.not_mem_nil, or_false] at hid
    rcases hid with h | h
    · subst h
      have h1 : Sheet.find sumSheet idA1 = some (.double 10) := by decide
      rw [h1] at hprog
      exact absurd hprog (by simp)
    · subst h
      have h2 : Sheet.find sumSheet idA2 = some (.expr [.constant 5]) := by decide
      rw [h2] at hprog
      injection hprog with hprog
      injection hprog with hprog
      subst hprog
      decide
  have h := sum_function 1 sumSheet "A1:A2".toList ⟨1, 1⟩ ⟨1, 2⟩ (fun _ => .double 5) []
    [idB1] (by decide) (by decide) (by decide) hrec
  rw [hnums] at h
  rw [h]
  simp only [List.isEmpty_cons, List.foldl_cons, List.foldl_nil, DoubleOps.add, DoubleOps.zero]
  norm_num

/-- Claim C29, as the code has it: `load` gives the cell A2 a program of two texts on a sheet with
`A1 := 10` and `B1 := =sum(A1:A2)`. The program of A2 leaves two values, so the value of A2 is
empty; inside `sum` the nested `evaluateExpression` throws and the exception ends the whole
function: the value of B1 is empty although the rectangle holds the number 10. -/
theorem sum_fails_on_nested_exception :
    load uninit0 sumBaseSheet twoTextsStream = .returned true twoTextsSheet ∧
    ∀ fuel : Nat,
      getValue (fuel + 1) twoTextsSheet [] ⟨1, 1⟩ = .done (.double 10) [] ∧
      getValue (fuel + 1) twoTextsSheet [] ⟨1, 2⟩ = .done .monostate [] ∧
      getValue (fuel + 2) twoTextsSheet [] ⟨2, 1⟩ = .done .monostate [] := by
  refine ⟨by decide, fun fuel => ?_⟩
  have hidA1 : CPos.getUniqueId ⟨1, 1⟩ = idA1 := by decide
  have hidA2 : CPos.getUniqueId ⟨1, 2⟩ = idA2 := by decide
  have hidB1 : CPos.getUniqueId ⟨2, 1⟩ = idB1 := by decide
  have hfA1 : Sheet.find twoTextsSheet idA1 = some (.double 10) := by decide
  have hfA2 : Sheet.find twoTextsSheet idA2 =
      some (.expr [.stringVariable ['a'], .stringVariable ['b']]) := by decide
  have hfB1 : Sheet.find twoTextsSheet idB1 =
      some (.expr [.range "A1:A2".toList, .functionCall "sum".toList 1]) := by decide
  have hrange : parseRange "A1:A2".toList = some (⟨1, 1⟩, ⟨1, 2⟩) := by decide
  have hcells : rectangleIds ⟨1, 1⟩ ⟨1, 2⟩ = [idA1, idA2] := by decide
  have hinner : ∀ (f : Nat) (p : Path), evaluateExpression (f + 1) twoTextsSheet
      [.stringVariable ['a'], .stringVariable ['b']] p = .threw p := by
    intro f p
    rw [evaluateExpression_succ]
    simp [runNodes, ExprElement.evaluate]
  refine ⟨?_, ?_, ?_⟩
  · unfold getValue
    simp [hidA1, hfA1]
  · unfold getValue
    simp [hidA2, hfA2, hinner]
  · unfold getValue
    simp only [hidB1, hfB1, List.not_mem_nil, if_false]
    rw [evaluateExpression_succ]
    have hcall : FunctionCall.evaluate (fuel + 1 + 1)
        (evaluateExpression (fuel + 1) twoTextsSheet) twoTextsSheet "sum".toList 1
        [.string "A1:A2".toList] [idB1] = .threw [idB1] := by
      have hfor := forCells_eq_foldIndices (fuel + 1 + 1) ⟨1, 1⟩ ⟨1, 2⟩
        (sumBody (evaluateExpression (fuel + 1) twoTextsSheet) twoTextsSheet)
        (DoubleOps.zero, false) [idB1] (by decide) (by decide)
      rw [hcells] at hfor
      have hrange2 : parseRange ['A', '1', ':', 'A', '2'] = some (⟨1, 1⟩, ⟨1, 2⟩) := hrange
      simp only [FunctionCall.evaluate]
      simp [Outcome.bind, hrange2, hfor, foldIndices, sumBody, cellValue, hfA1, hfA2, hinner]
    simp only [runNodes, ExprElement.evaluate, hcall]

/-! ### The function `max` in the two builds -/

theorem evaluateExpressionSingleFile_succ {D : Type} [DoubleOps D] (fuel : Nat)
    (sheet : Sheet D) (exprStack : Program D) (path : Path) :
    evaluateExpressionSingleFile (fuel + 1) sheet exprStack path =
      match runNodes (ExprElement.evaluateSingleFile (fuel + 1)
          (evaluateExpressionSingleFile fuel sheet) sheet) exprStack [] path with
      | .done [result] p => .done result p
      | .done _ p => .threw p
      | .threw p => .done .monostate p
      | .undefinedBehaviour => .undefinedBehaviour
      | .outOfFuel => .outOfFuel := rfl

/-- Claim C30, evaluated on the sheet with `A1 := 1`, `A2 := =2` and `B1 := =max(A1:A2)`: the build
of `src/ExprElement.cpp` gives B1 the value 2, the greatest of the two numbers, while the build
of `src/excel.cpp`, which compares the result of a program with `<`, gives B1 the value 1. -/
theorem max_differs_between_builds (fuel : Nat) :
    getValue (fuel + 2) maxSheet [] ⟨2, 1⟩ = .done (.double 2) [] ∧
    getValueSingleFile (fuel + 2) maxSheet [] ⟨2, 1⟩ = .done (.double 1) [] := by
  have hidB1 : CPos.getUniqueId ⟨2, 1⟩ = idB1 := by decide
  have hfA1 : Sheet.find maxSheet idA1 = some (.double 1) := by decide
  have hfA2 : Sheet.find maxSheet idA2 = some (.expr [.constant 2]) := by decide
  have hfB1 : Sheet.find maxSheet idB1 =
      some (.expr [.range "A1:A2".toList, .functionCall "max".toList 1]) := by decide
  have hrange : parseRange ['A', '1', ':', 'A', '2'] = some (⟨1, 1⟩, ⟨1, 2⟩) := by decide
  have hcells : rectangleIds ⟨1, 1⟩ ⟨1, 2⟩ = [idA1, idA2] := by decide
  have hlt12 : DoubleOps.lt (1 : Rat) 2 = true := by decide
  have hlt21 : DoubleOps.lt (2 : Rat) 1 = false := by decide
  constructor
  · have hinner : ∀ p : Path, evaluateExpression (fuel + 1) maxSheet [.constant 2] p =
        .done (.double 2) p := by
      intro p
      rw [evaluateExpression_succ]
      simp [runNodes, ExprElement.evaluate]
    have hcall : FunctionCall.evaluate (fuel + 1 + 1)
        (evaluateExpression (fuel + 1) maxSheet) maxSheet "max".toList 1
        [.string "A1:A2".toList] [idB1] = .done [.double 2] [idB1] := by
      have hfor := forCells_eq_foldIndices (fuel + 1 + 1) ⟨1, 1⟩ ⟨1, 2⟩
        (extremumBody (fun a b => DoubleOps.lt b a) (evaluateExpression (fuel + 1) maxSheet)
          maxSheet) none [idB1] (by decide) (by decide)
      rw [hcells] at hfor
      simp only [FunctionCall.evaluate]
      simp [Outcome.bind, hrange, hfor, foldIndices, extremumBody, cellValue, hfA1, hfA2,
        hinner, hlt12]
    unfold getValue
    simp only [hidB1, hfB1, List.not_mem_nil, if_false]
    rw [evaluateExpression_succ]
    simp only [runNodes, ExprElement.evaluate, hcall]
  · have hinner : ∀ p : Path, evaluateExpressionSingleFile (fuel + 1) maxSheet [.constant 2] p =
        .done (.double 2) p := by
      intro p
      rw [evaluateExpressionSingleFile_succ]
      simp [runNodes, ExprElement.evaluateSingleFile, ExprElement.evaluate]
    have hcall : FunctionCall.evaluateSingleFile (fuel + 1 + 1)
        (evaluateExpressionSingleFile (fuel + 1) maxSheet) maxSheet "max".toList 1
        [.string "A1:A2".toList] [idB1] = .done [.double 1] [idB1] := by
      have hfor := forCells_eq_foldIndices (fuel + 1 + 1) ⟨1, 1⟩ ⟨1, 2⟩
        (maxBodySingleFile (evaluateExpressionSingleFile (fuel + 1) maxSheet) maxSheet) none
        [idB1] (by decide) (by decide)
      rw [hcells] at hfor
      simp only [FunctionCall.evaluateSingleFile]
      simp [Outcome.bind, hrange, hfor, foldIndices, maxBodySingleFile, cellValue, hfA1, hfA2,
        hinner, hlt21]
    unfold getValueSingleFile
    simp only [hidB1, hfB1, List.not_mem_nil, if_false]
    rw [evaluateExpressionSingleFile_succ]
    simp only [runNodes, ExprElement.evaluateSingleFile, ExprElement.evaluate, hcall]

/-! ### The function `count` -/

theorem countBody_eq {D : Type} (rec : Program D → Path → Outcome (CValue D))
    (sheet : Sheet D) (val : Nat → CValue D) (id : Nat) (count : Nat) (path : Path)
    (hrec : ∀ prog, sheet.find id = some (.expr prog) → rec prog path = .done (val id) path) :
    countBody rec sheet id count path =
      .done (if countsAsNonEmpty val sheet id then (count + 1) % sizeMod else count) path := by
  unfold countBody cellValue countsAsNonEmpty
  cases hf : sheet.find id with
  | none => rfl
  | some v =>
    cases v with
    | monostate => rfl
    | double d => rfl
    | string s => rfl
    | int i => rfl
    | expr prog =>
      simp only [hrec prog hf]
      cases val id <;> rfl

theorem foldIndices_countBody {D : Type}
    (rec : Program D → Path → Outcome (CValue D)) (sheet : Sheet D) (val : Nat → CValue D)
    (path : Path) (cells : List Nat)
    (hrec : ∀ id ∈ cells, ∀ prog, sheet.find id = some (.expr prog) →
      rec prog path = .done (val id) path) (count : Nat) (hcount : count < sizeMod) :
    foldIndices (countBody rec sheet) cells count path =
      .done ((count + (cells.filter (countsAsNonEmpty val sheet)).length) % sizeMod) path := by
  induction cells generalizing count with
  | nil => simp [foldIndices, Nat.mod_eq_of_lt hcount]
  | cons id ids ih =>
    have h1 := countBody_eq rec sheet val id count path (hrec id (List.mem_cons_self _ _))
    have h2 := fun c hc => ih (fun k hk => hrec k (List.mem_cons_of_mem _ hk)) c hc
    simp only [foldIndices, h1]
    cases hc : countsAsNonEmpty val sheet id with
    | false =>
      simp only [Bool.false_eq_true, if_false, h2 count hcount, List.filter_cons, hc]
    | true =>
      have hlt : (count + 1) % sizeMod < sizeMod := Nat.mod_lt _ (by decide)
      simp only [if_true, h2 _ hlt, List.filter_cons, hc, List.length_cons]
      congr 1
      simp only [sizeMod]
      omega

/-- Claim C31, amended: for a range whose last row and column are below the greatest
`size_t`, and in which every program, evaluated with the current path, returns a value and
leaves the path as it was, `count` pushes the number, in `size_t`, of the cells of the
rectangle that are set and not empty, a cell that holds a program being counted when its
program evaluates to a value that is not empty; it never throws for lack of such cells. -/
theorem count_function {D : Type} [DoubleOps D] (fuel : Nat) (sheet : Sheet D)
    (rangeStr : Str) (start stop : CPos) (val : Nat → CValue D) (rest : List (CValue D))
    (path : Path)
    (hrange : parseRange rangeStr = some (start, stop))
    (hrow : stop.row + 1 < sizeMod) (hcol : stop.column + 1 < sizeMod)
    (hrec : ∀ id ∈ rectangleIds start stop, ∀ prog, sheet.find id = some (.expr prog) →
      evaluateExpression fuel sheet prog path = .done (val id) path) :
    ExprElement.evaluate (fuel + 1) (evaluateExpression fuel sheet) sheet
        (.functionCall "count".toList 1) (.string rangeStr :: rest) path =
      .done (.double (DoubleOps.ofSizeT
        (((rectangleIds start stop).filter (countsAsNonEmpty val sheet)).length % sizeMod)) ::
        rest) path := by
  have hfold := foldIndices_countBody (evaluateExpression fuel sheet) sheet val path
    (rectangleIds start stop) hrec 0 (by decide)
  have hcells := forCells_eq_foldIndices (fuel + 1) start stop
    (countBody (evaluateExpression fuel sheet) sheet) 0 path hrow hcol
  simp only [ExprElement.evaluate, FunctionCall.evaluate]
  simp [Outcome.bind, hrange, hcells, hfold]

/-- The theorem `count_function` applies to the range `A1:A2` of `countSheet`. -/
theorem count_function_witness :
    ExprElement.evaluate 2 (evaluateExpression 1 countSheet) countSheet
        (.functionCall "count".toList 1) [.string "A1:A2".toList] [idB1] =
      .done [.double (DoubleOps.ofSizeT 2)] [idB1] := by
  have hcells : rectangleIds ⟨1, 1⟩ ⟨1, 2⟩ = [idA1, idA2] := by decide
  have hrec : ∀ id ∈ rectangleIds ⟨1, 1⟩ ⟨1, 2⟩, ∀ prog,
      Sheet.find countSheet id = some (.expr prog) →
      evaluateExpression 1 countSheet prog [idB1] = .done (.double 5) [idB1] := by
    intro id hid prog hprog
    rw [hcells] at hid
    simp only [List.mem_cons, List.mem_singleton, List.not_mem_nil, or_false] at hid
    rcases hid with h | h
    · subst h
      have h1 : Sheet.find countSheet idA1 = some (.double 10) := by decide
      rw [h1] at hprog
      exact absurd hprog (by simp)
    · subst h
      have h2 : Sheet.find countSheet idA2 = some (.expr [.constant 5]) := by decide
      rw [h2] at hprog
      injection hprog with hprog
      injection hprog with hprog
      subst hprog
      decide
  have h := count_function 1 countSheet "A1:A2".toList ⟨1, 1⟩ ⟨1, 2⟩ (fun _ => .double 5) []
    [idB1] (by decide) (by decide) (by decide) hrec
  have hn : ((rectangleIds ⟨1, 1⟩ ⟨1, 2⟩).filter
      (countsAsNonEmpty (fun _ => CValue.double (5 : Rat)) countSheet)).length % sizeMod = 2 := by
    decide
  rw [hn] at h
  exact h

/-- Claim C31, as the code has it: `load` gives the cell A2 a program of two texts on a sheet
with `A1 := 10` and `B1 := =count(A1:A2)`. Inside `count` the nested `evaluateExpression`
throws because the program of A2 leaves two values, and the exception ends the whole
function: the value of B1 is empty, not the number 1 of the cells that are set and not
empty. -/
theorem count_fails_on_nested_exception :
    load uninit0 countBaseSheet twoTextsStream = .returned true countTextsSheet ∧
    ∀ fuel : Nat,
      getValue (fuel + 1) countTextsSheet [] ⟨1, 1⟩ = .done (.double 10) [] ∧
      getValue (fuel + 1) countTextsSheet [] ⟨1, 2⟩ = .done .monostate [] ∧
      getValue (fuel + 2) countTextsSheet [] ⟨2, 1⟩ = .done .monostate [] := by
  refine ⟨by decide, fun fuel => ?_⟩
  have hidA1 : CPos.getUniqueId ⟨1, 1⟩ = idA1 := by decide
  have hidA2 : CPos.getUniqueId ⟨1, 2⟩ = idA2 := by decide
  have hidB1 : CPos.getUniqueId ⟨2, 1⟩ = idB1 := by decide
  have hfA1 : Sheet.find countTextsSheet idA1 = some (.double 10) := by decide
  have hfA2 : Sheet.find countTextsSheet idA2 =
      some (.expr [.stringVariable ['a'], .stringVariable ['b']]) := by decide
  have hfB1 : Sheet.find countTextsSheet idB1 =
      some (.expr [.range "A1:A2".toList, .functionCall "count".toList 1]) := by decide
  have hrange : parseRange "A1:A2".toList = some (⟨1, 1⟩, ⟨1, 2⟩) := by decide
  have hcells : rectangleIds ⟨1, 1⟩ ⟨1, 2⟩ = [idA1, idA2] := by decide
  have hinner : ∀ (f : Nat) (p : Path), evaluateExpression (f + 1) countTextsSheet
      [.stringVariable ['a'], .stringVariable ['b']] p = .threw p := by
    intro f p
    rw [evaluateExpression_succ]
    simp [runNodes, ExprElement.evaluate]
  refine ⟨?_, ?_, ?_⟩
  · unfold getValue
    simp [hidA1, hfA1]
  · unfold getValue
    simp [hidA2, hfA2, hinner]
  · unfold getValue
    simp only [hidB1, hfB1, List.not_mem_nil, if_false]
    rw [evaluateExpression_succ]
    have hcall : FunctionCall.evaluate (fuel + 1 + 1)
        (evaluateExpression (fuel + 1) countTextsSheet) countTextsSheet "count".toList 1
        [.string "A1:A2".toList] [idB1] = .threw [idB1] := by
      have hfor := forCells_eq_foldIndices (fuel + 1 + 1) ⟨1, 1⟩ ⟨1, 2⟩
        (countBody (evaluateExpression (fuel + 1) countTextsSheet) countTextsSheet)
        0 [idB1] (by decide) (by decide)
      rw [hcells] at hfor
      have hrange2 : parseRange ['A', '1', ':', 'A', '2'] = some (⟨1, 1⟩, ⟨1, 2⟩) := hrange
      simp only [FunctionCall.evaluate]
      simp [Outcome.bind, hrange2, hfor, foldIndices, countBody, cellValue, hfA1, hfA2, hinner]
    simp only [runNodes, ExprElement.evaluate, hcall]

/-! ### The function `countval` -/

theorem countvalBody_eq {D : Type} [DoubleOps D] (needle : CValue D)
    (rec : Program D → Path → Outcome (CValue D))
    (sheet : Sheet D) (val : Nat → CValue D) (id : Nat) (count : Nat) (path : Path)
    (hrec : ∀ prog, sheet.find id = some (.expr prog) → rec prog path = .done (val id) path) :
    countvalBody needle rec sheet id count path =
      .done (if strictlyEqual needle (shownValue val sheet id) then (count + 1) % sizeMod
        else count) path := by
  unfold countvalBody cellValue shownValue strictlyEqual
  cases hf : sheet.find id with
  | none => cases needle <;> rfl
  | some v =>
    cases v with
    | monostate => cases needle <;> rfl
    | double d => cases needle <;> simp
    | string s => cases needle <;> simp
    | int i => cases needle <;> rfl
    | expr prog =>
      simp only [hrec prog hf]
      cases val id <;> cases needle <;> simp

theorem foldIndices_countvalBody {D : Type} [DoubleOps D] (needle : CValue D)
    (rec : Program D → Path → Outcome (CValue D)) (sheet : Sheet D) (val : Nat → CValue D)
    (path : Path) (cells : List Nat)
    (hrec : ∀ id ∈ cells, ∀ prog, sheet.find id = some (.expr prog) →
      rec prog path = .done (val id) path) (count : Nat) (hcount : count < sizeMod) :
    foldIndices (countvalBody needle rec sheet) cells count path =
      .done ((count + (cells.filter
        (fun id => strictlyEqual needle (shownValue val sheet id))).length) % sizeMod)
        path := by
  induction cells generalizing count with
  | nil => simp [foldIndices, Nat.mod_eq_of_lt hcount]
  | cons id ids ih =>
    have h1 := countvalBody_eq needle rec sheet val id count path
      (hrec id (List.mem_cons_self _ _))
    have h2 := fun c hc => ih (fun k hk => hrec k (List.mem_cons_of_mem _ hk)) c hc
    simp only [foldIndices, h1]
    cases hc : strictlyEqual needle (shownValue val sheet id) with
    | false =>
      simp only [Bool.false_eq_true, if_false, h2 count hcount, List.filter_cons, hc]
    | true =>
      have hlt : (count + 1) % sizeMod < sizeMod := Nat.mod_lt _ (by decide)
      simp only [if_true, h2 _ hlt, List.filter_cons, hc, List.length_cons]
      congr 1
      simp only [sizeMod]
      omega

/-- Claim C32, amended: for a range whose last row and column are below the greatest
`size_t`, and in which every program, evaluated with the current path, returns a value and
leaves the path as it was, `countval` with the arguments `needle` and the range pushes the
number, in `size_t`, of the cells of the rectangle whose value, the stored number or text or
the result of the stored program, has the type of `needle` and is equal to it; cells of
another type, empty cells and unset cells are not counted. -/
theorem countval_function {D : Type} [DoubleOps D] (fuel : Nat) (sheet : Sheet D)
    (rangeStr : Str) (start stop : CPos) (val : Nat → CValue D) (needle : CValue D)
    (rest : List (CValue D)) (path : Path)
    (hrange : parseRange rangeStr = some (start, stop))
    (hrow : stop.row + 1 < sizeMod) (hcol : stop.column + 1 < sizeMod)
    (hrec : ∀ id ∈ rectangleIds start stop, ∀ prog, sheet.find id = some (.expr prog) →
      evaluateExpression fuel sheet prog path = .done (val id) path) :
    ExprElement.evaluate (fuel + 1) (evaluateExpression fuel sheet) sheet
        (.functionCall "countval".toList 2) (.string rangeStr :: needle :: rest) path =
      .done (.double (DoubleOps.ofSizeT
        (((rectangleIds start stop).filter
          (fun id => strictlyEqual needle (shownValue val sheet id))).length % sizeMod)) ::
        rest) path := by
  have hfold := foldIndices_countvalBody needle (evaluateExpression fuel sheet) sheet val path
    (rectangleIds start stop) hrec 0 (by decide)
  have hcells := forCells_eq_foldIndices (fuel + 1) start stop
    (countvalBody needle (evaluateExpression fuel sheet) sheet) 0 path hrow hcol
  simp only [ExprElement.evaluate, FunctionCall.evaluate]
  simp [Outcome.bind, hrange, hcells, hfold]

/-- The theorem `countval_function` applies to the number 10 and the range `A1:A2` of
`countvalSheet`. -/
theorem countval_function_witness :
    ExprElement.evaluate 2 (evaluateExpression 1 countvalSheet) countvalSheet
        (.functionCall "countval".toList 2) [.string "A1:A2".toList, .double 10] [idB1] =
      .done [.double (DoubleOps.ofSizeT 2)] [idB1] := by
  have hcells : rectangleIds ⟨1, 1⟩ ⟨1, 2⟩ = [idA1, idA2] := by decide
  have hrec : ∀ id ∈ rectangleIds ⟨1, 1⟩ ⟨1, 2⟩, ∀ prog,
      Sheet.find countvalSheet id = some (.expr prog) →
      evaluateExpression 1 countvalSheet prog [idB1] = .done (.double 10) [idB1] := by
    intro id hid prog hprog
    rw [hcells] at hid
    simp only [List.mem_cons, List.mem_singleton, List.not_mem_nil, or_false] at hid
    rcases hid with h | h
    · subst h
      have h1 : Sheet.find countvalSheet idA1 = some (.double 10) := by decide
      rw [h1] at hprog
      exact absurd hprog (by simp)
    · subst h
      have h2 : Sheet.find countvalSheet idA2 = some (.expr [.constant 10]) := by decide
      rw [h2] at hprog
      injection hprog with hprog
      injection hprog with hprog
      subst hprog
      decide
  have h := countval_function 1 countvalSheet "A1:A2".toList ⟨1, 1⟩ ⟨1, 2⟩
    (fun _ => .double 10) (.double 10) [] [idB1] (by decide) (by decide) (by decide) hrec
  have hn : ((rectangleIds ⟨1, 1⟩ ⟨1, 2⟩).filter
      (fun id => strictlyEqual (CValue.double (10 : Rat))
        (shownValue (fun _ => CValue.double (10 : Rat)) countvalSheet id))).length % sizeMod =
      2 := by
    decide
  rw [hn] at h
  exact h

/-- Claim C32, as the code has it: `load` gives the cell A2 a program of two texts on a sheet
with `A1 := 10` and `B1 := =countval(10, A1:A2)`. Inside `countval` the nested
`evaluateExpression` throws because the program of A2 leaves two values, and the exception
ends the whole function: the value of B1 is empty, not the number 1 of the cells equal to
10. -/
theorem countval_fails_on_nested_exception :
    load uninit0 countvalBaseSheet twoTextsStream = .returned true countvalTextsSheet ∧
    ∀ fuel : Nat,
      getValue (fuel + 1) countvalTextsSheet [] ⟨1, 1⟩ = .done (.double 10) [] ∧
      getValue (fuel + 1) countvalTextsSheet [] ⟨1, 2⟩ = .done .monostate [] ∧
      getValue (fuel + 2) countvalTextsSheet [] ⟨2, 1⟩ = .done .monostate [] := by
  refine ⟨by decide, fun fuel => ?_⟩
  have hidA1 : CPos.getUniqueId ⟨1, 1⟩ = idA1 := by decide
  have hidA2 : CPos.getUniqueId ⟨1, 2⟩ = idA2 := by decide
  have hidB1 : CPos.getUniqueId ⟨2, 1⟩ = idB1 := by decide
  have hfA1 : Sheet.find countvalTextsSheet idA1 = some (.double 10) := by decide
  have hfA2 : Sheet.find countvalTextsSheet idA2 =
      some (.expr [.stringVariable ['a'], .stringVariable ['b']]) := by decide
  have hfB1 : Sheet.find countvalTextsSheet idB1 = some (.expr
      [.constant 10, .range "A1:A2".toList, .functionCall "countval".toList 2]) := by decide
  have hrange : parseRange "A1:A2".toList = some (⟨1, 1⟩, ⟨1, 2⟩) := by decide
  have hcells : rectangleIds ⟨1, 1⟩ ⟨1, 2⟩ = [idA1, idA2] := by decide
  have hinner : ∀ (f : Nat) (p : Path), evaluateExpression (f + 1) countvalTextsSheet
      [.stringVariable ['a'], .stringVariable ['b']] p = .threw p := by
    intro f p
    rw [evaluateExpression_succ]
    simp [runNodes, ExprElement.evaluate]
  refine ⟨?_, ?_, ?_⟩
  · unfold getValue
    simp [hidA1, hfA1]
  · unfold getValue
    simp [hidA2, hfA2, hinner]
  · unfold getValue
    simp only [hidB1, hfB1, List.not_mem_nil, if_false]
    rw [evaluateExpression_succ]
    have hcall : FunctionCall.evaluate (fuel + 1 + 1)
        (evaluateExpression (fuel + 1) countvalTextsSheet) countvalTextsSheet
        "countval".toList 2 [.string "A1:A2".toList, .double 10] [idB1] = .threw [idB1] := by
      have hfor := forCells_eq_foldIndices (fuel + 1 + 1) ⟨1, 1⟩ ⟨1, 2⟩
        (countvalBody (.double 10) (evaluateExpression (fuel + 1) countvalTextsSheet)
          countvalTextsSheet) 0 [idB1] (by decide) (by decide)
      rw [hcells] at hfor
      have hrange2 : parseRange ['A', '1', ':', 'A', '2'] = some (⟨1, 1⟩, ⟨1, 2⟩) := hrange
      simp only [FunctionCall.evaluate]
      simp [Outcome.bind, hrange2, hfor, foldIndices, countvalBody, cellValue, hfA1, hfA2,
        hinner]
    simp only [runNodes, ExprElement.evaluate, hcall]

/-! ### Numbers in a saved stream -/

theorem digitsValue_append (ds t : Str) (x : Char) (acc : Nat)
    (hds : ∀ c ∈ ds, isdigit c = true) (hx : isdigit x = false) :
    digitsValue (ds ++ x :: t) acc = digitsValue ds acc := by
  induction ds generalizing acc with
  | nil => simp [digitsValue, hx]
  | cons c cs ih =>
    have hc : isdigit c = true := hds c (List.mem_cons_self _ _)
    simp only [List.cons_append, digitsValue, hc, if_true]
    exact ih _ (fun d hd => hds d (List.mem_cons_of_mem _ hd))

theorem readULong_key (k old : Nat) (x : Char) (t : Str) (hk : k < sizeMod)
    (hx : isdigit x = false) :
    readULong (IStream.ofStr (toDecimal k ++ x :: t)) old = (k, ⟨x :: t, false, false⟩) := by
  have hdig : ∀ c ∈ toDecimal k, isdigit c = true := toDecimal_isdigit k
  have hval : digitsValue (toDecimal k ++ x :: t) 0 = k := by
    rw [digitsValue_append _ _ _ _ hdig hx, digitsValue_toDecimal]
  have hdrop : (toDecimal k ++ x :: t).dropWhile isdigit = x :: t := by
    rw [List.dropWhile_append_of_pos hdig]
    simp [List.dropWhile_cons, hx]
  cases hd : toDecimal k with
  | nil => exact absurd hd (toDecimal_ne_nil k)
  | cons c cs =>
    rw [hd] at hval hdrop hdig
    have hc : isdigit c = true := hdig c (List.mem_cons_self _ _)
    have hsp : isspace c = false := isdigit_not_isspace c hc
    obtain ⟨hm, hp⟩ := isdigit_not_sign c hc
    have hlt : ¬ sizeMod ≤ k := by omega
    simp only [List.cons_append] at hval hdrop
    unfold readULong sentry
    simp [IStream.ofStr, IStream.good, List.dropWhile_cons, hsp, hm, hp, hc, hval, hlt, hdrop]

theorem parseLine_number {D : Type} [DoubleOps D] (u : Uninit D) (k : Nat) (d : D)
    (hk : k < sizeMod) (hd : wellPrinted (DoubleOps.toStr d) = true) :
    parseLine u (toDecimal k ++ ", ".toList ++ saveCell (.double d)) =
      .ok (k, .double (DoubleOps.scan (DoubleOps.toStr d))) := by
  have hline : toDecimal k ++ ", ".toList ++ saveCell (CustomCValue.double d) =
      toDecimal k ++ ',' :: ' ' :: DoubleOps.toStr d := by
    simp [saveCell]
  have hcomma : isdigit ',' = false := by decide
  rw [hline]
  unfold parseLine
  rw [readULong_key k u.key ',' _ hk hcomma]
  cases ht : DoubleOps.toStr d with
  | nil => rw [ht] at hd; exact absurd hd (by simp [wellPrinted])
  | cons c cs =>
    rw [ht] at hd
    simp only [wellPrinted, Bool.and_eq_true, Bool.or_eq_true, beq_iff_eq] at hd
    have hc1 : isspace c = false := by
      rcases hd.1 with h | h
      · exact isdigit_not_isspace c h
      · rw [h]; decide
    have hc2 : c ≠ '[' := by
      rcases hd.1 with h | h
      · intro he; rw [he] at h; exact absurd h (by decide)
      · rw [h]; decide
    have hc3 : c ≠ QUOTE := by
      rcases hd.1 with h | h
      · intro he; rw [he] at h; exact absurd h (by decide)
      · rw [h]; decide
    have hc4 : c ≠ 'u' := by
      rcases hd.1 with h | h
      · intro he; rw [he] at h; exact absurd h (by decide)
      · rw [h]; decide
    have hs1 : isspace ',' = false := by decide
    simp [readChar, sentry, IStream.good, IStream.get, IStream.peek, readDouble,
      List.dropWhile_cons, hs1, hc1, hc2, hc3, hc4]

theorem allLines_single (piece : Str) (delim : Char) (hne : piece ≠ [])
    (hp : ∀ c ∈ piece, (c != delim) = true) :
    allLines ⟨piece, false, false⟩ delim = [piece] := by
  have hg : getline ⟨piece, false, false⟩ [] delim = (piece, ⟨[], true, false⟩) := by
    unfold getline
    simp only [IStream.good, Bool.not_false, Bool.and_self, if_true]
    rw [List.takeWhile_eq_self_iff.mpr hp, List.dropWhile_eq_nil_iff.mpr hp]
    cases piece with
    | nil => exact absurd rfl hne
    | cons c cs => rfl
  unfold allLines
  rw [readLines_succ, hg]
  simp only [Bool.false_eq_true, if_false]
  cases piece with
  | nil => exact absurd rfl hne
  | cons c cs =>
    simp only [List.length_cons]
    rw [readLines_succ]
    simp [getline, IStream.good]

theorem parseLine_constant {D : Type} [DoubleOps D] (u : Uninit D) (k : Nat) (d : D)
    (hk : k < sizeMod) (hd : wellPrinted (DoubleOps.toStr d) = true) :
    parseLine u (toDecimal k ++ ", ".toList ++ saveCell (.expr [.constant d])) =
      .ok (k, .expr [.constant (DoubleOps.scan (DoubleOps.toStr d))]) := by
  have hline : toDecimal k ++ ", ".toList ++ saveCell (CustomCValue.expr [.constant d]) =
      toDecimal k ++ ',' :: ' ' :: '[' ::
        ("Constant ".toList ++ DoubleOps.toStr d ++ [']']) := by
    simp [saveCell, saveElements, ExprElement.save]
  have hcomma : isdigit ',' = false := by decide
  rw [hline]
  unfold parseLine
  rw [readULong_key k u.key ',' _ hk hcomma]
  cases ht : DoubleOps.toStr d with
  | nil => rw [ht] at hd; exact absurd hd (by simp [wellPrinted])
  | cons c cs =>
    rw [ht] at hd
    simp only [wellPrinted, Bool.and_eq_true, Bool.or_eq_true, beq_iff_eq, List.all_eq_true,
      bne_iff_ne, ne_eq] at hd
    have hc1 : isspace c = false := by
      rcases hd.1 with h | h
      · exact isdigit_not_isspace c h
      · rw [h]; decide
    have hc5 : c ≠ ',' := by
      rcases hd.1 with h | h
      · intro he; rw [he] at h; exact absurd h (by decide)
      · rw [h]; decide
    have hs1 : isspace ',' = false := by decide
    have hpiece : ∀ x ∈ "Constant ".toList ++ (c :: cs) ++ [']'], (x != ',') = true := by
      intro x hx
      simp only [List.mem_append, List.mem_cons, List.mem_singleton, List.not_mem_nil,
        or_false] at hx
      rcases hx with (hx | hx | hx) | hx
      · have hall : ∀ y ∈ "Constant ".toList, (y != ',') = true := by decide
        exact hall x hx
      · rw [hx]; simpa using hc5
      · simpa using (hd.2 x hx).2
      · rw [hx]; decide
    have hlines := allLines_single ("Constant ".toList ++ (c :: cs) ++ [']']) ','
      (by simp) hpiece
    have hstr : "Constant ".toList = ['C', 'o', 'n', 's', 't', 'a', 'n', 't', ' '] := rfl
    have helem : parseElement u ("Constant ".toList ++ (c :: cs) ++ [']']) =
        .ok (some (.constant (DoubleOps.scan (c :: cs)))) := by
      have hlast : (['C', 'o', 'n', 's', 't', 'a', 'n', 't', ' '] ++ (c :: cs) ++ [']']).getLast?
          = some ']' := by
        rw [List.getLast?_concat]
      have hdropLast : (['C', 'o', 'n', 's', 't', 'a', 'n', 't', ' '] ++ (c :: cs) ++
          [']']).dropLast = ['C', 'o', 'n', 's', 't', 'a', 'n', 't', ' '] ++ (c :: cs) := by
        rw [List.dropLast_concat]
      have hsC : isspace 'C' = false := by decide
      have hso : isspace 'o' = false := by decide
      have hsn : isspace 'n' = false := by decide
      have hss : isspace 's' = false := by decide
      have hst : isspace 't' = false := by decide
      have hsa : isspace 'a' = false := by decide
      have hsp : isspace ' ' = true := by decide
      have hdrop : (['C', 'o', 'n', 's', 't', 'a', 'n', 't', ' '] ++ (c :: cs) ++
          [']']).dropWhile (fun x => x == ' ') =
          ['C', 'o', 'n', 's', 't', 'a', 'n', 't', ' '] ++ (c :: cs) ++ [']'] := by
        simp [List.dropWhile_cons]
      unfold parseElement
      rw [hstr]
      simp only [hdrop, hlast, hdropLast, if_true]
      simp [readString, sentry, IStream.ofStr, IStream.good, IStream.ws, readDouble,
        List.dropWhile_cons, List.takeWhile_cons, hsC, hso, hsn, hss, hst, hsa, hsp, hc1]
    simp only [readChar, sentry, IStream.good, IStream.get, IStream.peek, Bool.not_false,
      Bool.and_self, if_true, List.dropWhile_cons, hs1, Bool.false_eq_true, if_false]
    simp only [hlines, parseElements, helem, List.nil_append]

theorem allLines_saveData {D : Type} [DoubleOps D] (S : Sheet D)
    (hS : ∀ kv ∈ S, ∀ c ∈ toDecimal kv.1 ++ ", ".toList ++ saveCell kv.2,
      (c != NL) = true) :
    allLines (IStream.ofStr (saveData S)) NL =
      S.map (fun kv => toDecimal kv.1 ++ ", ".toList ++ saveCell kv.2) := by
  induction S with
  | nil => exact allLines_nil
  | cons kv rest ih =>
    obtain ⟨key, val⟩ := kv
    have hdata : saveData ((key, val) :: rest) =
        (toDecimal key ++ ", ".toList ++ saveCell val) ++ NL :: saveData rest := by
      simp [saveData]
    rw [hdata, allLines_cons_line _ _ (hS (key, val) (List.mem_cons_self _ _)),
      ih (fun kv hkv => hS kv (List.mem_cons_of_mem _ hkv))]
    rfl

theorem loadLines_map {D : Type} [DoubleOps D] (u : Uninit D) (S : Sheet D)
    (f : Nat × CustomCValue D → Str)
    (hparse : ∀ kv ∈ S, parseLine u (f kv) = .ok kv) (sheet : Sheet D) :
    loadLines u (S.map f) sheet =
      .returned true (S.foldl (fun s kv => s.assign kv.1 kv.2) sheet) := by
  induction S generalizing sheet with
  | nil => rfl
  | cons kv rest ih =>
    simp only [List.map_cons, loadLines, hparse kv (List.mem_cons_self _ _), List.foldl_cons]
    exact ih (fun p hp => hparse p (List.mem_cons_of_mem _ hp)) _

theorem assign_fresh {D : Type} (s : Sheet D) (k : Nat) (v : CustomCValue D)
    (hk : ∀ p ∈ s, p.1 ≠ k) : s.assign k v = s ++ [(k, v)] := by
  induction s with
  | nil => rfl
  | cons p rest ih =>
    obtain ⟨k1, w⟩ := p
    have hne : k1 ≠ k := hk (k1, w) (List.mem_cons_self _ _)
    simp only [Sheet.assign, hne, if_false, List.cons_append]
    rw [ih (fun q hq => hk q (List.mem_cons_of_mem _ hq))]

theorem foldl_assign_fresh {D : Type} (S s : Sheet D)
    (hnodup : (S.map Prod.fst).Nodup) (hdisj : ∀ p ∈ s, ∀ q ∈ S, p.1 ≠ q.1) :
    S.foldl (fun t kv => Sheet.assign t kv.1 kv.2) s = s ++ S := by
  induction S generalizing s with
  | nil => simp
  | cons kv rest ih =>
    simp only [List.map_cons, List.nodup_cons] at hnodup
    simp only [List.foldl_cons]
    rw [assign_fresh s kv.1 kv.2 (fun p hp => hdisj p hp kv (List.mem_cons_self _ _))]
    rw [ih _ hnodup.2]
    · simp
    · intro p hp q hq
      rcases List.mem_append.mp hp with h | h
      · exact hdisj p h q (List.mem_cons_of_mem _ hq)
      · simp only [List.mem_singleton] at h
        rw [h]
        intro he
        exact hnodup.1 (List.mem_map.mpr ⟨q, hq, he.symm⟩)

theorem wellPrinted_no_newline (t : Str) (h : wellPrinted t = true) :
    ∀ c ∈ t, (c != NL) = true := by
  cases t with
  | nil => exact absurd h (by simp [wellPrinted])
  | cons c cs =>
    simp only [wellPrinted, Bool.and_eq_true, Bool.or_eq_true, beq_iff_eq, List.all_eq_true,
      bne_iff_ne, ne_eq] at h
    intro x hx
    rcases List.mem_cons.mp hx with hx | hx
    · rw [hx]
      rcases h.1 with h1 | h1
      · simp only [bne_iff_ne, ne_eq]
        intro he
        rw [he] at h1
        exact absurd h1 (by decide)
      · rw [h1]; decide
    · simpa using (h.2 x hx).1

theorem load_save_single_number {D : Type} [DoubleOps D] (u : Uninit D) (k : Nat) (d : D)
    (hk : k < sizeMod) (hd : wellPrinted (DoubleOps.toStr d) = true) :
    load u [] (save [(k, .double d)]) =
      .returned true [(k, .double (DoubleOps.scan (DoubleOps.toStr d)))] := by
  have hnl : ∀ kv ∈ [(k, CustomCValue.double d)],
      ∀ c ∈ toDecimal kv.1 ++ ", ".toList ++ saveCell kv.2, (c != NL) = true := by
    intro kv hkv c hc
    rw [List.mem_singleton.mp hkv] at hc
    have hsep : ∀ y ∈ ", ".toList, (y != NL) = true := by decide
    rcases List.mem_append.mp hc with h | h
    · rcases List.mem_append.mp h with h | h
      · obtain ⟨j, hj, rfl⟩ := toDecimal_digit _ c h
        simpa using (digitChar_spec j hj).2.2.2.1
      · exact hsep c h
    · exact wellPrinted_no_newline _ hd c h
  rw [load_save_passes_checks, allLines_saveData _ hnl]
  simp only [List.map_cons, List.map_nil, loadLines, parseLine_number u k d hk hd]
  rfl

/-- For any numbers: a sheet with distinct keys whose cells hold numbers, or programs that
are one `Constant` node, is restored exactly by `load` from what `save` wrote, provided each
number is printed by `std::to_string` as a text that starts with a digit or a minus sign,
holds neither a newline nor a comma, and is read back by the extraction as the same
number. -/
theorem load_save_exact_numbers {D : Type} [DoubleOps D] (u : Uninit D) (S : Sheet D)
    (hkeys : (S.map Prod.fst).Nodup)
    (hcells : ∀ kv ∈ S, kv.1 < sizeMod ∧
      ∃ d : D, (kv.2 = .double d ∨ kv.2 = .expr [.constant d]) ∧
        wellPrinted (DoubleOps.toStr d) = true ∧
        DoubleOps.scan (DoubleOps.toStr d) = d) :
    load u [] (save S) = .returned true S := by
  have hparse : ∀ kv ∈ S,
      parseLine u (toDecimal kv.1 ++ ", ".toList ++ saveCell kv.2) = .ok kv := by
    intro kv hkv
    obtain ⟨hk, d, hv, hw, hscan⟩ := hcells kv hkv
    obtain ⟨k, v⟩ := kv
    simp only at hk hv
    rcases hv with hv | hv
    · rw [hv, parseLine_number u k d hk hw, hscan]
    · rw [hv, parseLine_constant u k d hk hw, hscan]
  have hnl : ∀ kv ∈ S, ∀ c ∈ toDecimal kv.1 ++ ", ".toList ++ saveCell kv.2,
      (c != NL) = true := by
    intro kv hkv c hc
    obtain ⟨hk, d, hv, hw, hscan⟩ := hcells kv hkv
    have hprint := wellPrinted_no_newline _ hw
    have hsep : ∀ y ∈ ", ".toList, (y != NL) = true := by decide
    have hconst : ∀ y ∈ "Constant ".toList, (y != NL) = true := by decide
    rcases List.mem_append.mp hc with h | h
    · rcases List.mem_append.mp h with h | h
      · obtain ⟨j, hj, rfl⟩ := toDecimal_digit _ c h
        simpa using (digitChar_spec j hj).2.2.2.1
      · exact hsep c h
    · rcases hv with hv | hv
      · rw [hv] at h
        exact hprint c h
      · rw [hv] at h
        simp only [saveCell, saveElements, ExprElement.save, List.mem_append,
          List.mem_singleton] at h
        rcases h with (h | h | h) | h
        · rw [h]; decide
        · exact hconst c h
        · exact hprint c h
        · rw [h]; decide
  rw [load_save_passes_checks, allLines_saveData S hnl, loadLines_map u S _ hparse,
    foldl_assign_fresh S [] hkeys (by simp)]
  rfl

/-! ### The path after a reference -/

/-- Claim C34, evaluated at two references. On the sheet with `A1 := =A2` and `A2 := =A1` the
reference to A2, evaluated with the path that holds A1, pushes the empty value and leaves the
path empty: the cycle found inside the nested evaluation cleared it. On the sheet whose cell
A2 holds a program of two texts the reference to A2 throws and leaves the key of A2 in the
path. -/
theorem Reference_evaluate_changes_path (fuel : Nat) :
    Reference.evaluate (evaluateExpression (fuel + 1) twoCycleSheet) twoCycleSheet refA2 []
      [idA1] = .done [.monostate] [] ∧
    Reference.evaluate (evaluateExpression (fuel + 1) twoTextsSheet) twoTextsSheet refA2 []
      [idB1] = .threw [idA2, idB1] := by
  have hid2 : CPos.getUniqueId ⟨refA2.column, refA2.row⟩ = idA2 := by decide
  have hid1 : CPos.getUniqueId ⟨refA1.column, refA1.row⟩ = idA1 := by decide
  constructor
  · have hf2 : Sheet.find twoCycleSheet idA2 = some (.expr [.reference refA1]) := by decide
    have hf1 : Sheet.find twoCycleSheet idA1 = some (.expr [.reference refA2]) := by decide
    have hnot : idA2 ∉ [idA1] := by decide
    have hmem : idA1 ∈ [idA2, idA1] := by decide
    have hinner : evaluateExpression (fuel + 1) twoCycleSheet [.reference refA1]
        [idA2, idA1] = .done .monostate [] := by
      rw [evaluateExpression_succ]
      simp only [runNodes, ExprElement.evaluate, Reference.evaluate, hid1, hf1, hmem, if_true]
    simp only [Reference.evaluate, hid2, hf2, hnot, if_false, hinner, List.filter_nil]
  · have hf2 : Sheet.find twoTextsSheet idA2 =
        some (.expr [.stringVariable ['a'], .stringVariable ['b']]) := by decide
    have hnot : idA2 ∉ [idB1] := by decide
    have hinner : evaluateExpression (fuel + 1) twoTextsSheet
        [.stringVariable ['a'], .stringVariable ['b']] [idA2, idB1] = .threw [idA2, idB1] := by
      rw [evaluateExpression_succ]
      simp only [runNodes, ExprElement.evaluate]
    simp only [Reference.evaluate, hid2, hf2, hnot, if_false, hinner]

/-! ### Evaluation with and without the set of the path -/

theorem find_mem {D : Type} (sheet : Sheet D) (k : Nat) (v : CustomCValue D)
    (h : sheet.find k = some v) : (k, v) ∈ sheet := by
  induction sheet with
  | nil => simp [Sheet.find] at h
  | cons kv rest ih =>
    obtain ⟨k1, w⟩ := kv
    by_cases hk : k1 = k
    · simp only [Sheet.find, hk, if_true, Option.some.injEq] at h
      rw [hk, h]
      exact List.mem_cons_self _ _
    · simp only [Sheet.find, hk, if_false] at h
      exact List.mem_cons_of_mem _ (ih h)

theorem acyclicSheet_spec {D : Type} (rank : Nat → Nat) (sheet : Sheet D)
    (h : acyclicSheet rank sheet = true) (k : Nat) (prog : Program D)
    (hf : sheet.find k = some (.expr prog)) :
    dependsBelow rank sheet (rank k) none prog = true ∧ finalDepth prog 0 = some 1 := by
  unfold acyclicSheet at h
  rw [List.all_eq_true] at h
  have := h (k, .expr prog) (find_mem sheet k _ hf)
  simpa using this

theorem withPath_done {α : Type} (a : α) (q p : Path) :
    (Outcome.done a q).withPath p = .done a p := rfl

theorem withPath_threw {α : Type} (q p : Path) :
    (Outcome.threw q : Outcome α).withPath p = .threw p := rfl

theorem BinaryOperation_evaluate_path {D : Type} [DoubleOps D] (op : Str)
    (st : List (CValue D)) (p q : Path) :
    BinaryOperation.evaluate op st p = (BinaryOperation.evaluate op st q).withPath p := by
  unfold BinaryOperation.evaluate
  split
  · split <;> rfl
  · rfl

theorem UnaryOperation_evaluate_path {D : Type} [DoubleOps D] (op : Str)
    (st : List (CValue D)) (p q : Path) :
    UnaryOperation.evaluate op st p = (UnaryOperation.evaluate op st q).withPath p := by
  unfold UnaryOperation.evaluate
  split
  · rfl
  · split <;> rfl
  · rfl

theorem cellValue_path {D : Type} (rec rec2 : Program D → Path → Outcome (CValue D))
    (sheet : Sheet D) (id : Nat) (p q : Path)
    (hrec : ∀ prog, sheet.find id = some (.expr prog) →
      rec prog p = (rec2 prog q).withPath p) :
    cellValue rec sheet id p = (cellValue rec2 sheet id q).withPath p := by
  unfold cellValue
  cases hf : sheet.find id with
  | none => rfl
  | some v =>
    cases v with
    | monostate => rfl
    | double d => rfl
    | string s => rfl
    | int i => rfl
    | expr prog =>
      simp only [hrec prog hf]
      cases rec2 prog q <;> rfl

theorem sumBody_path {D : Type} [DoubleOps D] (rec rec2 : Program D → Path → Outcome (CValue D))
    (sheet : Sheet D) (id : Nat) (acc : D × Bool) (p q : Path)
    (hrec : ∀ prog, sheet.find id = some (.expr prog) →
      rec prog p = (rec2 prog q).withPath p) :
    sumBody rec sheet id acc p = (sumBody rec2 sheet id acc q).withPath p := by
  unfold sumBody
  rw [cellValue_path rec rec2 sheet id p q hrec]
  rcases cellValue rec2 sheet id q with ⟨⟨o, v⟩, p2⟩ | _ | _ | _
  · cases o with
    | none => cases v <;> rfl
    | some c => cases c <;> cases v <;> rfl
  · rfl
  · rfl
  · rfl

theorem countBody_path {D : Type} (rec rec2 : Program D → Path → Outcome (CValue D))
    (sheet : Sheet D) (id : Nat) (count : Nat) (p q : Path)
    (hrec : ∀ prog, sheet.find id = some (.expr prog) →
      rec prog p = (rec2 prog q).withPath p) :
    countBody rec sheet id count p = (countBody rec2 sheet id count q).withPath p := by
  unfold countBody
  rw [cellValue_path rec rec2 sheet id p q hrec]
  rcases cellValue rec2 sheet id q with ⟨⟨o, v⟩, p2⟩ | _ | _ | _
  · cases o with
    | none => cases v <;> rfl
    | some c => cases c <;> cases v <;> rfl
  · rfl
  · rfl
  · rfl

theorem extremumBody_path {D : Type} (better : D → D → Bool)
    (rec rec2 : Program D → Path → Outcome (CValue D))
    (sheet : Sheet D) (id : Nat) (best : Option D) (p q : Path)
    (hrec : ∀ prog, sheet.find id = some (.expr prog) →
      rec prog p = (rec2 prog q).withPath p) :
    extremumBody better rec sheet id best p =
      (extremumBody better rec2 sheet id best q).withPath p := by
  unfold extremumBody
  rw [cellValue_path rec rec2 sheet id p q hrec]
  rcases cellValue rec2 sheet id q with ⟨⟨o, v⟩, p2⟩ | _ | _ | _
  · cases o with
    | none => cases v <;> rfl
    | some c => cases c <;> cases v <;> rfl
  · rfl
  · rfl
  · rfl

theorem countvalBody_path {D : Type} [DoubleOps D] (needle : CValue D)
    (rec rec2 : Program D → Path → Outcome (CValue D))
    (sheet : Sheet D) (id : Nat) (count : Nat) (p q : Path)
    (hrec : ∀ prog, sheet.find id = some (.expr prog) →
      rec prog p = (rec2 prog q).withPath p) :
    countvalBody needle rec sheet id count p =
      (countvalBody needle rec2 sheet id count q).withPath p := by
  unfold countvalBody
  rw [cellValue_path rec rec2 sheet id p q hrec]
  rcases cellValue rec2 sheet id q with ⟨⟨o, v⟩, p2⟩ | _ | _ | _
  · cases o with
    | none => cases v <;> cases needle <;> rfl
    | some c => cases c <;> cases v <;> cases needle <;> rfl
  · rfl
  · rfl
  · rfl

theorem foldIndices_path {σ : Type} (body body2 : Nat → σ → Path → Outcome σ)
    (cells : List Nat) (p : Path)
    (hbody : ∀ id ∈ cells, ∀ (s : σ) (q : Path), body id s p = (body2 id s q).withPath p)
    (s : σ) (q : Path) :
    foldIndices body cells s p = (foldIndices body2 cells s q).withPath p := by
  induction cells generalizing s q with
  | nil => rfl
  | cons id rest ih =>
    simp only [foldIndices]
    rw [hbody id (List.mem_cons_self _ _) s q]
    cases body2 id s q with
    | done s1 q1 =>
      simp only [Outcome.withPath]
      exact ih (fun k hk => hbody k (List.mem_cons_of_mem _ hk)) s1 q1
    | threw q1 => rfl
    | undefinedBehaviour => rfl
    | outOfFuel => rfl

theorem bind_withPath {α β : Type} (o o2 : Outcome α) (f g : α → Path → Outcome β)
    (p : Path)
    (ho : o = o2.withPath p) (h : ∀ a q1, f a p = (g a q1).withPath p) :
    o.bind f = (o2.bind g).withPath p := by
  rw [ho]
  cases o2 with
  | done a q1 => exact h a q1
  | threw q1 => rfl
  | undefinedBehaviour => rfl
  | outOfFuel => rfl

theorem FunctionCall_evaluate_noCell {D : Type} [DoubleOps D] (fuel : Nat)
    (rec rec2 : Program D → Path → Outcome (CValue D)) (sheet : Sheet D)
    (name : Str) (n : Nat) (st : List (CValue D)) (p q : Path)
    (h : evaluatesNoCell name n = true) :
    FunctionCall.evaluate fuel rec sheet name n st p =
      (FunctionCall.evaluate fuel rec2 sheet name n st q).withPath p := by
  simp only [evaluatesNoCell, isRangeFunction, Bool.and_eq_true, Bool.not_eq_true',
    Bool.or_eq_false_iff, decide_eq_false_iff_not, Bool.and_eq_false_iff, beq_eq_false_iff_ne,
    ne_eq] at h
  obtain ⟨⟨⟨⟨hsum, hcount⟩, hmin⟩, hmax⟩, hcv⟩ := h
  unfold FunctionCall.evaluate
  by_cases hlen : st.length < n
  · simp only [hlen, if_true]
    rfl
  · simp only [hlen, if_false, hsum, hcount, hmin, hmax]
    refine bind_withPath _ _ _ _ p ?_ (fun _ _ => ?_)
    · split
      · split <;> rfl
      · rfl
    · refine bind_withPath _ _ _ _ p ?_ (fun sr _ => ?_)
      · split
        · split
          · rfl
          · split <;> rfl
          · rfl
        · rfl
      · by_cases hc : name = "countval".toList
        · have hn2 : n ≠ 2 := by
            rcases hcv with h1 | h1
            · exact absurd hc h1
            · exact h1
          simp only [hc, decide_True, if_true, hn2, ne_eq, not_false_eq_true]
          rfl
        · simp only [hc, decide_False, Bool.false_eq_true, if_false]
          split
          · split
            · rfl
            · split <;> rfl
          · rfl

theorem forCells_path {σ : Type} (fuel : Nat) (start stop : CPos)
    (body body2 : Nat → σ → Path → Outcome σ) (init : σ) (p q : Path)
    (hrow : stop.row + 1 < sizeMod) (hcol : stop.column + 1 < sizeMod)
    (hbody : ∀ id ∈ rectangleIds start stop, ∀ (s : σ) (q1 : Path),
      body id s p = (body2 id s q1).withPath p) :
    forCells fuel start stop body init p = (forCells fuel start stop body2 init q).withPath p := by
  rw [forCells_eq_foldIndices fuel start stop body init p hrow hcol,
    forCells_eq_foldIndices fuel start stop body2 init q hrow hcol]
  exact foldIndices_path body body2 _ p hbody init q

theorem FunctionCall_evaluate_range {D : Type} [DoubleOps D] (fuel : Nat)
    (rec rec2 : Program D → Path → Outcome (CValue D)) (sheet : Sheet D)
    (name : Str) (n : Nat) (s : Str) (st0 : List (CValue D)) (p q : Path)
    (h : readsTop name n = true)
    (hr : ∀ start stop, parseRange s = some (start, stop) →
      stop.row + 1 < sizeMod ∧ stop.column + 1 < sizeMod ∧
      ∀ id ∈ rectangleIds start stop, ∀ (prog : Program D) (q1 : Path),
        sheet.find id = some (.expr prog) → rec prog p = (rec2 prog q1).withPath p) :
    FunctionCall.evaluate fuel rec sheet name n (.string s :: st0) p =
      (FunctionCall.evaluate fuel rec2 sheet name n (.string s :: st0) q).withPath p := by
  simp only [readsTop, isRangeFunction, Bool.or_eq_true, Bool.and_eq_true,
    decide_eq_true_eq, beq_iff_eq] at h
  cases hps : parseRange s with
  | none =>
    rcases h with ⟨((h1 | h1) | h1) | h1, hn⟩ | ⟨h1, hn⟩ <;> subst h1 <;> subst hn
    · simp [FunctionCall.evaluate, Outcome.bind, hps, Outcome.withPath]
    · simp [FunctionCall.evaluate, Outcome.bind, hps, Outcome.withPath]
    · simp [FunctionCall.evaluate, Outcome.bind, hps, Outcome.withPath]
    · simp [FunctionCall.evaluate, Outcome.bind, hps, Outcome.withPath]
    · cases st0 <;> simp [FunctionCall.evaluate, Outcome.bind, hps, Outcome.withPath]
  | some sr =>
    obtain ⟨start, stop⟩ := sr
    obtain ⟨hrow, hcol, hcell⟩ := hr start stop hps
    rcases h with ⟨((h1 | h1) | h1) | h1, hn⟩ | ⟨h1, hn⟩ <;> subst h1 <;> subst hn
    · have hf := forCells_path fuel start stop (sumBody rec sheet) (sumBody rec2 sheet)
        (DoubleOps.zero, false) p q hrow hcol
        (fun id hid a q1 => sumBody_path rec rec2 sheet id a p q1
          (fun prog hf => hcell id hid prog q1 hf))
      simp only [FunctionCall.evaluate]
      simp [Outcome.bind, hps, hf]
      generalize forCells fuel start stop (sumBody rec2 sheet) (DoubleOps.zero, false) q = o
      rcases o with ⟨a, q1⟩ | _ | _ | _ <;> simp only [Outcome.withPath]
      split <;> rfl
    · have hf := forCells_path fuel start stop (countBody rec sheet) (countBody rec2 sheet)
        0 p q hrow hcol
        (fun id hid a q1 => countBody_path rec rec2 sheet id a p q1
          (fun prog hf => hcell id hid prog q1 hf))
      simp only [FunctionCall.evaluate]
      simp [Outcome.bind, hps, hf]
      generalize forCells fuel start stop (countBody rec2 sheet) 0 q = o
      rcases o with ⟨a, q1⟩ | _ | _ | _ <;> simp only [Outcome.withPath]
    · have hf := forCells_path fuel start stop
        (extremumBody (fun a b => DoubleOps.lt a b) rec sheet)
        (extremumBody (fun a b => DoubleOps.lt a b) rec2 sheet) none p q hrow hcol
        (fun id hid a q1 => extremumBody_path _ rec rec2 sheet id a p q1
          (fun prog hf => hcell id hid prog q1 hf))
      simp only [FunctionCall.evaluate]
      simp [Outcome.bind, hps, hf]
      generalize forCells fuel start stop
        (extremumBody (fun a b => DoubleOps.lt a b) rec2 sheet) none q = o
      rcases o with ⟨a, q1⟩ | _ | _ | _ <;> simp only [Outcome.withPath]
      split <;> rfl
    · have hf := forCells_path fuel start stop
        (extremumBody (fun a b => DoubleOps.lt b a) rec sheet)
        (extremumBody (fun a b => DoubleOps.lt b a) rec2 sheet) none p q hrow hcol
        (fun id hid a q1 => extremumBody_path _ rec rec2 sheet id a p q1
          (fun prog hf => hcell id hid prog q1 hf))
      simp only [FunctionCall.evaluate]
      simp [Outcome.bind, hps, hf]
      generalize forCells fuel start stop
        (extremumBody (fun a b => DoubleOps.lt b a) rec2 sheet) none q = o
      rcases o with ⟨a, q1⟩ | _ | _ | _ <;> simp only [Outcome.withPath]
      split <;> rfl
    · cases st0 with
      | nil => simp [FunctionCall.evaluate, Outcome.withPath]
      | cons needle st1 =>
        have hf := forCells_path fuel start stop (countvalBody needle rec sheet)
          (countvalBody needle rec2 sheet) 0 p q hrow hcol
          (fun id hid a q1 => countvalBody_path needle rec rec2 sheet id a p q1
            (fun prog hf => hcell id hid prog q1 hf))
        simp only [FunctionCall.evaluate]
        simp [Outcome.bind, hps, hf]
        have hl : ¬ st1.length + 1 + 1 < 2 := by omega
        generalize forCells fuel start stop (countvalBody needle rec2 sheet) 0 q = o
        rcases o with ⟨a, q1⟩ | _ | _ | _ <;> simp only [Outcome.withPath, hl, if_false]

theorem bind_done {α β : Type} (o : Outcome α) (f : α → Path → Outcome β) (b : β)
    (p : Path)
    (h : o.bind f = .done b p) : ∃ a q, o = .done a q ∧ f a q = .done b p := by
  cases o with
  | done a q => exact ⟨a, q, rfl, h⟩
  | threw q => exact absurd h (by simp [Outcome.bind])
  | undefinedBehaviour => exact absurd h (by simp [Outcome.bind])
  | outOfFuel => exact absurd h (by simp [Outcome.bind])

theorem FunctionCall_done {D : Type} [DoubleOps D] (fuel : Nat)
    (rec : Program D → Path → Outcome (CValue D)) (sheet : Sheet D)
    (name : Str) (n : Nat) (st st2 : List (CValue D)) (p p2 : Path)
    (h : FunctionCall.evaluate fuel rec sheet name n st p = .done st2 p2) :
    n ≤ st.length ∧ ∃ x, st2 = x :: st.drop n := by
  unfold FunctionCall.evaluate at h
  by_cases hlen : st.length < n
  · simp only [hlen, if_true] at h
    exact absurd h (by simp)
  · refine ⟨by omega, ?_⟩
    simp only [hlen, if_false] at h
    obtain ⟨_, _, -, h⟩ := bind_done _ _ _ _ h
    obtain ⟨sr, _, -, h⟩ := bind_done _ _ _ _ h
    split at h
    · obtain ⟨acc, q, -, h⟩ := bind_done _ _ _ _ h
      split at h
      · simp only [Outcome.done.injEq] at h
        exact ⟨_, h.1.symm⟩
      · exact absurd h (by simp)
    · split at h
      · obtain ⟨acc, q, -, h⟩ := bind_done _ _ _ _ h
        simp only [Outcome.done.injEq] at h
        exact ⟨_, h.1.symm⟩
      · split at h
        · obtain ⟨acc, q, -, h⟩ := bind_done _ _ _ _ h
          split at h
          · simp only [Outcome.done.injEq] at h
            exact ⟨_, h.1.symm⟩
          · exact absurd h (by simp)
        · split at h
          · obtain ⟨acc, q, -, h⟩ := bind_done _ _ _ _ h
            split at h
            · simp only [Outcome.done.injEq] at h
              exact ⟨_, h.1.symm⟩
            · exact absurd h (by simp)
          · split at h
            · split at h
              · exact absurd h (by simp)
              · split at h
                · exact absurd h (by simp)
                · obtain ⟨acc, q, -, h⟩ := bind_done _ _ _ _ h
                  simp only [Outcome.done.injEq] at h
                  exact ⟨_, h.1.symm⟩
            · split at h
              · split at h
                · exact absurd h (by simp)
                · split at h
                  · simp only [Outcome.done.injEq] at h
                    exact ⟨_, h.1.symm⟩
                  · exact absurd h (by simp)
              · exact absurd h (by simp)

theorem node_depth {D : Type} [DoubleOps D] (fuel : Nat)
    (rec : Program D → Path → Outcome (CValue D)) (sheet : Sheet D) (e : ExprElement D)
    (st st2 : List (CValue D)) (p p2 : Path)
    (h : ExprElement.evaluate fuel rec sheet e st p = .done st2 p2) :
    pops e ≤ st.length ∧ st2.length = st.length + 1 - pops e := by
  cases e with
  | constant v =>
    simp only [ExprElement.evaluate, Outcome.done.injEq] at h
    simp [pops, ← h.1]
  | stringVariable s =>
    simp only [ExprElement.evaluate, Outcome.done.injEq] at h
    simp [pops, ← h.1]
  | range s =>
    simp only [ExprElement.evaluate, Outcome.done.injEq] at h
    simp [pops, ← h.1]
  | binaryOperation op =>
    simp only [ExprElement.evaluate, BinaryOperation.evaluate] at h
    split at h
    · split at h
      · exact absurd h (by simp)
      · exact absurd h (by simp)
      · simp only [Outcome.done.injEq] at h
        simp [pops, ← h.1]
    · exact absurd h (by simp)
  | unaryOperation op =>
    simp only [ExprElement.evaluate, UnaryOperation.evaluate] at h
    split at h
    · exact absurd h (by simp)
    · split at h
      · simp only [Outcome.done.injEq] at h
        simp [pops, ← h.1]
      · exact absurd h (by simp)
    · exact absurd h (by simp)
  | functionCall name n =>
    simp only [ExprElement.evaluate] at h
    obtain ⟨hn, x, hx⟩ := FunctionCall_done fuel rec sheet name n st st2 p p2 h
    refine ⟨hn, ?_⟩
    simp only [pops, hx, List.length_cons, List.length_drop]
    omega
  | reference r =>
    simp only [ExprElement.evaluate, Reference.evaluate] at h
    split at h
    · exact absurd h (by simp)
    · simp only [Outcome.done.injEq] at h
      simp [pops, ← h.1]
    · simp only [Outcome.done.injEq] at h
      simp [pops, ← h.1]
    · split at h
      · exact absurd h (by simp)
      · split at h
        · simp only [Outcome.done.injEq] at h
          simp [pops, ← h.1]
        · exact absurd h (by simp)
        · exact absurd h (by simp)
        · exact absurd h (by simp)
    · exact absurd h (by simp)

theorem run_depth {D : Type} [DoubleOps D] (fuel : Nat)
    (rec : Program D → Path → Outcome (CValue D)) (sheet : Sheet D) (prog : Program D)
    (st st2 : List (CValue D)) (p p2 : Path)
    (h : runNodes (ExprElement.evaluate fuel rec sheet) prog st p = .done st2 p2) :
    finalDepth prog st.length = some st2.length := by
  induction prog generalizing st p with
  | nil =>
    simp only [runNodes, Outcome.done.injEq] at h
    simp [finalDepth, h.1]
  | cons e es ih =>
    simp only [runNodes] at h
    cases hn : ExprElement.evaluate fuel rec sheet e st p with
    | done st1 p1 =>
      rw [hn] at h
      obtain ⟨h1, h2⟩ := node_depth fuel rec sheet e st st1 p p1 hn
      simp only [finalDepth, h1, if_true, ← h2]
      exact ih st1 p1 h
    | threw q => rw [hn] at h; exact absurd h (by simp)
    | undefinedBehaviour => rw [hn] at h; exact absurd h (by simp)
    | outOfFuel => rw [hn] at h; exact absurd h (by simp)

theorem evaluateExpression_not_threw {D : Type} [DoubleOps D] (fuel : Nat) (sheet : Sheet D)
    (prog : Program D) (p q : Path) (hd : finalDepth prog 0 = some 1) :
    evaluateExpression fuel sheet prog p ≠ .threw q := by
  cases fuel with
  | zero => simp [evaluateExpression]
  | succ f =>
    rw [evaluateExpression_succ]
    cases hr : runNodes (ExprElement.evaluate (f + 1) (evaluateExpression f sheet) sheet) prog
        [] p with
    | done st p1 =>
      have h := run_depth _ _ _ _ _ _ _ _ hr
      simp only [List.length_nil, hd, Option.some.injEq] at h
      match st, h with
      | [v], _ => simp
    | threw q1 => simp
    | undefinedBehaviour => simp
    | outOfFuel => simp

theorem filter_ne_of_not_mem (id : Nat) (p : Path) (h : id ∉ p) :
    (id :: p).filter (fun k => k != id) = p := by
  have hp : p.filter (fun k => k != id) = p := by
    rw [List.filter_eq_self]
    intro k hk
    simp only [bne_iff_ne, ne_eq]
    intro he
    exact h (he ▸ hk)
  simp [List.filter_cons, hp]

theorem plainEvaluate_succ {D : Type} [DoubleOps D] (fuel : Nat) (sheet : Sheet D)
    (exprStack : Program D) :
    plainEvaluate (fuel + 1) sheet exprStack =
      match runNodes
          (fun e st _ =>
            ExprElement.evaluatePlain (fuel + 1) (plainEvaluate fuel sheet) sheet e st)
          exprStack [] [] with
      | .done [result] _ => .done result []
      | .done _ _ => .threw []
      | .threw _ => .done .monostate []
      | .undefinedBehaviour => .undefinedBehaviour
      | .outOfFuel => .outOfFuel := rfl

theorem runNodes_eq_plain {D : Type} [DoubleOps D] (rank : Nat → Nat) (sheet : Sheet D)
    (hacyc : acyclicSheet rank sheet = true) (fuel m : Nat) (p : Path)
    (hp : ∀ x ∈ p, m ≤ rank x)
    (ih : ∀ (c : Nat) (prog : Program D) (p1 : Path), sheet.find c = some (.expr prog) →
      (∀ x ∈ p1, rank c ≤ rank x) →
      evaluateExpression fuel sheet prog p1 = (plainEvaluate fuel sheet prog).withPath p1)
    (prog : Program D) :
    ∀ (top : Option Str) (st : List (CValue D)) (q : Path),
      dependsBelow rank sheet m top prog = true →
      (∀ s, top = some s → ∃ st0, st = .string s :: st0) →
      runNodes (ExprElement.evaluate (fuel + 1) (evaluateExpression fuel sheet) sheet) prog st p =
        (runNodes (fun e st _ =>
          ExprElement.evaluatePlain (fuel + 1) (plainEvaluate fuel sheet) sheet e st)
          prog st q).withPath p := by
  induction prog with
  | nil =>
    intro top st q _ _
    rfl
  | cons e es ihp =>
    intro top st q hdep htop
    -- the relation for the first node, and what is known for the rest
    have key : ∃ top2 : Option Str,
        dependsBelow rank sheet m top2 es = true ∧
        ExprElement.evaluate (fuel + 1) (evaluateExpression fuel sheet) sheet e st p =
          (ExprElement.evaluatePlain (fuel + 1) (plainEvaluate fuel sheet) sheet e st).withPath
            p ∧
        ∀ st1 q1, ExprElement.evaluatePlain (fuel + 1) (plainEvaluate fuel sheet) sheet e st =
          .done st1 q1 → ∀ s, top2 = some s → ∃ st0, st1 = .string s :: st0 := by
      cases e with
      | constant v =>
        exact ⟨none, by simpa [dependsBelow] using hdep, rfl, fun _ _ _ s hs => by simp at hs⟩
      | stringVariable s0 =>
        exact ⟨none, by simpa [dependsBelow] using hdep, rfl, fun _ _ _ s hs => by simp at hs⟩
      | binaryOperation op =>
        exact ⟨none, by simpa [dependsBelow] using hdep,
          BinaryOperation_evaluate_path op st p [], fun _ _ _ s hs => by simp at hs⟩
      | unaryOperation op =>
        exact ⟨none, by simpa [dependsBelow] using hdep,
          UnaryOperation_evaluate_path op st p [], fun _ _ _ s hs => by simp at hs⟩
      | range s0 =>
        refine ⟨some s0, by simpa [dependsBelow] using hdep, rfl, ?_⟩
        intro st1 q1 h s hs
        simp only [ExprElement.evaluatePlain, ExprElement.evaluate, Outcome.done.injEq] at h
        simp only [Option.some.injEq] at hs
        exact ⟨st, by rw [← h.1, hs]⟩
      | functionCall name n =>
        simp only [dependsBelow, Bool.and_eq_true, Bool.or_eq_true] at hdep
        refine ⟨none, hdep.2, ?_, fun _ _ _ s hs => by simp at hs⟩
        simp only [ExprElement.evaluate, ExprElement.evaluatePlain]
        rcases hdep.1 with hno | ⟨hread, hrange⟩
        · exact FunctionCall_evaluate_noCell _ _ _ sheet name n st p [] hno
        · cases top with
          | none => exact absurd hrange (by simp)
          | some s =>
            obtain ⟨st0, hst⟩ := htop s rfl
            subst hst
            refine FunctionCall_evaluate_range _ _ _ sheet name n s st0 p [] hread ?_
            intro start stop hps
            simp only [rangeBelow, hps, Bool.and_eq_true, decide_eq_true_eq,
              List.all_eq_true, Bool.or_eq_true, Bool.not_eq_true'] at hrange
            refine ⟨hrange.1.1, hrange.1.2, ?_⟩
            intro id hid progc q1 hf
            have hhold : holdsProgram sheet id = true := by simp [holdsProgram, hf]
            have hlt : rank id < m := by
              rcases hrange.2 id hid with h1 | h1
              · rw [hhold] at h1
                exact absurd h1 (by simp)
              · exact h1
            exact ih id progc p hf (fun x hx => by have := hp x hx; omega)
      | reference r =>
        simp only [dependsBelow, Bool.and_eq_true, Bool.or_eq_true, Bool.not_eq_true',
          decide_eq_true_eq] at hdep
        refine ⟨none, hdep.2, ?_, fun _ _ _ s hs => by simp at hs⟩
        simp only [ExprElement.evaluate, ExprElement.evaluatePlain, Reference.evaluate,
          Reference.evaluatePlain]
        cases hf : sheet.find (CPos.getUniqueId ⟨r.column, r.row⟩) with
        | none => rfl
        | some v =>
          cases v with
          | monostate => rfl
          | double d => rfl
          | string s0 => rfl
          | int i => rfl
          | expr progt =>
            have hhold : holdsProgram sheet (CPos.getUniqueId ⟨r.column, r.row⟩) = true := by
              simp [holdsProgram, hf]
            have hlt : rank (CPos.getUniqueId ⟨r.column, r.row⟩) < m := by
              rcases hdep.1 with h1 | h1
              · rw [hhold] at h1
                exact absurd h1 (by simp)
              · exact h1
            have hnot : CPos.getUniqueId ⟨r.column, r.row⟩ ∉ p := by
              intro hmem
              have := hp _ hmem
              omega
            have hnested := ih _ progt (CPos.getUniqueId ⟨r.column, r.row⟩ :: p) hf
              (fun x hx => by
                rcases List.mem_cons.mp hx with h1 | h1
                · rw [h1]
                · have := hp x h1
                  omega)
            have hdepth := (acyclicSheet_spec rank sheet hacyc _ progt hf).2
            have hthrew := evaluateExpression_not_threw fuel sheet progt
              (CPos.getUniqueId ⟨r.column, r.row⟩ :: p)
            simp only [hnot, if_false]
            rw [hnested] at hthrew ⊢
            cases hpl : plainEvaluate fuel sheet progt with
            | done v q1 =>
              simp only [Outcome.withPath, filter_ne_of_not_mem _ p hnot]
            | threw q1 =>
              rw [hpl] at hthrew
              exact absurd rfl (hthrew _ hdepth)
            | undefinedBehaviour => rfl
            | outOfFuel => rfl
    obtain ⟨top2, hdep2, hnode, htop2⟩ := key
    simp only [runNodes]
    rw [hnode]
    cases hpl : ExprElement.evaluatePlain (fuel + 1) (plainEvaluate fuel sheet) sheet e st with
    | done st1 q1 =>
      simp only [Outcome.withPath]
      exact ihp top2 st1 q1 hdep2 (htop2 st1 q1 hpl)
    | threw q1 => rfl
    | undefinedBehaviour => rfl
    | outOfFuel => rfl

theorem evaluateExpression_eq_plain {D : Type} [DoubleOps D] (rank : Nat → Nat)
    (sheet : Sheet D) (hacyc : acyclicSheet rank sheet = true) (fuel : Nat) :
    ∀ (c : Nat) (prog : Program D) (p : Path), sheet.find c = some (.expr prog) →
      (∀ x ∈ p, rank c ≤ rank x) →
      evaluateExpression fuel sheet prog p = (plainEvaluate fuel sheet prog).withPath p := by
  induction fuel with
  | zero =>
    intro c prog p _ _
    rfl
  | succ f ih =>
    intro c prog p hf hp
    have hdep := (acyclicSheet_spec rank sheet hacyc c prog hf).1
    have hrun := runNodes_eq_plain rank sheet hacyc f (rank c) p hp ih prog none [] [] hdep
      (fun s hs => by simp at hs)
    rw [evaluateExpression_succ, plainEvaluate_succ, hrun]
    cases runNodes (fun e st _ =>
        ExprElement.evaluatePlain (f + 1) (plainEvaluate f sheet) sheet e st) prog [] [] with
    | done st q =>
      match st with
      | [] => rfl
      | [v] => rfl
      | _ :: _ :: _ => rfl
    | threw q => rfl
    | undefinedBehaviour => rfl
    | outOfFuel => rfl

/-! ### Enough fuel on a sheet without cycles -/

theorem bind_outOfFuel {α β : Type} (o : Outcome α) (f : α → Path → Outcome β)
    (h : o.bind f = .outOfFuel) :
    o = .outOfFuel ∨ ∃ a q, o = .done a q ∧ f a q = .outOfFuel := by
  cases o with
  | done a q => exact Or.inr ⟨a, q, rfl, h⟩
  | threw q => exact absurd h (by simp [Outcome.bind])
  | undefinedBehaviour => exact absurd h (by simp [Outcome.bind])
  | outOfFuel => exact Or.inl rfl

theorem foldIndices_not_outOfFuel {σ : Type} (body : Nat → σ → Path → Outcome σ)
    (cells : List Nat)
    (hbody : ∀ id ∈ cells, ∀ (s : σ) (q : Path), body id s q ≠ .outOfFuel)
    (s : σ) (p : Path) : foldIndices body cells s p ≠ .outOfFuel := by
  induction cells generalizing s p with
  | nil => simp [foldIndices]
  | cons id rest ih =>
    simp only [foldIndices]
    cases hb : body id s p with
    | done s1 p1 => exact ih (fun k hk => hbody k (List.mem_cons_of_mem _ hk)) s1 p1
    | threw q => simp
    | undefinedBehaviour => simp
    | outOfFuel => exact absurd hb (hbody id (List.mem_cons_self _ _) s p)

theorem cellValue_not_outOfFuel {D : Type} (rec : Program D → Path → Outcome (CValue D))
    (sheet : Sheet D) (id : Nat) (p : Path)
    (hrec : ∀ prog, sheet.find id = some (.expr prog) → rec prog p ≠ .outOfFuel) :
    cellValue rec sheet id p ≠ .outOfFuel := by
  unfold cellValue
  cases hf : sheet.find id with
  | none => simp
  | some v =>
    cases v with
    | monostate => simp
    | double d => simp
    | string s => simp
    | int i => simp
    | expr prog =>
      have := hrec prog hf
      cases hr : rec prog p with
      | done a q => simp [hr]
      | threw q => simp [hr]
      | undefinedBehaviour => simp [hr]
      | outOfFuel => exact absurd hr this

theorem sumBody_not_outOfFuel {D : Type} [DoubleOps D]
    (rec : Program D → Path → Outcome (CValue D)) (sheet : Sheet D) (id : Nat)
    (acc : D × Bool) (p : Path)
    (hrec : ∀ prog, sheet.find id = some (.expr prog) → rec prog p ≠ .outOfFuel) :
    sumBody rec sheet id acc p ≠ .outOfFuel := by
  have h := cellValue_not_outOfFuel rec sheet id p hrec
  unfold sumBody
  rcases hc : cellValue rec sheet id p with ⟨⟨o, v⟩, p2⟩ | _ | _ | _
  · cases o with
    | none => cases v <;> simp
    | some c => cases c <;> cases v <;> simp
  · simp
  · simp
  · exact absurd hc h

theorem countBody_not_outOfFuel {D : Type}
    (rec : Program D → Path → Outcome (CValue D)) (sheet : Sheet D) (id : Nat)
    (count : Nat) (p : Path)
    (hrec : ∀ prog, sheet.find id = some (.expr prog) → rec prog p ≠ .outOfFuel) :
    countBody rec sheet id count p ≠ .outOfFuel := by
  have h := cellValue_not_outOfFuel rec sheet id p hrec
  unfold countBody
  rcases hc : cellValue rec sheet id p with ⟨⟨o, v⟩, p2⟩ | _ | _ | _
  · cases o with
    | none => cases v <;> simp
    | some c => cases c <;> cases v <;> simp
  · simp
  · simp
  · exact absurd hc h

theorem extremumBody_not_outOfFuel {D : Type} (better : D → D → Bool)
    (rec : Program D → Path → Outcome (CValue D)) (sheet : Sheet D) (id : Nat)
    (best : Option D) (p : Path)
    (hrec : ∀ prog, sheet.find id = some (.expr prog) → rec prog p ≠ .outOfFuel) :
    extremumBody better rec sheet id best p ≠ .outOfFuel := by
  have h := cellValue_not_outOfFuel rec sheet id p hrec
  unfold extremumBody
  rcases hc : cellValue rec sheet id p with ⟨⟨o, v⟩, p2⟩ | _ | _ | _
  · cases o with
    | none => cases v <;> simp
    | some c => cases c <;> cases v <;> simp
  · simp
  · simp
  · exact absurd hc h

theorem countvalBody_not_outOfFuel {D : Type} [DoubleOps D] (needle : CValue D)
    (rec : Program D → Path → Outcome (CValue D)) (sheet : Sheet D) (id : Nat)
    (count : Nat) (p : Path)
    (hrec : ∀ prog, sheet.find id = some (.expr prog) → rec prog p ≠ .outOfFuel) :
    countvalBody needle rec sheet id count p ≠ .outOfFuel := by
  have h := cellValue_not_outOfFuel rec sheet id p hrec
  unfold countvalBody
  rcases hc : cellValue rec sheet id p with ⟨⟨o, v⟩, p2⟩ | _ | _ | _
  · cases o with
    | none => cases v <;> cases needle <;> simp
    | some c => cases c <;> cases v <;> cases needle <;> simp
  · simp
  · simp
  · exact absurd hc h

theorem forCells_not_outOfFuel {σ : Type} (fuel : Nat) (start stop : CPos)
    (body : Nat → σ → Path → Outcome σ) (init : σ) (p : Path)
    (hrow : stop.row + 1 < sizeMod) (hcol : stop.column + 1 < sizeMod)
    (hbody : ∀ id ∈ rectangleIds start stop, ∀ (s : σ) (q : Path),
      body id s q ≠ .outOfFuel) :
    forCells fuel start stop body init p ≠ .outOfFuel := by
  rw [forCells_eq_foldIndices fuel start stop body init p hrow hcol]
  exact foldIndices_not_outOfFuel body _ hbody init p

theorem bind_not_outOfFuel {α β : Type} (o : Outcome α) (f : α → Path → Outcome β)
    (ho : o ≠ .outOfFuel) (hf : ∀ a q, f a q ≠ .outOfFuel) : o.bind f ≠ .outOfFuel := by
  intro h
  rcases bind_outOfFuel o f h with h1 | ⟨a, q, -, h1⟩
  · exact ho h1
  · exact hf a q h1

theorem FunctionCall_noCell_not_outOfFuel {D : Type} [DoubleOps D] (fuel : Nat)
    (rec : Program D → Path → Outcome (CValue D)) (sheet : Sheet D)
    (name : Str) (n : Nat) (st : List (CValue D)) (p : Path)
    (h : evaluatesNoCell name n = true) :
    FunctionCall.evaluate fuel rec sheet name n st p ≠ .outOfFuel := by
  simp only [evaluatesNoCell, isRangeFunction, Bool.and_eq_true, Bool.not_eq_true',
    Bool.or_eq_false_iff, decide_eq_false_iff_not, Bool.and_eq_false_iff, beq_eq_false_iff_ne,
    ne_eq] at h
  obtain ⟨⟨⟨⟨hsum, hcount⟩, hmin⟩, hmax⟩, hcv⟩ := h
  unfold FunctionCall.evaluate
  by_cases hlen : st.length < n
  · simp only [hlen, if_true]
    simp
  · simp only [hlen, if_false, hsum, hcount, hmin, hmax]
    refine bind_not_outOfFuel _ _ ?_ (fun _ _ => ?_)
    · split
      · split <;> simp
      · simp
    · refine bind_not_outOfFuel _ _ ?_ (fun sr _ => ?_)
      · split
        · split
          · simp
          · split <;> simp
          · simp
        · simp
      · by_cases hc : name = "countval".toList
        · have hn2 : n ≠ 2 := by
            rcases hcv with h1 | h1
            · exact absurd hc h1
            · exact h1
          simp only [hc, decide_True, if_true, hn2, ne_eq, not_false_eq_true]
          simp
        · simp only [hc, decide_False, Bool.false_eq_true, if_false]
          split
          · split
            · simp
            · split <;> simp
          · simp

theorem FunctionCall_range_not_outOfFuel {D : Type} [DoubleOps D] (fuel : Nat)
    (rec : Program D → Path → Outcome (CValue D)) (sheet : Sheet D)
    (name : Str) (n : Nat) (s : Str) (st0 : List (CValue D)) (p : Path)
    (h : readsTop name n = true)
    (hr : ∀ start stop, parseRange s = some (start, stop) →
      stop.row + 1 < sizeMod ∧ stop.column + 1 < sizeMod ∧
      ∀ id ∈ rectangleIds start stop, ∀ (prog : Program D) (q1 : Path),
        sheet.find id = some (.expr prog) → rec prog q1 ≠ .outOfFuel) :
    FunctionCall.evaluate fuel rec sheet name n (.string s :: st0) p ≠ .outOfFuel := by
  simp only [readsTop, isRangeFunction, Bool.or_eq_true, Bool.and_eq_true,
    decide_eq_true_eq, beq_iff_eq] at h
  cases hps : parseRange s with
  | none =>
    rcases h with ⟨((h1 | h1) | h1) | h1, hn⟩ | ⟨h1, hn⟩ <;> subst h1 <;> subst hn
    · simp [FunctionCall.evaluate, Outcome.bind, hps]
    · simp [FunctionCall.evaluate, Outcome.bind, hps]
    · simp [FunctionCall.evaluate, Outcome.bind, hps]
    · simp [FunctionCall.evaluate, Outcome.bind, hps]
    · cases st0 <;> simp [FunctionCall.evaluate, Outcome.bind, hps]
  | some sr =>
    obtain ⟨start, stop⟩ := sr
    obtain ⟨hrow, hcol, hcell⟩ := hr start stop hps
    rcases h with ⟨((h1 | h1) | h1) | h1, hn⟩ | ⟨h1, hn⟩ <;> subst h1 <;> subst hn
    · have hf := forCells_not_outOfFuel fuel start stop (sumBody rec sheet)
        (DoubleOps.zero, false) p hrow hcol
        (fun id hid a q1 => sumBody_not_outOfFuel rec sheet id a q1
          (fun prog hf => hcell id hid prog q1 hf))
      simp only [FunctionCall.evaluate]
      simp [Outcome.bind, hps]
      generalize forCells fuel start stop (sumBody rec sheet) (DoubleOps.zero, false) p = o at hf
      rcases o with ⟨a, q1⟩ | _ | _ | _ <;> simp at hf ⊢
      split <;> simp
    · have hf := forCells_not_outOfFuel fuel start stop (countBody rec sheet)
        0 p hrow hcol
        (fun id hid a q1 => countBody_not_outOfFuel rec sheet id a q1
          (fun prog hf => hcell id hid prog q1 hf))
      simp only [FunctionCall.evaluate]
      simp [Outcome.bind, hps]
      generalize forCells fuel start stop (countBody rec sheet) 0 p = o at hf
      rcases o with ⟨a, q1⟩ | _ | _ | _ <;> simp at hf ⊢
    · have hf := forCells_not_outOfFuel fuel start stop
        (extremumBody (fun a b => DoubleOps.lt a b) rec sheet) none p hrow hcol
        (fun id hid a q1 => extremumBody_not_outOfFuel _ rec sheet id a q1
          (fun prog hf => hcell id hid prog q1 hf))
      simp only [FunctionCall.evaluate]
      simp [Outcome.bind, hps]
      generalize forCells fuel start stop
        (extremumBody (fun a b => DoubleOps.lt a b) rec sheet) none p = o at hf
      rcases o with ⟨a, q1⟩ | _ | _ | _ <;> simp at hf ⊢
      split <;> simp
    · have hf := forCells_not_outOfFuel fuel start stop
        (extremumBody (fun a b => DoubleOps.lt b a) rec sheet) none p hrow hcol
        (fun id hid a q1 => extremumBody_not_outOfFuel _ rec sheet id a q1
          (fun prog hf => hcell id hid prog q1 hf))
      simp only [FunctionCall.evaluate]
      simp [Outcome.bind, hps]
      generalize forCells fuel start stop
        (extremumBody (fun a b => DoubleOps.lt b a) rec sheet) none p = o at hf
      rcases o with ⟨a, q1⟩ | _ | _ | _ <;> simp at hf ⊢
      split <;> simp
    · cases st0 with
      | nil => simp [FunctionCall.evaluate]
      | cons needle st1 =>
        have hf := forCells_not_outOfFuel fuel start stop (countvalBody needle rec sheet)
          0 p hrow hcol
          (fun id hid a q1 => countvalBody_not_outOfFuel needle rec sheet id a q1
            (fun prog hf => hcell id hid prog q1 hf))
        simp only [FunctionCall.evaluate]
        simp [Outcome.bind, hps]
        have hl : ¬ st1.length + 1 + 1 < 2 := by omega
        generalize forCells fuel start stop (countvalBody needle rec sheet) 0 p = o at hf
        rcases o with ⟨a, q1⟩ | _ | _ | _ <;> simp [hl] at hf ⊢

theorem BinaryOperation_not_outOfFuel {D : Type} [DoubleOps D] (op : Str)
    (st : List (CValue D)) (p : Path) : BinaryOperation.evaluate op st p ≠ .outOfFuel := by
  unfold BinaryOperation.evaluate
  split
  · split <;> simp
  · simp

theorem UnaryOperation_not_outOfFuel {D : Type} [DoubleOps D] (op : Str)
    (st : List (CValue D)) (p : Path) : UnaryOperation.evaluate op st p ≠ .outOfFuel := by
  unfold UnaryOperation.evaluate
  split
  · simp
  · split <;> simp
  · simp

theorem runNodes_not_outOfFuel {D : Type} [DoubleOps D] (rank : Nat → Nat) (sheet : Sheet D)
    (fuel m : Nat)
    (ih : ∀ (c : Nat) (prog : Program D) (p1 : Path), sheet.find c = some (.expr prog) →
      rank c < m → evaluateExpression fuel sheet prog p1 ≠ .outOfFuel)
    (prog : Program D) :
    ∀ (top : Option Str) (st : List (CValue D)) (p : Path),
      dependsBelow rank sheet m top prog = true →
      (∀ s, top = some s → ∃ st0, st = .string s :: st0) →
      runNodes (ExprElement.evaluate (fuel + 1) (evaluateExpression fuel sheet) sheet) prog st p ≠
        .outOfFuel := by
  induction prog with
  | nil =>
    intro top st p _ _
    simp [runNodes]
  | cons e es ihp =>
    intro top st p hdep htop
    have key : ∃ top2 : Option Str,
        dependsBelow rank sheet m top2 es = true ∧
        ExprElement.evaluate (fuel + 1) (evaluateExpression fuel sheet) sheet e st p ≠
          .outOfFuel ∧
        ∀ st1 q1, ExprElement.evaluate (fuel + 1) (evaluateExpression fuel sheet) sheet e st p =
          .done st1 q1 → ∀ s, top2 = some s → ∃ st0, st1 = .string s :: st0 := by
      cases e with
      | constant v =>
        exact ⟨none, by simpa [dependsBelow] using hdep, by simp [ExprElement.evaluate],
          fun _ _ _ s hs => by simp at hs⟩
      | stringVariable s0 =>
        exact ⟨none, by simpa [dependsBelow] using hdep, by simp [ExprElement.evaluate],
          fun _ _ _ s hs => by simp at hs⟩
      | binaryOperation op =>
        exact ⟨none, by simpa [dependsBelow] using hdep,
          BinaryOperation_not_outOfFuel op st p, fun _ _ _ s hs => by simp at hs⟩
      | unaryOperation op =>
        exact ⟨none, by simpa [dependsBelow] using hdep,
          UnaryOperation_not_outOfFuel op st p, fun _ _ _ s hs => by simp at hs⟩
      | range s0 =>
        refine ⟨some s0, by simpa [dependsBelow] using hdep, by simp [ExprElement.evaluate], ?_⟩
        intro st1 q1 h s hs
        simp only [ExprElement.evaluate, Outcome.done.injEq] at h
        simp only [Option.some.injEq] at hs
        exact ⟨st, by rw [← h.1, hs]⟩
      | functionCall name n =>
        simp only [dependsBelow, Bool.and_eq_true, Bool.or_eq_true] at hdep
        refine ⟨none, hdep.2, ?_, fun _ _ _ s hs => by simp at hs⟩
        simp only [ExprElement.evaluate]
        rcases hdep.1 with hno | ⟨hread, hrange⟩
        · exact FunctionCall_noCell_not_outOfFuel _ _ sheet name n st p hno
        · cases top with
          | none => exact absurd hrange (by simp)
          | some s =>
            obtain ⟨st0, hst⟩ := htop s rfl
            subst hst
            refine FunctionCall_range_not_outOfFuel _ _ sheet name n s st0 p hread ?_
            intro start stop hps
            simp only [rangeBelow, hps, Bool.and_eq_true, decide_eq_true_eq,
              List.all_eq_true, Bool.or_eq_true, Bool.not_eq_true'] at hrange
            refine ⟨hrange.1.1, hrange.1.2, ?_⟩
            intro id hid progc q1 hf
            have hhold : holdsProgram sheet id = true := by simp [holdsProgram, hf]
            have hlt : rank id < m := by
              rcases hrange.2 id hid with h1 | h1
              · rw [hhold] at h1
                exact absurd h1 (by simp)
              · exact h1
            exact ih id progc q1 hf hlt
      | reference r =>
        simp only [dependsBelow, Bool.and_eq_true, Bool.or_eq_true, Bool.not_eq_true',
          decide_eq_true_eq] at hdep
        refine ⟨none, hdep.2, ?_, fun _ _ _ s hs => by simp at hs⟩
        simp only [ExprElement.evaluate, Reference.evaluate]
        cases hf : sheet.find (CPos.getUniqueId ⟨r.column, r.row⟩) with
        | none => simp
        | some v =>
          cases v with
          | monostate => simp
          | double d => simp
          | string s0 => simp
          | int i => simp
          | expr progt =>
            have hhold : holdsProgram sheet (CPos.getUniqueId ⟨r.column, r.row⟩) = true := by
              simp [holdsProgram, hf]
            have hlt : rank (CPos.getUniqueId ⟨r.column, r.row⟩) < m := by
              rcases hdep.1 with h1 | h1
              · rw [hhold] at h1
                exact absurd h1 (by simp)
              · exact h1
            have hnested := ih _ progt (CPos.getUniqueId ⟨r.column, r.row⟩ :: p) hf hlt
            simp only
            split
            · simp
            · cases hev : evaluateExpression fuel sheet progt
                (CPos.getUniqueId ⟨r.column, r.row⟩ :: p) with
              | done v q1 => simp
              | threw q1 => simp
              | undefinedBehaviour => simp
              | outOfFuel => exact absurd hev hnested
    obtain ⟨top2, hdep2, hnode, htop2⟩ := key
    simp only [runNodes]
    cases hev : ExprElement.evaluate (fuel + 1) (evaluateExpression fuel sheet) sheet e st p with
    | done st1 q1 =>
      simp only
      exact ihp top2 st1 q1 hdep2 (htop2 st1 q1 hev)
    | threw q1 => simp
    | undefinedBehaviour => simp
    | outOfFuel => exact absurd hev hnode

theorem evaluateExpression_not_outOfFuel {D : Type} [DoubleOps D] (rank : Nat → Nat)
    (sheet : Sheet D) (hacyc : acyclicSheet rank sheet = true) (fuel : Nat) :
    ∀ (c : Nat) (prog : Program D) (p : Path), sheet.find c = some (.expr prog) →
      rank c < fuel → evaluateExpression fuel sheet prog p ≠ .outOfFuel := by
  induction fuel with
  | zero =>
    intro c prog p _ h
    omega
  | succ f ih =>
    intro c prog p hf hlt
    have hdep := (acyclicSheet_spec rank sheet hacyc c prog hf).1
    have hrun := runNodes_not_outOfFuel rank sheet f (rank c)
      (fun t progt p1 ht hr => ih t progt p1 ht (by omega)) prog none [] p hdep
      (fun s hs => by simp at hs)
    rw [evaluateExpression_succ]
    cases hr : runNodes (ExprElement.evaluate (f + 1) (evaluateExpression f sheet) sheet)
        prog [] p with
    | done st q =>
      match st with
      | [] => simp
      | [v] => simp
      | _ :: _ :: _ => simp
    | threw q => simp
    | undefinedBehaviour => simp
    | outOfFuel => exact absurd hr hrun

/-- Claim C35: on a sheet without reference cycles, ranked so that every program reads only
cells of lower rank, `getValue` called with an empty path gives what plain recursive
evaluation gives, at every fuel, and with more fuel than the rank of the cell it returns. -/
theorem getValue_eq_plainGetValue {D : Type} [DoubleOps D] (rank : Nat → Nat) (sheet : Sheet D)
    (fuel : Nat) (pos : CPos) (hacyc : acyclicSheet rank sheet = true) :
    getValue fuel sheet [] pos = plainGetValue fuel sheet pos ∧
      (rank pos.getUniqueId < fuel → getValue fuel sheet [] pos ≠ .outOfFuel) := by
  cases hf : sheet.find pos.getUniqueId with
  | none => simp [getValue, plainGetValue, hf]
  | some v =>
    cases v with
    | monostate => simp [getValue, plainGetValue, hf]
    | double d => simp [getValue, plainGetValue, hf]
    | string s => simp [getValue, plainGetValue, hf]
    | int i => simp [getValue, plainGetValue, hf]
    | expr prog =>
      have hrel := evaluateExpression_eq_plain rank sheet hacyc fuel pos.getUniqueId prog
        [pos.getUniqueId] hf (fun x hx => by
          rw [List.mem_singleton.mp hx])
      have hterm := evaluateExpression_not_outOfFuel rank sheet hacyc fuel pos.getUniqueId prog
        [pos.getUniqueId] hf
      simp only [getValue, plainGetValue, hf, List.not_mem_nil, if_false]
      rw [hrel] at hterm ⊢
      cases hpl : plainEvaluate fuel sheet prog with
      | done v q => simp [Outcome.withPath]
      | threw q => simp [Outcome.withPath]
      | undefinedBehaviour => simp [Outcome.withPath]
      | outOfFuel =>
        rw [hpl] at hterm
        simp [Outcome.withPath] at hterm ⊢
        exact hterm

/-- The theorem `getValue_eq_plainGetValue` applies to the sheet `chainSheet` and its cell
B6, whose value is 4. -/
theorem getValue_eq_plainGetValue_witness :
    acyclicSheet chainRank chainSheet = true ∧
      (getValue 3 chainSheet [] ⟨2, 6⟩ = plainGetValue 3 chainSheet ⟨2, 6⟩ ∧
        (chainRank (CPos.getUniqueId ⟨2, 6⟩) < 3 →
          getValue 3 chainSheet [] ⟨2, 6⟩ ≠ .outOfFuel)) :=
  ⟨by decide, getValue_eq_plainGetValue chainRank chainSheet 3 ⟨2, 6⟩ (by decide)⟩

/-! ### The order of the operands -/

/-- Claim C36: the nodes run in the order of the program, a binary operator takes the value
pushed earlier as its left operand and a function sees its arguments in the order of the
formula: the program `[Constant a, Constant b, BinaryOperation -]` evaluates to `a - b` and
the program `[Constant 1, Constant a, Constant b, Function if 3]` evaluates to `a`, the number
`1.0` being different from `0.0`. -/
theorem evaluateExpression_operand_order {D : Type} [DoubleOps D] (fuel : Nat)
    (sheet : Sheet D) (a b : D) (path : Path)
    (hone : DoubleOps.eq (DoubleOps.one : D) DoubleOps.zero = false) :
    evaluateExpression (fuel + 1) sheet
        [.constant a, .constant b, .binaryOperation "-".toList] path =
      .done (.double (DoubleOps.sub a b)) path ∧
    evaluateExpression (fuel + 1) sheet
        [.constant DoubleOps.one, .constant a, .constant b, .functionCall "if".toList 3] path =
      .done (.double a) path := by
  constructor
  · rw [evaluateExpression_succ]
    simp [runNodes, ExprElement.evaluate, BinaryOperation.evaluate, perform]
  · rw [evaluateExpression_succ]
    simp [runNodes, ExprElement.evaluate, FunctionCall.evaluate, Outcome.bind, hone]

/-- The theorem `evaluateExpression_operand_order` applies to the numbers 7 and 2 on the
empty sheet. -/
theorem evaluateExpression_operand_order_witness :
    evaluateExpression 1 emptySheet
        [.constant 7, .constant 2, .binaryOperation "-".toList] [] =
      .done (.double (DoubleOps.sub 7 2)) [] ∧
    evaluateExpression 1 emptySheet
        [.constant DoubleOps.one, .constant 7, .constant 2, .functionCall "if".toList 3] [] =
      .done (.double 7) [] :=
  evaluateExpression_operand_order 0 emptySheet 7 2 [] (by decide)

/-! ### Arguments that were not supplied -/

/-- Claim C37, evaluated for the calls without enough arguments: with no argument, every
function other than `if` and `countval` reads `params[0]` of an empty vector, and `countval`
with no argument or with one reads `params[1]`; the behaviour is undefined, no exception is
thrown, and `getValue` of a cell whose program is the node `Function sum 0` inherits it. -/
theorem FunctionCall_reads_missing_argument {D : Type} [DoubleOps D] (fuel : Nat)
    (rec : Program D → Path → Outcome (CValue D)) (sheet : Sheet D)
    (evalStack : List (CValue D)) (path : Path) :
    (∀ functionName : Str, functionName ≠ "if".toList → functionName ≠ "countval".toList →
      FunctionCall.evaluate fuel rec sheet functionName 0 evalStack path =
        .undefinedBehaviour) ∧
    FunctionCall.evaluate fuel rec sheet "countval".toList 0 evalStack path =
      .undefinedBehaviour ∧
    (∀ (v : CValue D) (rest : List (CValue D)),
      FunctionCall.evaluate fuel rec sheet "countval".toList 1 (v :: rest) path =
        .undefinedBehaviour) ∧
    (∀ pos : CPos, sheet.find pos.getUniqueId = some (.expr [.functionCall "sum".toList 0]) →
      getValue (fuel + 1) sheet [] pos = .undefinedBehaviour) := by
  refine ⟨fun functionName h1 h2 => ?_, ?_, fun v rest => ?_, fun pos hfind => ?_⟩
  · have h1c : ¬ functionName = ['i', 'f'] := h1
    have h2c : ¬ functionName = ['c', 'o', 'u', 'n', 't', 'v', 'a', 'l'] := h2
    simp [FunctionCall.evaluate, Outcome.bind, h1c, h2c]
  · simp [FunctionCall.evaluate, Outcome.bind]
  · simp [FunctionCall.evaluate, Outcome.bind]
  · unfold getValue
    simp only [hfind, List.not_mem_nil, if_false]
    rw [evaluateExpression_succ]
    simp [runNodes, ExprElement.evaluate, FunctionCall.evaluate, Outcome.bind]

/-! ### Exceptions and `getValue` -/

/-- Claim C38: entered with an empty path, `getValue` never ends by an exception; when the
evaluation of the program of the cell ends by an exception, of a node or of the final test
of the stack, `getValue` returns the empty value and leaves the path empty. -/
theorem getValue_never_throws {D : Type} [DoubleOps D] (fuel : Nat) (sheet : Sheet D)
    (pos : CPos) :
    (∀ q : Path, getValue fuel sheet [] pos ≠ .threw q) ∧
    (∀ (prog : Program D) (p : Path),
      sheet.find pos.getUniqueId = some (.expr prog) →
      evaluateExpression fuel sheet prog [pos.getUniqueId] = .threw p →
      getValue fuel sheet [] pos = .done .monostate []) ∧
    (∀ (prog : Program D) (p : Path),
      sheet.find pos.getUniqueId = some (.expr prog) →
      evaluateExpression fuel sheet prog [pos.getUniqueId] = .done .monostate p →
      getValue fuel sheet [] pos = .done .monostate []) := by
  refine ⟨fun q => ?_, fun prog p hfind hthrew => ?_, fun prog p hfind hdone => ?_⟩
  · unfold getValue
    simp only [List.not_mem_nil, if_false]
    split <;> try simp
    split <;> simp
  · unfold getValue
    simp only [hfind, List.not_mem_nil, if_false, hthrew]
  · unfold getValue
    simp only [hfind, List.not_mem_nil, if_false, hdone]

/-! ### The function calls of the two builds -/

/-- Claim C39, evaluated: for every function name other than `max` the method
`FunctionCall::evaluate` of `src/excel.cpp` gives what the method of `src/ExprElement.cpp`
gives, but for `max` over the range `A1:A2` of the sheet with `A1 := 1` and `A2 := =2` the
first leaves the number 1 on the stack and the second the number 2. -/
theorem FunctionCall_builds_differ {D : Type} [DoubleOps D] (fuel : Nat)
    (rec : Program D → Path → Outcome (CValue D)) (sheet : Sheet D) (functionName : Str)
    (parameterCount : Nat) (evalStack : List (CValue D)) (path : Path) :
    (functionName ≠ "max".toList →
      FunctionCall.evaluateSingleFile fuel rec sheet functionName parameterCount evalStack
        path =
      FunctionCall.evaluate fuel rec sheet functionName parameterCount evalStack path) ∧
    FunctionCall.evaluate 1 (evaluateExpression 1 maxSheet) maxSheet "max".toList 1
      [.string "A1:A2".toList] [idB1] = .done [.double 2] [idB1] ∧
    FunctionCall.evaluateSingleFile 1 (evaluateExpressionSingleFile 1 maxSheet) maxSheet
      "max".toList 1 [.string "A1:A2".toList] [idB1] = .done [.double 1] [idB1] := by
  refine ⟨fun hne => ?_, by decide, by decide⟩
  unfold FunctionCall.evaluateSingleFile FunctionCall.evaluate
  simp only [hne, if_false]

/-! ### The key as a bit pattern -/

/-- Claim C40: for a column and a row below `2^32` the key `(column << 32) + row` equals
`(column << 32) | row`, and two positions with such columns and rows and the same key have
the same column and the same row. -/
theorem getUniqueId_eq_or (c r : Nat) (hc : c < 2 ^ 32) (hr : r < 2 ^ 32) :
    CPos.getUniqueId ⟨c, r⟩ = (c <<< 32) ||| r ∧
    ∀ c2 r2 : Nat, c2 < 2 ^ 32 → r2 < 2 ^ 32 →
      CPos.getUniqueId ⟨c, r⟩ = CPos.getUniqueId ⟨c2, r2⟩ → c = c2 ∧ r = r2 := by
  constructor
  · rw [Nat.shiftLeft_eq, Nat.mul_comm c, ← Nat.mul_add_lt_is_or hr c]
    simp only [CPos.getUniqueId, sizeMod]
    omega
  · intro c2 r2 hc2 hr2 h
    simp only [CPos.getUniqueId, sizeMod] at h
    omega

/-- The theorem `getUniqueId_eq_or` applies to the position B3. -/
theorem getUniqueId_eq_or_witness :
    CPos.getUniqueId ⟨2, 3⟩ = (2 <<< 32) ||| 3 ∧
    ∀ c2 r2 : Nat, c2 < 2 ^ 32 → r2 < 2 ^ 32 →
      CPos.getUniqueId ⟨2, 3⟩ = CPos.getUniqueId ⟨c2, r2⟩ → 2 = c2 ∧ 3 = r2 :=
  getUniqueId_eq_or 2 3 (by decide) (by decide)

/-! ### What `load` does with the cells it finds and with lines it cannot read -/

/-- Claim C9, as the code has it: `load` has no step that empties the cell map. Loading the
stream of the empty sheet into any sheet returns true and leaves every cell as it was: on
the sheet whose cell A1 holds the text `x`, `getValue(A1)` still returns the text after the
call. -/
theorem load_keeps_cells_absent_from_stream {D : Type} [DoubleOps D] (u : Uninit D)
    (sheet : Sheet D) :
    load u sheet (save ([] : Sheet D)) = .returned true sheet ∧
    (load uninit0 textSheet (save emptySheet) = .returned true textSheet ∧
      textSheet.find idA1 = some (.string ['x']) ∧
      getValue 1 textSheet [] ⟨1, 1⟩ = .done (.string ['x']) []) := by
  refine ⟨?_, by decide⟩
  rw [load_save_passes_checks]
  simp only [saveData, allLines_nil, loadLines]

/-- Claim C10, as the code has it: a stream with a valid first line and checksum whose data
line lists the unknown node kind `Foo` is loaded with the result true and gives the cell an
empty program; so is a stream whose data region is one empty line, where the extractions
store nothing and the cell assigned has the key and the number that the variables `key` and
`numValue`, never initialised, happen to hold. -/
theorem load_accepts_malformed_lines {D : Type} [DoubleOps D] (u : Uninit D) :
    load u ([] : Sheet D) unknownNodeStream = .returned true [(1, .expr [])] ∧
    load u ([] : Sheet D) emptyLineStream = .returned true [(u.key, .double u.numValue)] := by
  constructor <;> rfl

/-! ### Corrupting the first digit of the checksum -/

theorem isdigit_value_le (c : Char) (hc : isdigit c = true) :
    48 ≤ c.toNat ∧ c.toNat ≤ 57 := by
  simpa [isdigit] using hc

theorem digitsValue_acc (ds : Str) (acc : Nat) (hd : ∀ c ∈ ds, isdigit c = true) :
    digitsValue ds acc = acc * 10 ^ ds.length + digitsValue ds 0 := by
  induction ds generalizing acc with
  | nil => simp [digitsValue]
  | cons c cs ih =>
    have hc := hd c (List.mem_cons_self _ _)
    have hcs : ∀ d ∈ cs, isdigit d = true := fun d h => hd d (List.mem_cons_of_mem _ h)
    simp only [digitsValue, hc, if_true, List.length_cons]
    rw [ih _ hcs, ih (0 * 10 + (c.toNat - 48)) hcs]
    ring

theorem digitsValue_lt (ds : Str) (hd : ∀ c ∈ ds, isdigit c = true) :
    digitsValue ds 0 < 10 ^ ds.length := by
  induction ds with
  | nil => simp [digitsValue]
  | cons c cs ih =>
    have hc := hd c (List.mem_cons_self _ _)
    have hcs : ∀ d ∈ cs, isdigit d = true := fun d h => hd d (List.mem_cons_of_mem _ h)
    have h9 := isdigit_value_le c hc
    have hlt := ih hcs
    simp only [digitsValue, hc, if_true, List.length_cons]
    rw [digitsValue_acc _ _ hcs, pow_succ]
    have hmul : (0 * 10 + (c.toNat - 48)) * 10 ^ cs.length ≤ 9 * 10 ^ cs.length :=
      Nat.mul_le_mul_right _ (by omega)
    omega

theorem toDecimal_length_le (n e : Nat) (he : 0 < e) (hn : n < 10 ^ e) :
    (toDecimal n).length ≤ e :=
  Nat.toDigitsCore_length 10 (by norm_num) (n + 1) n e hn he

/-- The digits `save` prints for a number: a first digit, which is not zero when more
digits follow, and the value they spell. -/
theorem toDecimal_head (n : Nat) :
    ∃ (d0 : Char) (tail : Str), toDecimal n = d0 :: tail ∧ isdigit d0 = true ∧
      (∀ c ∈ tail, isdigit c = true) ∧
      n = (d0.toNat - 48) * 10 ^ tail.length + digitsValue tail 0 ∧
      (tail ≠ [] → 1 ≤ d0.toNat - 48) := by
  have hdig := toDecimal_isdigit n
  have hval := digitsValue_toDecimal n
  cases hd : toDecimal n with
  | nil => exact absurd hd (toDecimal_ne_nil n)
  | cons d0 tail =>
    rw [hd] at hdig hval
    have h0 := hdig d0 (List.mem_cons_self _ _)
    have htail : ∀ c ∈ tail, isdigit c = true := fun c h => hdig c (List.mem_cons_of_mem _ h)
    have hn : n = (d0.toNat - 48) * 10 ^ tail.length + digitsValue tail 0 := by
      rw [← hval]
      simp only [digitsValue, h0, if_true]
      rw [digitsValue_acc _ _ htail]
      ring
    refine ⟨d0, tail, rfl, h0, htail, hn, ?_⟩
    intro hne
    by_contra hlt
    have hz : d0.toNat - 48 = 0 := by omega
    have hpos : 0 < tail.length := List.length_pos.mpr hne
    have hsmall : n < 10 ^ tail.length := by
      rw [hn, hz]
      simpa using digitsValue_lt tail htail
    have hlen := toDecimal_length_le n tail.length hpos hsmall
    rw [hd] at hlen
    simp at hlen

theorem headerLine_of_line (line rest : Str) (hline : ∀ c ∈ line, (c != NL) = true) :
    headerLine (line ++ NL :: rest) = some (line, IStream.ofStr rest) := by
  have hnl : (NL != NL) = false := by decide
  unfold headerLine getline
  simp only [IStream.ofStr, IStream.good, Bool.not_false, Bool.and_self, if_true]
  rw [List.takeWhile_append_of_pos hline, List.dropWhile_append_of_pos hline]
  simp [List.takeWhile_cons, List.dropWhile_cons, hnl]

theorem headerLabel_of_word (rest : Str) :
    headerLabel ("CHECKSUM ".toList ++ rest) = "CHECKSUM".toList := by
  rw [headerLabel_eq]
  have hs : "CHECKSUM ".toList = ['C', 'H', 'E', 'C', 'K', 'S', 'U', 'M', ' '] := rfl
  have hs2 : "CHECKSUM".toList = ['C', 'H', 'E', 'C', 'K', 'S', 'U', 'M'] := rfl
  have sC : isspace 'C' = false := by decide
  have sH : isspace 'H' = false := by decide
  have sE : isspace 'E' = false := by decide
  have sK : isspace 'K' = false := by decide
  have sS : isspace 'S' = false := by decide
  have sU : isspace 'U' = false := by decide
  have sM : isspace 'M' = false := by decide
  have sSp : isspace ' ' = true := by decide
  rw [hs, hs2]
  simp [List.takeWhile_cons, List.dropWhile_cons, sC, sH, sE, sK, sS, sU, sM, sSp]

theorem declaredChecksum_of_word (r : Nat) (rest : Str) :
    declaredChecksum r ("CHECKSUM ".toList ++ rest) =
      (readULong ⟨' ' :: rest, false, false⟩ r).1 := by
  have hs : "CHECKSUM ".toList = ['C', 'H', 'E', 'C', 'K', 'S', 'U', 'M', ' '] := rfl
  have sC : isspace 'C' = false := by decide
  have sH : isspace 'H' = false := by decide
  have sE : isspace 'E' = false := by decide
  have sK : isspace 'K' = false := by decide
  have sS : isspace 'S' = false := by decide
  have sU : isspace 'U' = false := by decide
  have sM : isspace 'M' = false := by decide
  have sSp : isspace ' ' = true := by decide
  unfold declaredChecksum readString sentry
  simp [hs, IStream.ofStr, IStream.good, List.takeWhile_cons, List.dropWhile_cons, sC, sH,
    sE, sK, sS, sU, sM, sSp]

/-- A stream with the first line of a saved stream altered after the word `CHECKSUM` is
refused when the number read from the altered line is not the checksum. -/
theorem load_false_of_declared {D : Type} [DoubleOps D] (S : Sheet D) (u : Uninit D)
    (sheet : Sheet D) (rest : Str) (hrest : ∀ c ∈ rest, (c != NL) = true)
    (hne : declaredChecksum u.readChecksum ("CHECKSUM ".toList ++ rest) ≠
      checksumOf (saveData S)) :
    load u sheet (("CHECKSUM ".toList ++ rest) ++ NL :: saveData S) = .returned false sheet := by
  have hline : ∀ c ∈ "CHECKSUM ".toList ++ rest, (c != NL) = true := by
    intro c hc
    rcases List.mem_append.mp hc with h | h
    · have hall : ∀ c ∈ "CHECKSUM ".toList, (c != NL) = true := by decide
      exact hall c h
    · exact hrest c h
  have hcalc : calculatedChecksum (allLines (IStream.ofStr (saveData S)) NL) 0 =
      checksumOf (saveData S) := by
    rw [calculatedChecksum_eq, contentOf_allLines_saveData]
    rfl
  unfold load
  rw [headerLine_of_line _ _ hline]
  simp only
  rw [headerLabel_of_word, hcalc, if_neg (by simp), if_pos hne]

theorem readULong_mutated (r : Nat) (b : Char) (tail : Str) (n d : Nat)
    (htail : ∀ c ∈ tail, isdigit c = true)
    (hn : n = d * 10 ^ tail.length + digitsValue tail 0)
    (hd1 : tail ≠ [] → 1 ≤ d)
    (hb : isdigit b = true → b.toNat - 48 ≠ d)
    (hpos : isdigit b = false → 0 < n) (hbig : n < 10 ^ 19)
    (hws : isspace b = true → tail ≠ []) :
    (readULong ⟨' ' :: b :: tail, false, false⟩ r).1 ≠ n := by
  have sSp : isspace ' ' = true := by decide
  have hm := digitsValue_lt tail htail
  have hPpos : 0 < 10 ^ tail.length := Nat.pos_pow_of_pos _ (by norm_num)
  have hbig2 : n < 10000000000000000000 := by
    norm_num at hbig
    exact hbig
  have hsize : sizeMod = 18446744073709551616 := by
    norm_num [sizeMod]
  -- what is read from the digits that follow a sign or a blank
  have htailRead : ∀ c cs, tail = c :: cs →
      digitsValue (c :: cs) 0 ≠ n ∧ ¬ sizeMod ≤ digitsValue (c :: cs) 0 ∧
        (sizeMod - digitsValue (c :: cs) 0) % sizeMod ≠ n := by
    intro c cs ht
    have h1 : 1 ≤ d := hd1 (by rw [ht]; simp)
    have hX : 10 ^ tail.length ≤ d * 10 ^ tail.length := Nat.le_mul_of_pos_left _ h1
    rw [← ht]
    generalize d * 10 ^ tail.length = X at hn hX
    generalize 10 ^ tail.length = P at hm hX hPpos
    generalize digitsValue tail 0 = m at hn hm
    rw [hsize]
    refine ⟨by omega, by omega, ?_⟩
    by_cases hm0 : m = 0
    · rw [hm0]
      simp
      omega
    · rw [Nat.mod_eq_of_lt (by omega)]
      omega
  cases hsb : isspace b with
  | true =>
    cases ht : tail with
    | nil => exact absurd ht (hws hsb)
    | cons c cs =>
      have hc : isdigit c = true := htail c (by rw [ht]; exact List.mem_cons_self _ _)
      have hcsp := isdigit_not_isspace c hc
      obtain ⟨hcm, hcp⟩ := isdigit_not_sign c hc
      obtain ⟨hv, hlt, -⟩ := htailRead c cs ht
      unfold readULong sentry
      simp [IStream.good, List.dropWhile_cons, sSp, hsb, hcsp, hcm, hcp, hc, hlt]
      exact hv
  | false =>
    by_cases hminus : b = '-'
    · subst hminus
      cases ht : tail with
      | nil =>
        have hp := hpos (by decide)
        unfold readULong sentry
        simp [IStream.good, List.dropWhile_cons, sSp, hsb]
        omega
      | cons c cs =>
        have hc : isdigit c = true := htail c (by rw [ht]; exact List.mem_cons_self _ _)
        obtain ⟨hv, hlt, hneg⟩ := htailRead c cs ht
        unfold readULong sentry
        simp [IStream.good, List.dropWhile_cons, sSp, hsb, hc, hlt]
        exact hneg
    · by_cases hplus : b = '+'
      · subst hplus
        cases ht : tail with
        | nil =>
          have hp := hpos (by decide)
          unfold readULong sentry
          simp [IStream.good, List.dropWhile_cons, sSp, hsb]
          omega
        | cons c cs =>
          have hc : isdigit c = true := htail c (by rw [ht]; exact List.mem_cons_self _ _)
          obtain ⟨hv, hlt, hneg⟩ := htailRead c cs ht
          unfold readULong sentry
          simp [IStream.good, List.dropWhile_cons, sSp, hsb, hc, hlt]
          exact hv
      · cases hdb : isdigit b with
        | false =>
          have hp := hpos hdb
          unfold readULong sentry
          simp [IStream.good, List.dropWhile_cons, sSp, hsb, hminus, hplus, hdb]
          omega
        | true =>
          have hval : digitsValue (b :: tail) 0 =
              (b.toNat - 48) * 10 ^ tail.length + digitsValue tail 0 := by
            simp only [digitsValue, hdb, if_true]
            rw [digitsValue_acc _ _ htail]
            ring
          have hne : (b.toNat - 48) * 10 ^ tail.length ≠ d * 10 ^ tail.length :=
            fun h => hb hdb (Nat.eq_of_mul_eq_mul_right hPpos h)
          have hv : digitsValue (b :: tail) 0 ≠ n := by
            rw [hval, hn]
            omega
          unfold readULong sentry
          simp only [IStream.good, Bool.not_false, Bool.and_self, if_true, List.dropWhile_cons,
            sSp, hsb, Bool.false_eq_true, if_false, hminus, hplus, hdb]
          split
          · simp only
            rw [hsize]
            omega
          · simp only [if_false]
            exact hv

theorem isdigit_eq_of_value (c e : Char) (hc : isdigit c = true) (he : isdigit e = true)
    (h : c.toNat - 48 = e.toNat - 48) : c = e := by
  have h1 := isdigit_value_le c hc
  have h2 := isdigit_value_le e he
  have h3 : c.toNat = e.toNat := by omega
  rw [← Char.ofNat_toNat c, ← Char.ofNat_toNat e, h3]

/-- Claim C7, amended: for every sheet `S`, replacing one of the first ten bytes of the
stream `save` wrote by another byte makes `load` return false (and leave its sheet alone) in
these cases: any of the eight bytes of the word `CHECKSUM`; the blank that follows the word,
replaced by a byte that is not white space; the first digit of the checksum, replaced by a
byte that is not a newline, when the checksum is below `10^19`, is not zero unless the byte
is a digit, and has a second digit if the byte is white space. -/
theorem load_rejects_mutated_header {D : Type} [DoubleOps D] (S : Sheet D) (u : Uninit D)
    (sheet : Sheet D) (i : Nat) (b : Char) (hi : i < 10) (hb : (save S)[i]? ≠ some b)
    (h8 : i = 8 → isspace b = false)
    (h9 : i = 9 → b ≠ NL ∧ checksumOf (saveData S) < 10 ^ 19 ∧
      (isdigit b = false → 0 < checksumOf (saveData S)) ∧
      (isspace b = true → 10 ≤ checksumOf (saveData S))) :
    load u sheet ((save S).set i b) = .returned false sheet := by
  by_cases hle : i ≤ 8
  · exact load_rejects_mutated_label S u sheet i b hle hb h8
  · have hi9 : i = 9 := by omega
    subst hi9
    obtain ⟨hnl, hbig, hpos, hws⟩ := h9 rfl
    obtain ⟨d0, tail, hdec, h0, htail, hn, hd1⟩ := toDecimal_head (checksumOf (saveData S))
    have hsave : save S = 'C' :: 'H' :: 'E' :: 'C' :: 'K' :: 'S' :: 'U' :: 'M' :: ' ' :: d0 ::
        (tail ++ NL :: saveData S) := by
      simp [save, hdec]
    have hset : (save S).set 9 b = ("CHECKSUM ".toList ++ b :: tail) ++ NL :: saveData S := by
      rw [hsave]
      simp
    have hbd : d0 ≠ b := by
      intro he
      apply hb
      rw [hsave, he]
      simp
    have hrest : ∀ c ∈ b :: tail, (c != NL) = true := by
      intro c hc
      rcases List.mem_cons.mp hc with h | h
      · rw [h]
        simpa using hnl
      · have hcd := htail c h
        simp only [bne_iff_ne, ne_eq]
        intro he
        rw [he] at hcd
        exact absurd hcd (by decide)
    have hd9 := isdigit_value_le d0 h0
    have htne : isspace b = true → tail ≠ [] := by
      intro hsb ht
      have h10 := hws hsb
      rw [ht] at hn
      simp only [List.length_nil, pow_zero, mul_one, digitsValue, add_zero] at hn
      omega
    rw [hset]
    refine load_false_of_declared S u sheet (b :: tail) hrest ?_
    rw [declaredChecksum_of_word]
    exact readULong_mutated u.readChecksum b tail _ (d0.toNat - 48) htail hn hd1
      (fun hdb he => hbd (isdigit_eq_of_value b d0 hdb h0 he).symm) hpos hbig htne

/-- The theorem `load_rejects_mutated_header` applies to the stream of a sheet with one
text cell, whose checksum is 813, with the first digit `8` replaced by `7`. -/
theorem load_rejects_mutated_header_witness :
    (save textSheet)[9]? = some '8' ∧
    load uninit0 emptySheet ((save textSheet).set 9 '7') = .returned false emptySheet :=
  ⟨by decide,
    load_rejects_mutated_header textSheet uninit0 emptySheet 9 '7' (by decide) (by decide)
      (by decide) (fun _ => ⟨by decide, by decide, fun _ => by decide, fun _ => by decide⟩)⟩

/-! ### Numbers printed with six decimals -/

theorem ratToStr_eq (q : Rat) :
    ratToStr q = (if q < 0 then ['-'] else []) ++ toDecimal (sixDecimals q / 1000000) ++ ['.'] ++
      List.replicate (6 - (toDecimal (sixDecimals q % 1000000)).length) '0' ++
      toDecimal (sixDecimals q % 1000000) := rfl

theorem digitsValue_append_digits (a b : Str) (acc : Nat) (ha : ∀ c ∈ a, isdigit c = true) :
    digitsValue (a ++ b) acc = digitsValue b (digitsValue a acc) := by
  induction a generalizing acc with
  | nil => rfl
  | cons c cs ih =>
    have hc := ha c (List.mem_cons_self _ _)
    simp only [List.cons_append, digitsValue, hc, if_true]
    exact ih _ (fun d hd => ha d (List.mem_cons_of_mem _ hd))

theorem digitsValue_zeros (z acc : Nat) :
    digitsValue (List.replicate z '0') acc = acc * 10 ^ z := by
  induction z generalizing acc with
  | zero => simp [digitsValue]
  | succ z ih =>
    have h0 : isdigit '0' = true := by decide
    have hv : ('0' : Char).toNat - 48 = 0 := by decide
    simp only [List.replicate_succ, digitsValue, h0, if_true, hv, add_zero]
    rw [ih, pow_succ]
    ring

/-- The six digits after the decimal point. -/
theorem fraction_digits (m : Nat) (hm : m < 1000000) :
    (List.replicate (6 - (toDecimal m).length) '0' ++ toDecimal m).length = 6 ∧
    (∀ c ∈ List.replicate (6 - (toDecimal m).length) '0' ++ toDecimal m, isdigit c = true) ∧
    ∀ acc, digitsValue (List.replicate (6 - (toDecimal m).length) '0' ++ toDecimal m) acc =
      acc * 1000000 + m := by
  have hlen : (toDecimal m).length ≤ 6 :=
    toDecimal_length_le m 6 (by norm_num) (by norm_num; exact hm)
  have hz : ∀ c ∈ List.replicate (6 - (toDecimal m).length) '0', isdigit c = true := by
    intro c hc
    rw [(List.mem_replicate.mp hc).2]
    decide
  refine ⟨?_, ?_, ?_⟩
  · simp only [List.length_append, List.length_replicate]
    omega
  · intro c hc
    rcases List.mem_append.mp hc with h | h
    · exact hz c h
    · exact toDecimal_isdigit m c h
  · intro acc
    rw [digitsValue_append_digits _ _ _ hz, digitsValue_zeros,
      digitsValue_acc _ _ (toDecimal_isdigit m), digitsValue_toDecimal, mul_assoc, ← pow_add]
    have : 6 - (toDecimal m).length + (toDecimal m).length = 6 := by omega
    rw [this]
    norm_num

theorem takeWhile_digits_dot (ds rest : Str) (hd : ∀ c ∈ ds, isdigit c = true) :
    (ds ++ '.' :: rest).takeWhile isdigit = ds ∧
      (ds ++ '.' :: rest).dropWhile isdigit = '.' :: rest := by
  have hdot : isdigit '.' = false := by decide
  constructor
  · rw [List.takeWhile_append_of_pos hd]
    simp [List.takeWhile_cons, hdot]
  · rw [List.dropWhile_append_of_pos hd]
    simp [List.dropWhile_cons, hdot]

theorem takeWhile_digits (ds : Str) (hd : ∀ c ∈ ds, isdigit c = true) :
    ds.takeWhile isdigit = ds ∧ ds.dropWhile isdigit = [] :=
  ⟨List.takeWhile_eq_self_iff.mpr hd, List.dropWhile_eq_nil_iff.mpr hd⟩

/-- What the extraction reads from a sign, digits, a point and digits. -/
theorem scanRat_decimal (neg : Bool) (ints frac : Str) (hne : ints ≠ [])
    (hi : ∀ c ∈ ints, isdigit c = true) (hf : ∀ c ∈ frac, isdigit c = true) :
    scanRat ((if neg then ['-'] else []) ++ ints ++ '.' :: frac) =
      if neg then -((digitsValue (ints ++ frac) 0 : Rat) / 10 ^ frac.length)
      else (digitsValue (ints ++ frac) 0 : Rat) / 10 ^ frac.length := by
  obtain ⟨ht1, hd1⟩ := takeWhile_digits_dot ints frac hi
  obtain ⟨ht2, hd2⟩ := takeWhile_digits frac hf
  cases hints : ints with
  | nil => exact absurd hints hne
  | cons c cs =>
    rw [hints] at ht1 hd1
    have hc : isdigit c = true := hi c (by rw [hints]; exact List.mem_cons_self _ _)
    obtain ⟨hcm, hcp⟩ := isdigit_not_sign c hc
    cases neg with
    | true =>
      simp only [if_true]
      show scanRat ('-' :: c :: (cs ++ '.' :: frac)) = _
      unfold scanRat
      simp only [List.cons_append] at ht1 hd1
      simp only [ht1, hd1, ht2, hd2, if_true, List.isEmpty_cons, Bool.false_and,
        Bool.false_eq_true, if_false]
      try rfl
    | false =>
      simp only [Bool.false_eq_true, if_false]
      show scanRat (c :: (cs ++ '.' :: frac)) = _
      unfold scanRat
      simp only [hcm, hcp, if_false]
      simp only [List.cons_append] at ht1 hd1
      simp only [ht1, hd1, ht2, hd2, if_true, List.isEmpty_cons, Bool.false_and,
        Bool.false_eq_true, if_false]
      try rfl

theorem sixDecimals_parts (q : Rat) :
    digitsValue (toDecimal (sixDecimals q / 1000000) ++
      (List.replicate (6 - (toDecimal (sixDecimals q % 1000000)).length) '0' ++
        toDecimal (sixDecimals q % 1000000))) 0 = sixDecimals q := by
  obtain ⟨-, -, hval⟩ := fraction_digits (sixDecimals q % 1000000) (Nat.mod_lt _ (by norm_num))
  rw [digitsValue_append_digits _ _ _ (toDecimal_isdigit _), hval, digitsValue_toDecimal]
  exact Nat.div_add_mod' _ _

/-- Reading back what `std::to_string` printed gives the number rounded to six decimals. -/
theorem scanRat_ratToStr (q : Rat) : scanRat (ratToStr q) = roundSix q := by
  obtain ⟨hlen, hdig, -⟩ := fraction_digits (sixDecimals q % 1000000)
    (Nat.mod_lt _ (by norm_num))
  have h := scanRat_decimal (decide (q < 0)) (toDecimal (sixDecimals q / 1000000))
    (List.replicate (6 - (toDecimal (sixDecimals q % 1000000)).length) '0' ++
      toDecimal (sixDecimals q % 1000000)) (toDecimal_ne_nil _) (toDecimal_isdigit _) hdig
  rw [sixDecimals_parts, hlen] at h
  rw [ratToStr_eq, roundSix]
  by_cases hq : q < 0
  · simp only [hq, decide_True, if_true] at h ⊢
    rw [← h]
    simp [List.append_assoc]
  · simp only [hq, decide_False, Bool.false_eq_true, if_false] at h ⊢
    rw [← h]
    simp [List.append_assoc]

theorem sixDecimals_close (q : Rat) :
    |(|q| * 1000000 - (sixDecimals q : Rat))| ≤ 1 / 2 := by
  have ht0 : (0 : Rat) ≤ |q| * 1000000 := mul_nonneg (abs_nonneg q) (by norm_num)
  have hfl0 : 0 ≤ (|q| * 1000000).floor := Int.floor_nonneg.mpr ht0
  have hf : (((|q| * 1000000).floor.toNat : Nat) : Rat) =
      (((|q| * 1000000).floor : Int) : Rat) := by
    have := Int.toNat_of_nonneg hfl0
    exact_mod_cast this
  have h1 : (((|q| * 1000000).floor : Int) : Rat) ≤ |q| * 1000000 := Int.floor_le _
  have h2 : |q| * 1000000 < (((|q| * 1000000).floor : Int) : Rat) + 1 := Int.lt_floor_add_one _
  unfold sixDecimals
  simp only
  split
  · rename_i hc
    push_cast
    rw [hf] at hc ⊢
    rw [abs_le]
    rcases hc with hc | ⟨hc, -⟩
    · constructor <;> linarith
    · constructor <;> linarith
  · rename_i hc
    rw [hf] at hc ⊢
    have hle : ¬ (1 / 2 < |q| * 1000000 - (((|q| * 1000000).floor : Int) : Rat)) :=
      fun h => hc (Or.inl h)
    rw [abs_le]
    constructor <;> linarith

/-- Rounding to six decimals moves a number by at most half a millionth. -/
theorem roundSix_close (q : Rat) : |q - roundSix q| ≤ 1 / 2000000 := by
  have h := sixDecimals_close q
  rw [abs_le] at h ⊢
  unfold roundSix
  by_cases hq : q < 0
  · rw [if_pos hq]
    rw [abs_of_neg hq] at h
    constructor <;> linarith
  · rw [if_neg hq]
    rw [abs_of_nonneg (not_lt.mp hq)] at h
    constructor <;> linarith

/-- A number of magnitude 23 or more, or with no more than six decimals, is accepted by
`valueMatch` against its rounding to six decimals. -/
theorem valueMatch_roundSix (q : Rat) (h : printsWithinTolerance q = true) :
    valueMatch (.double q) (.double (roundSix q)) = true := by
  simp only [printsWithinTolerance, Bool.or_eq_true, decide_eq_true_eq] at h
  simp only [valueMatch, decide_eq_true_eq]
  rcases h with h | h
  · have hc := roundSix_close q
    have hb : (1 : Rat) / 2000000 ≤ 100000000 * (1 / 2 ^ 52) * 23 := by norm_num
    have hm : (100000000 : Rat) * (1 / 2 ^ 52) * 23 ≤ 100000000 * (1 / 2 ^ 52) * |q| :=
      mul_le_mul_of_nonneg_left h (by norm_num)
    linarith
  · rw [h, sub_self, abs_zero]
    exact mul_nonneg (by norm_num) (abs_nonneg q)

/-! ### The text of a saved number -/

theorem ratToStr_chars (q : Rat) (c : Char) (hc : c ∈ ratToStr q) :
    isdigit c = true ∨ c = '-' ∨ c = '.' := by
  rw [ratToStr_eq] at hc
  simp only [List.mem_append, List.mem_singleton] at hc
  rcases hc with (((hc | hc) | hc) | hc) | hc
  · by_cases hq : q < 0
    · simp only [hq, if_true, List.mem_singleton] at hc
      exact Or.inr (Or.inl hc)
    · simp [hq] at hc
  · exact Or.inl (toDecimal_isdigit _ c hc)
  · exact Or.inr (Or.inr hc)
  · rw [(List.mem_replicate.mp hc).2]
    exact Or.inl (by decide)
  · exact Or.inl (toDecimal_isdigit _ c hc)

theorem ratToStr_head (q : Rat) :
    ∃ c cs, ratToStr q = c :: cs ∧ (isdigit c = true ∨ c = '-') := by
  cases hd : toDecimal (sixDecimals q / 1000000) with
  | nil => exact absurd hd (toDecimal_ne_nil _)
  | cons d ds =>
    have hdig : isdigit d = true :=
      toDecimal_isdigit (sixDecimals q / 1000000) d (by rw [hd]; exact List.mem_cons_self _ _)
    rw [ratToStr_eq, hd]
    by_cases hq : q < 0
    · exact ⟨'-', _, by simp only [hq, if_true]; rfl, Or.inr rfl⟩
    · exact ⟨d, _, by simp only [hq, if_false]; rfl, Or.inl hdig⟩

theorem ratToStr_last (q : Rat) :
    ∃ init d, ratToStr q = init ++ [d] ∧ isdigit d = true := by
  have hne := toDecimal_ne_nil (sixDecimals q % 1000000)
  obtain ⟨init, d, hd⟩ : ∃ init d, toDecimal (sixDecimals q % 1000000) = init ++ [d] :=
    ⟨_, _, (List.dropLast_append_getLast hne).symm⟩
  have hdig : isdigit d = true :=
    toDecimal_isdigit (sixDecimals q % 1000000) d (by rw [hd]; simp)
  refine ⟨(if q < 0 then ['-'] else []) ++ toDecimal (sixDecimals q / 1000000) ++ ['.'] ++
    List.replicate (6 - (toDecimal (sixDecimals q % 1000000)).length) '0' ++ init, d, ?_, hdig⟩
  rw [ratToStr_eq, hd, ← List.append_assoc]

theorem wellPrinted_ratToStr (q : Rat) : wellPrinted (ratToStr q) = true := by
  obtain ⟨c, cs, hcs, hc⟩ := ratToStr_head q
  have hall := ratToStr_chars q
  rw [hcs] at hall ⊢
  simp only [wellPrinted, Bool.and_eq_true, Bool.or_eq_true, beq_iff_eq, List.all_eq_true,
    bne_iff_ne, ne_eq]
  refine ⟨hc, ?_⟩
  intro x hx
  rcases hall x (List.mem_cons_of_mem _ hx) with h | h | h
  · constructor <;> (intro he; rw [he] at h; exact absurd h (by decide))
  · rw [h]
    constructor <;> decide
  · rw [h]
    constructor <;> decide

/-- The classes of characters that matter when a program line is taken apart. -/
theorem number_char (c : Char) (h : isdigit c = true ∨ c = '-' ∨ c = '.') :
    isspace c = false ∧ c ≠ ',' ∧ c ≠ ']' ∧ c ≠ NL ∧ c ≠ ' ' := by
  rcases h with h | h | h
  · refine ⟨isdigit_not_isspace c h, ?_, ?_, ?_, ?_⟩ <;>
      (intro he; rw [he] at h; exact absurd h (by decide))
  · rw [h]
    decide
  · rw [h]
    decide

theorem scanRat_digits (n : Nat) : scanRat (toDecimal n) = (n : Rat) := by
  have hdig := toDecimal_isdigit n
  have hval := digitsValue_toDecimal n
  obtain ⟨ht, hd⟩ := takeWhile_digits (toDecimal n) hdig
  cases hdec : toDecimal n with
  | nil => exact absurd hdec (toDecimal_ne_nil n)
  | cons c cs =>
    rw [hdec] at hdig hval ht hd
    have hc : isdigit c = true := hdig c (List.mem_cons_self _ _)
    obtain ⟨hcm, hcp⟩ := isdigit_not_sign c hc
    unfold scanRat
    simp only [hcm, hcp, if_false]
    simp only [ht, hd, List.isEmpty_cons, Bool.false_and, Bool.false_eq_true, if_false,
      List.append_nil, hval, List.length_nil, pow_zero, div_one]

/-! ### The pieces of a program line -/

theorem dropWhile_blanks (k : Nat) (body : Str) (hhead : ∀ c cs, body = c :: cs → c ≠ ' ') :
    (List.replicate k ' ' ++ body).dropWhile (fun c => c == ' ') = body := by
  induction k with
  | zero =>
    cases body with
    | nil => rfl
    | cons c cs =>
      have hc : (c == ' ') = false := by simpa using hhead c cs rfl
      simp [List.dropWhile_cons, hc]
  | succ k ih =>
    simp only [List.replicate_succ, List.cons_append, List.dropWhile_cons, beq_self_eq_true,
      if_true]
    exact ih

/-- Blanks before a piece and the closing bracket after it are dropped before the piece is
read. -/
theorem parseElement_strip {D : Type} [DoubleOps D] (u : Uninit D) (k : Nat) (body : Str)
    (closing : Bool) (hhead : ∀ c cs, body = c :: cs → c ≠ ' ')
    (hlast : ∃ init b, body = init ++ [b] ∧ b ≠ ']') :
    parseElement u (List.replicate k ' ' ++ (body ++ if closing then [']'] else [])) =
      parseElement u body := by
  obtain ⟨init, b, hbody, hb⟩ := hlast
  have hd2 : body.dropWhile (fun c => c == ' ') = body := by
    simpa using dropWhile_blanks 0 body hhead
  have hl2 : body.getLast? = some b := by
    rw [hbody, List.getLast?_concat]
  cases closing with
  | false =>
    have hd1 : (List.replicate k ' ' ++ (body ++ [])).dropWhile (fun c => c == ' ') = body := by
      rw [List.append_nil]
      exact dropWhile_blanks k body hhead
    unfold parseElement
    simp only [Bool.false_eq_true, if_false, hd1, hd2]
  | true =>
    have hhead2 : ∀ c cs, body ++ [']'] = c :: cs → c ≠ ' ' := by
      intro c cs h
      cases hb2 : body with
      | nil =>
        rw [hb2] at hbody
        simp at hbody
      | cons c2 cs2 =>
        rw [hb2] at h
        simp only [List.cons_append, List.cons.injEq] at h
        rw [← h.1]
        exact hhead c2 cs2 hb2
    have hd1 : (List.replicate k ' ' ++ (body ++ [']'])).dropWhile (fun c => c == ' ') =
        body ++ [']'] := dropWhile_blanks k _ hhead2
    have hl1 : (body ++ [']']).getLast? = some ']' := List.getLast?_concat body
    have hdl : (body ++ [']']).dropLast = body := List.dropLast_concat
    unfold parseElement
    simp only [if_true, hd1, hd2, hl1, hl2, hdl, if_neg hb]

theorem readString_word (w rest : Str) (hne : w ≠ []) (hw : ∀ c ∈ w, isspace c = false)
    (hrest : rest = [] ∨ ∃ s r, rest = s :: r ∧ isspace s = true) :
    readString ⟨w ++ rest, false, false⟩ [] = (w, ⟨rest, rest.isEmpty, false⟩) := by
  have hw2 : ∀ c ∈ w, (!isspace c) = true := fun c hc => by simp [hw c hc]
  have htake : (w ++ rest).takeWhile (fun c => !isspace c) = w := by
    rw [List.takeWhile_append_of_pos hw2]
    rcases hrest with h | ⟨s, r, h, hs⟩
    · simp [h]
    · simp [h, List.takeWhile_cons, hs]
  have hdrop : (w ++ rest).dropWhile (fun c => !isspace c) = rest := by
    rw [List.dropWhile_append_of_pos hw2]
    rcases hrest with h | ⟨s, r, h, hs⟩
    · simp [h]
    · simp [h, List.dropWhile_cons, hs]
  cases hwc : w with
  | nil => exact absurd hwc hne
  | cons c cs =>
    rw [hwc] at htake hdrop
    have hc : isspace c = false := hw c (by rw [hwc]; exact List.mem_cons_self _ _)
    unfold readString sentry
    simp only [IStream.good, Bool.not_false, Bool.and_self, if_true, List.cons_append,
      List.dropWhile_cons, hc, Bool.false_eq_true, if_false]
    simp only [List.cons_append] at htake hdrop
    have hdrop2 : List.dropWhile (fun c => !isspace c) (cs ++ rest) = rest := by
      simpa [List.dropWhile_cons, hc] using hdrop
    simp only [htake, hdrop2]

theorem ws_blank (arg : Str) (harg : ∃ a r, arg = a :: r ∧ isspace a = false) :
    (IStream.ws ⟨' ' :: arg, false, false⟩) = ⟨arg, false, false⟩ := by
  obtain ⟨a, r, h, ha⟩ := harg
  have hsp : isspace ' ' = true := by decide
  subst h
  simp [IStream.ws, IStream.good, List.dropWhile_cons, hsp, ha]

/-- A piece that is a keyword, a blank and an argument: the keyword is read and the stream
stands before the argument when the kind of node is chosen. -/
theorem parseElement_of_body {D : Type} [DoubleOps D] (u : Uninit D) (kw arg : Str)
    (hne : kw ≠ []) (hkw : ∀ c ∈ kw, isspace c = false)
    (harg : ∃ a r, arg = a :: r ∧ isspace a = false)
    (hlast : ∃ init b, arg = init ++ [b] ∧ b ≠ ']') :
    parseElement u (kw ++ ' ' :: arg) =
      if kw = "Reference".toList then
        match Reference.ofStr (readString ⟨arg, false, false⟩ []).1 with
        | none => .error .threw
        | some r => .ok (some (.reference r))
      else if kw = "Constant".toList then
        .ok (some (.constant (readDouble ⟨arg, false, false⟩ u.value)))
      else if kw = "UnaryOperation".toList then
        .ok (some (.unaryOperation (readString ⟨arg, false, false⟩ []).1))
      else if kw = "BinaryOperation".toList then
        .ok (some (.binaryOperation (readString ⟨arg, false, false⟩ []).1))
      else if kw = "String".toList then
        .ok (some (.stringVariable (readQuoted ⟨arg, false, false⟩)))
      else if kw = "Range".toList then
        .ok (some (.range (readString ⟨arg, false, false⟩ []).1))
      else if kw = "Function".toList then
        .ok (some (.functionCall (readString ⟨arg, false, false⟩ []).1
          (DoubleOps.toSizeT (readDouble (readString ⟨arg, false, false⟩ []).2 u.paramCount)
            % sizeMod)))
      else .ok none := by
  obtain ⟨init, b, harg2, hb⟩ := hlast
  have hsp : isspace ' ' = true := by decide
  have hhead : ∀ c cs, kw ++ ' ' :: arg = c :: cs → c ≠ ' ' := by
    intro c cs h
    cases hk : kw with
    | nil => exact absurd hk hne
    | cons c2 cs2 =>
      rw [hk] at h
      simp only [List.cons_append, List.cons.injEq] at h
      rw [← h.1]
      intro he
      have := hkw c2 (by rw [hk]; exact List.mem_cons_self _ _)
      rw [he] at this
      exact absurd this (by decide)
  have hd : (kw ++ ' ' :: arg).dropWhile (fun c => c == ' ') = kw ++ ' ' :: arg := by
    simpa using dropWhile_blanks 0 _ hhead
  have hl : (kw ++ ' ' :: arg).getLast? = some b := by
    rw [harg2]
    have : kw ++ ' ' :: (init ++ [b]) = (kw ++ ' ' :: init) ++ [b] := by simp
    rw [this, List.getLast?_concat]
  have hread := readString_word kw (' ' :: arg) hne hkw (Or.inr ⟨' ', arg, rfl, hsp⟩)
  have hws := ws_blank arg harg
  unfold parseElement
  simp only [hd, hl, if_neg hb, IStream.ofStr, hread, List.isEmpty_cons, hws]

theorem plainWord_spec (s : Str) (h : plainWord s = true) :
    s ≠ [] ∧ ∀ c ∈ s, isspace c = false ∧ c ≠ ',' ∧ c ≠ ']' := by
  simp only [plainWord, Bool.and_eq_true, Bool.not_eq_true', List.isEmpty_eq_false,
    List.all_eq_true, bne_iff_ne, ne_eq] at h
  refine ⟨h.1, ?_⟩
  intro c hc
  have := h.2 c hc
  exact ⟨this.1.1, this.1.2, this.2⟩

theorem plainWord_head (s : Str) (h : plainWord s = true) :
    ∃ a r, s = a :: r ∧ isspace a = false := by
  obtain ⟨hne, hall⟩ := plainWord_spec s h
  cases hs : s with
  | nil => exact absurd hs hne
  | cons a r => exact ⟨a, r, rfl, (hall a (by rw [hs]; exact List.mem_cons_self _ _)).1⟩

theorem plainWord_last (s : Str) (h : plainWord s = true) :
    ∃ init b, s = init ++ [b] ∧ b ≠ ']' := by
  obtain ⟨hne, hall⟩ := plainWord_spec s h
  refine ⟨s.dropLast, s.getLast hne, (List.dropLast_append_getLast hne).symm, ?_⟩
  exact (hall _ (List.getLast_mem hne)).2.2

theorem readString_plainWord (s : Str) (h : plainWord s = true) :
    (readString ⟨s, false, false⟩ []).1 = s := by
  obtain ⟨hne, hall⟩ := plainWord_spec s h
  have := readString_word s [] hne (fun c hc => (hall c hc).1) (Or.inl rfl)
  rw [List.append_nil] at this
  rw [this]

theorem readDouble_at {D : Type} [DoubleOps D] (arg : Str) (old : D)
    (harg : ∃ a r, arg = a :: r ∧ isspace a = false) :
    readDouble ⟨arg, false, false⟩ old = DoubleOps.scan arg := by
  obtain ⟨a, r, h, ha⟩ := harg
  subst h
  simp [readDouble, sentry, IStream.good, List.dropWhile_cons, ha]

theorem escape_plain (s : Str) (h : ∀ c ∈ s, c ≠ QUOTE) : escape s = s := by
  induction s with
  | nil => rfl
  | cons c cs ih =>
    have hc : c ≠ QUOTE := h c (List.mem_cons_self _ _)
    simp only [escape, hc, if_false]
    rw [ih (fun d hd => h d (List.mem_cons_of_mem _ hd))]

theorem unescape_plain (s : Str) (h : ∀ c ∈ s, c ≠ QUOTE) : unescape s = s := by
  induction s with
  | nil => rfl
  | cons c cs ih =>
    have hc : c ≠ QUOTE := h c (List.mem_cons_self _ _)
    cases cs with
    | nil => rfl
    | cons d rest =>
      simp only [unescape, hc, false_and, if_false]
      rw [ih (fun x hx => h x (List.mem_cons_of_mem _ hx))]

/-- The two `getline` calls and the unescaping loop give back a text without double quotes
that stands between two double quotes. -/
theorem readQuoted_plain (s : Str) (h : ∀ c ∈ s, c ≠ QUOTE) :
    readQuoted ⟨QUOTE :: (s ++ [QUOTE]), false, false⟩ = s := by
  have hq : ∀ c ∈ s, (c != QUOTE) = true := fun c hc => by simpa using h c hc
  have hqq : (QUOTE != QUOTE) = false := by decide
  have ht : (s ++ [QUOTE]).takeWhile (fun c => c != QUOTE) = s := by
    rw [List.takeWhile_append_of_pos hq]
    simp [List.takeWhile_cons, hqq]
  have hd : (s ++ [QUOTE]).dropWhile (fun c => c != QUOTE) = [QUOTE] := by
    rw [List.dropWhile_append_of_pos hq]
    simp [List.dropWhile_cons, hqq]
  unfold readQuoted getline
  simp only [IStream.good, Bool.not_false, Bool.and_self, if_true, List.takeWhile_cons, hqq,
    Bool.false_eq_true, if_false, List.dropWhile_cons, ht, hd]
  exact unescape_plain s h

/-! ### The nodes of a saved program -/

theorem body_spec (kw arg : Str) (hne : kw ≠ [])
    (hkw : ∀ c ∈ kw, isspace c = false ∧ c ≠ ',' ∧ c ≠ NL)
    (hlast : ∃ init b, arg = init ++ [b] ∧ b ≠ ']')
    (hchars : ∀ c ∈ arg, c ≠ ',' ∧ c ≠ NL) :
    (∀ c cs, kw ++ ' ' :: arg = c :: cs → c ≠ ' ') ∧
    (∃ init b, kw ++ ' ' :: arg = init ++ [b] ∧ b ≠ ']') ∧
    ∀ c ∈ kw ++ ' ' :: arg, c ≠ ',' ∧ c ≠ NL := by
  refine ⟨?_, ?_, ?_⟩
  · intro c cs h
    cases hk : kw with
    | nil => exact absurd hk hne
    | cons c2 cs2 =>
      rw [hk] at h
      simp only [List.cons_append, List.cons.injEq] at h
      rw [← h.1]
      intro he
      have := (hkw c2 (by rw [hk]; exact List.mem_cons_self _ _)).1
      rw [he] at this
      exact absurd this (by decide)
  · obtain ⟨init, b, ha, hb⟩ := hlast
    exact ⟨kw ++ ' ' :: init, b, by rw [ha]; simp, hb⟩
  · intro c hc
    simp only [List.mem_append, List.mem_cons] at hc
    rcases hc with h | h | h
    · exact (hkw c h).2
    · rw [h]
      constructor <;> decide
    · exact hchars c h

theorem keyword_chars :
    (∀ kw ∈ ["Reference".toList, "Constant".toList, "UnaryOperation".toList,
      "BinaryOperation".toList, "String".toList, "Range".toList, "Function".toList],
      kw ≠ [] ∧ ∀ c ∈ kw, isspace c = false ∧ c ≠ ',' ∧ c ≠ NL) := by
  decide

theorem plainWord_chars (s : Str) (h : plainWord s = true) : ∀ c ∈ s, c ≠ ',' ∧ c ≠ NL := by
  intro c hc
  obtain ⟨h1, h2, -⟩ := (plainWord_spec s h).2 c hc
  refine ⟨h2, ?_⟩
  intro he
  rw [he] at h1
  exact absurd h1 (by decide)

theorem toDecimal_chars (n : Nat) :
    (∃ a r, toDecimal n = a :: r ∧ isspace a = false) ∧
    (∃ init b, toDecimal n = init ++ [b] ∧ b ≠ ']') ∧
    ∀ c ∈ toDecimal n, isspace c = false ∧ c ≠ ',' ∧ c ≠ NL := by
  have hne := toDecimal_ne_nil n
  have hd := toDecimal_isdigit n
  have hall : ∀ c ∈ toDecimal n,
      isspace c = false ∧ c ≠ ',' ∧ c ≠ ']' ∧ c ≠ NL ∧ c ≠ ' ' :=
    fun c hc => number_char c (Or.inl (hd c hc))
  refine ⟨?_, ?_, fun c hc => ⟨(hall c hc).1, (hall c hc).2.1, (hall c hc).2.2.2.1⟩⟩
  · cases hs : toDecimal n with
    | nil => exact absurd hs hne
    | cons a r => exact ⟨a, r, rfl, (hall a (by rw [hs]; exact List.mem_cons_self _ _)).1⟩
  · exact ⟨_, _, (List.dropLast_append_getLast hne).symm,
      (hall _ (List.getLast_mem hne)).2.2.1⟩

/-- What `load` needs of the saved text of a node, and the node it reads from it. -/
theorem node_save_spec (e : ExprElement Rat) (he : persistableNode e = true) :
    (∀ c cs, e.save = c :: cs → c ≠ ' ') ∧
    (∃ init b, e.save = init ++ [b] ∧ b ≠ ']') ∧
    (∀ c ∈ e.save, c ≠ ',' ∧ c ≠ NL) ∧
    ∀ u : Uninit Rat, parseElement u e.save = .ok (some (roundNode e)) := by
  have hkws := keyword_chars
  cases e with
  | constant q =>
    have hs : ExprElement.save (.constant q) = "Constant".toList ++ ' ' :: ratToStr q := rfl
    obtain ⟨hne, hkw⟩ := hkws "Constant".toList (by simp)
    obtain ⟨a, r, hq, ha⟩ := ratToStr_head q
    have hhead : ∃ a r, ratToStr q = a :: r ∧ isspace a = false :=
      ⟨a, r, hq, (number_char a (ha.elim Or.inl (fun h => Or.inr (Or.inl h)))).1⟩
    obtain ⟨init, d, hd, hdig⟩ := ratToStr_last q
    have hlast : ∃ init b, ratToStr q = init ++ [b] ∧ b ≠ ']' :=
      ⟨init, d, hd, (number_char d (Or.inl hdig)).2.2.1⟩
    have hchars : ∀ c ∈ ratToStr q, c ≠ ',' ∧ c ≠ NL := fun c hc =>
      ⟨(number_char c (ratToStr_chars q c hc)).2.1,
        (number_char c (ratToStr_chars q c hc)).2.2.2.1⟩
    obtain ⟨h1, h2, h3⟩ := body_spec _ _ hne hkw hlast hchars
    rw [hs]
    refine ⟨h1, h2, h3, fun u => ?_⟩
    rw [parseElement_of_body u _ _ hne (fun c hc => (hkw c hc).1) hhead hlast,
      if_neg (by decide), if_pos rfl, readDouble_at _ _ hhead]
    exact congrArg (fun x => Except.ok (some (ExprElement.constant x))) (scanRat_ratToStr q)
  | stringVariable s =>
    simp only [persistableNode, plainText, List.all_eq_true, Bool.and_eq_true, bne_iff_ne,
      ne_eq] at he
    have hnq : ∀ c ∈ s, c ≠ QUOTE := fun c hc => (he c hc).1.1
    have hs : ExprElement.save (.stringVariable s : ExprElement Rat) =
        "String".toList ++ ' ' :: (QUOTE :: (s ++ [QUOTE])) := by
      simp [ExprElement.save, escape_plain s hnq]
    obtain ⟨hne, hkw⟩ := hkws "String".toList (by simp)
    have hqs : isspace QUOTE = false := by decide
    have hhead : ∃ a r, QUOTE :: (s ++ [QUOTE]) = a :: r ∧ isspace a = false :=
      ⟨QUOTE, _, rfl, hqs⟩
    have hlast : ∃ init b, QUOTE :: (s ++ [QUOTE]) = init ++ [b] ∧ b ≠ ']' :=
      ⟨QUOTE :: s, QUOTE, by simp, by decide⟩
    have hchars : ∀ c ∈ QUOTE :: (s ++ [QUOTE]), c ≠ ',' ∧ c ≠ NL := by
      intro c hc
      simp only [List.mem_cons, List.mem_append, List.mem_singleton, List.not_mem_nil,
        or_false] at hc
      rcases hc with h | h | h
      · rw [h]
        constructor <;> decide
      · exact ⟨(he c h).1.2, (he c h).2⟩
      · rw [h]
        constructor <;> decide
    obtain ⟨h1, h2, h3⟩ := body_spec _ _ hne hkw hlast hchars
    rw [hs]
    refine ⟨h1, h2, h3, fun u => ?_⟩
    rw [parseElement_of_body u _ _ hne (fun c hc => (hkw c hc).1) hhead hlast,
      if_neg (by decide), if_neg (by decide), if_neg (by decide), if_neg (by decide),
      if_pos rfl, readQuoted_plain s hnq]
    rfl
  | binaryOperation op =>
    simp only [persistableNode] at he
    have hs : ExprElement.save (.binaryOperation op : ExprElement Rat) =
        "BinaryOperation".toList ++ ' ' :: op := rfl
    obtain ⟨hne, hkw⟩ := hkws "BinaryOperation".toList (by simp)
    obtain ⟨h1, h2, h3⟩ := body_spec _ _ hne hkw (plainWord_last op he) (plainWord_chars op he)
    rw [hs]
    refine ⟨h1, h2, h3, fun u => ?_⟩
    rw [parseElement_of_body u _ _ hne (fun c hc => (hkw c hc).1) (plainWord_head op he)
      (plainWord_last op he), if_neg (by decide), if_neg (by decide), if_neg (by decide),
      if_pos rfl, readString_plainWord op he]
    rfl
  | unaryOperation op =>
    simp only [persistableNode] at he
    have hs : ExprElement.save (.unaryOperation op : ExprElement Rat) =
        "UnaryOperation".toList ++ ' ' :: op := rfl
    obtain ⟨hne, hkw⟩ := hkws "UnaryOperation".toList (by simp)
    obtain ⟨h1, h2, h3⟩ := body_spec _ _ hne hkw (plainWord_last op he) (plainWord_chars op he)
    rw [hs]
    refine ⟨h1, h2, h3, fun u => ?_⟩
    rw [parseElement_of_body u _ _ hne (fun c hc => (hkw c hc).1) (plainWord_head op he)
      (plainWord_last op he), if_neg (by decide), if_neg (by decide), if_pos rfl,
      readString_plainWord op he]
    rfl
  | range op =>
    simp only [persistableNode] at he
    have hs : ExprElement.save (.range op : ExprElement Rat) =
        "Range".toList ++ ' ' :: op := rfl
    obtain ⟨hne, hkw⟩ := hkws "Range".toList (by simp)
    obtain ⟨h1, h2, h3⟩ := body_spec _ _ hne hkw (plainWord_last op he) (plainWord_chars op he)
    rw [hs]
    refine ⟨h1, h2, h3, fun u => ?_⟩
    rw [parseElement_of_body u _ _ hne (fun c hc => (hkw c hc).1) (plainWord_head op he)
      (plainWord_last op he), if_neg (by decide), if_neg (by decide), if_neg (by decide),
      if_neg (by decide), if_neg (by decide), if_pos rfl, readString_plainWord op he]
    rfl
  | functionCall name n =>
    simp only [persistableNode, Bool.and_eq_true, decide_eq_true_eq] at he
    obtain ⟨hname, hn⟩ := he
    have hs : ExprElement.save (.functionCall name n : ExprElement Rat) =
        "Function".toList ++ ' ' :: (name ++ ' ' :: toDecimal n) := by
      simp [ExprElement.save]
    obtain ⟨hne, hkw⟩ := hkws "Function".toList (by simp)
    obtain ⟨hnne, hnall⟩ := plainWord_spec name hname
    obtain ⟨hdh, hdl, hdc⟩ := toDecimal_chars n
    obtain ⟨a, r, hna, ha⟩ := plainWord_head name hname
    have hhead : ∃ a r, name ++ ' ' :: toDecimal n = a :: r ∧ isspace a = false :=
      ⟨a, r ++ ' ' :: toDecimal n, by rw [hna]; rfl, ha⟩
    have hlast : ∃ init b, name ++ ' ' :: toDecimal n = init ++ [b] ∧ b ≠ ']' := by
      obtain ⟨init, b, hd, hb⟩ := hdl
      exact ⟨name ++ ' ' :: init, b, by rw [hd]; simp, hb⟩
    have hchars : ∀ c ∈ name ++ ' ' :: toDecimal n, c ≠ ',' ∧ c ≠ NL := by
      intro c hc
      simp only [List.mem_append, List.mem_cons] at hc
      rcases hc with h | h | h
      · exact plainWord_chars name hname c h
      · rw [h]
        constructor <;> decide
      · exact (hdc c h).2
    obtain ⟨h1, h2, h3⟩ := body_spec _ _ hne hkw hlast hchars
    have hsp : isspace ' ' = true := by decide
    have hread := readString_word name (' ' :: toDecimal n) hnne (fun c hc => (hnall c hc).1)
      (Or.inr ⟨' ', _, rfl, hsp⟩)
    have hcount : ∀ old : Rat,
        readDouble (⟨' ' :: toDecimal n, false, false⟩ : IStream) old = (n : Rat) := by
      intro old
      obtain ⟨d, ds, hd, hdsp⟩ := hdh
      rw [← scanRat_digits n, hd]
      simp [readDouble, sentry, IStream.good, List.dropWhile_cons, hsp, hdsp]
      rfl
    have hsz : DoubleOps.toSizeT (n : Rat) % sizeMod = n := by
      have hlt : n < sizeMod := by
        have : (2 : Nat) ^ 53 < sizeMod := by norm_num [sizeMod]
        omega
      show (Int.toNat (((n : Rat).num).tdiv ((n : Rat).den)) % sizeMod) % sizeMod = n
      simp [Rat.num_natCast, Rat.den_natCast, Nat.mod_eq_of_lt hlt]
    rw [hs]
    refine ⟨h1, h2, h3, fun u => ?_⟩
    rw [parseElement_of_body u _ _ hne (fun c hc => (hkw c hc).1) hhead hlast,
      if_neg (by decide), if_neg (by decide), if_neg (by decide), if_neg (by decide),
      if_neg (by decide), if_neg (by decide), if_pos rfl, hread]
    simp only [List.isEmpty_cons, hcount, hsz]
    rfl
  | reference r =>
    simp only [persistableNode, Bool.and_eq_true, decide_eq_true_eq] at he
    obtain ⟨hword, hparse⟩ := he
    have hs : ExprElement.save (.reference r : ExprElement Rat) =
        "Reference".toList ++ ' ' :: r.cellReference := rfl
    obtain ⟨hne, hkw⟩ := hkws "Reference".toList (by simp)
    obtain ⟨h1, h2, h3⟩ := body_spec _ _ hne hkw (plainWord_last _ hword)
      (plainWord_chars _ hword)
    rw [hs]
    refine ⟨h1, h2, h3, fun u => ?_⟩
    rw [parseElement_of_body u _ _ hne (fun c hc => (hkw c hc).1) (plainWord_head _ hword)
      (plainWord_last _ hword), if_pos rfl, readString_plainWord _ hword, hparse]
    rfl

theorem allLines_cons_piece (piece rest : Str) (delim : Char)
    (hp : ∀ c ∈ piece, (c != delim) = true) :
    allLines (IStream.ofStr (piece ++ delim :: rest)) delim
      = piece :: allLines (IStream.ofStr rest) delim := by
  have hnl : (delim != delim) = false := by simp
  have hg : getline (IStream.ofStr (piece ++ delim :: rest)) [] delim =
      (piece, IStream.ofStr rest) := by
    unfold getline
    simp only [IStream.ofStr, IStream.good, Bool.not_false, Bool.and_self, if_true]
    rw [List.takeWhile_append_of_pos hp, List.dropWhile_append_of_pos hp]
    simp [List.takeWhile_cons, List.dropWhile_cons, hnl]
  unfold allLines
  rw [readLines_succ, hg]
  simp only [IStream.ofStr, Bool.false_eq_true, if_false]
  rw [readLines_fuel _ (rest.length + 1) ⟨rest, false, false⟩ delim (by simp; omega) (by simp)]

/-- The pieces between the commas of a saved program are read back node by node. -/
theorem parseElements_saved (u : Uninit Rat) (es : Program Rat) :
    ∀ (e : ExprElement Rat) (k : Nat) (acc : Program Rat),
      (∀ x ∈ e :: es, persistableNode x = true) →
      parseElements u
          (allLines (IStream.ofStr (List.replicate k ' ' ++ (saveElements (e :: es) ++ [']'])))
            ',') acc =
        .ok (acc ++ (e :: es).map roundNode) := by
  induction es with
  | nil =>
    intro e k acc hall
    obtain ⟨hhead, hlast, hchars, hparse⟩ := node_save_spec e (hall e (List.mem_cons_self _ _))
    have hpiece : ∀ c ∈ List.replicate k ' ' ++ (e.save ++ [']']), (c != ',') = true := by
      intro c hc
      simp only [List.mem_append, List.mem_singleton] at hc
      rcases hc with h | h | h
      · rw [(List.mem_replicate.mp h).2]
        decide
      · simpa using (hchars c h).1
      · rw [h]
        decide
    have hne : List.replicate k ' ' ++ (e.save ++ [']']) ≠ [] := by simp
    have hlines := allLines_single _ ',' hne hpiece
    have hstrip := parseElement_strip u k e.save true hhead hlast
    simp only [if_true] at hstrip
    simp only [saveElements, IStream.ofStr, hlines, parseElements, hstrip, hparse u,
      List.map_cons, List.map_nil]
  | cons e2 es ih =>
    intro e k acc hall
    obtain ⟨hhead, hlast, hchars, hparse⟩ := node_save_spec e (hall e (List.mem_cons_self _ _))
    have hpiece : ∀ c ∈ List.replicate k ' ' ++ e.save, (c != ',') = true := by
      intro c hc
      simp only [List.mem_append] at hc
      rcases hc with h | h
      · rw [(List.mem_replicate.mp h).2]
        decide
      · simpa using (hchars c h).1
    have hstream : List.replicate k ' ' ++ (saveElements (e :: e2 :: es) ++ [']']) =
        (List.replicate k ' ' ++ e.save) ++
          ',' :: (List.replicate 1 ' ' ++ (saveElements (e2 :: es) ++ [']'])) := by
      simp [saveElements, List.append_assoc]
    have hstrip := parseElement_strip u k e.save false hhead hlast
    simp only [Bool.false_eq_true, if_false, List.append_nil] at hstrip
    rw [hstream, allLines_cons_piece _ _ ',' hpiece]
    simp only [parseElements, hstrip, hparse u]
    rw [ih e2 1 (acc ++ [roundNode e]) (fun x hx => hall x (List.mem_cons_of_mem _ hx))]
    simp

theorem parseLine_bracket {D : Type} [DoubleOps D] (u : Uninit D) (k : Nat) (rest : Str)
    (hk : k < sizeMod) :
    parseLine u (toDecimal k ++ ',' :: ' ' :: '[' :: rest) =
      match parseElements u (allLines ⟨rest, false, false⟩ ',') [] with
      | .error e => .error e
      | .ok exprStack => .ok (k, .expr exprStack) := by
  have hcomma : isdigit ',' = false := by decide
  have hs1 : isspace ',' = false := by decide
  unfold parseLine
  rw [readULong_key k u.key ',' _ hk hcomma]
  simp only [readChar, sentry, IStream.good, IStream.get, IStream.peek, Bool.not_false,
    Bool.and_self, if_true, List.dropWhile_cons, hs1, Bool.false_eq_true, if_false]

/-- A line of the data region that holds a program is read back with its numbers rounded. -/
theorem parseLine_program (u : Uninit Rat) (k : Nat) (prog : Program Rat) (hk : k < sizeMod)
    (hall : ∀ x ∈ prog, persistableNode x = true) :
    parseLine u (toDecimal k ++ ", ".toList ++ saveCell (.expr prog)) =
      .ok (k, .expr (prog.map roundNode)) := by
  have hline : toDecimal k ++ ", ".toList ++ saveCell (CustomCValue.expr prog) =
      toDecimal k ++ ',' :: ' ' :: '[' :: (saveElements prog ++ [']']) := by
    simp [saveCell]
  rw [hline, parseLine_bracket u k _ hk]
  cases prog with
  | nil => rfl
  | cons e es =>
    have h := parseElements_saved u es e 0 [] hall
    simp only [List.replicate_zero, List.nil_append, IStream.ofStr] at h
    rw [h]

theorem parseLine_text {D : Type} [DoubleOps D] (u : Uninit D) (k : Nat) (s : Str)
    (hk : k < sizeMod) (hs : ∀ c ∈ s, c ≠ QUOTE) :
    parseLine u (toDecimal k ++ ", ".toList ++ saveCell (.string s : CustomCValue D)) =
      .ok (k, .string s) := by
  have hline : toDecimal k ++ ", ".toList ++ saveCell (CustomCValue.string s : CustomCValue D) =
      toDecimal k ++ ',' :: ' ' :: QUOTE :: (s ++ [QUOTE]) := by
    simp [saveCell, escape_plain s hs]
  have hcomma : isdigit ',' = false := by decide
  have hs1 : isspace ',' = false := by decide
  have hq1 : (some QUOTE = some '[') = False := by decide
  rw [hline]
  unfold parseLine
  rw [readULong_key k u.key ',' _ hk hcomma]
  simp only [readChar, sentry, IStream.good, IStream.get, IStream.peek, Bool.not_false,
    Bool.and_self, if_true, List.dropWhile_cons, hs1, Bool.false_eq_true, if_false, hq1,
    readQuoted_plain s hs]

theorem parseLine_undefined {D : Type} [DoubleOps D] (u : Uninit D) (k : Nat)
    (hk : k < sizeMod) :
    parseLine u (toDecimal k ++ ", ".toList ++ saveCell (.monostate : CustomCValue D)) =
      .ok (k, .monostate) := by
  have hline : toDecimal k ++ ", ".toList ++ saveCell (CustomCValue.monostate : CustomCValue D) =
      toDecimal k ++ ',' :: ' ' :: 'u' :: "ndefined".toList := by
    simp [saveCell]
  have hcomma : isdigit ',' = false := by decide
  have hs1 : isspace ',' = false := by decide
  have hq1 : (some 'u' = some '[') = False := by decide
  have hq2 : (some 'u' = some QUOTE) = False := by decide
  rw [hline]
  unfold parseLine
  rw [readULong_key k u.key ',' _ hk hcomma]
  simp only [readChar, sentry, IStream.good, IStream.get, IStream.peek, Bool.not_false,
    Bool.and_self, if_true, List.dropWhile_cons, hs1, Bool.false_eq_true, if_false, hq1, hq2,
    ne_eq, not_true_eq_false]

theorem saveElements_chars (prog : Program Rat) (hall : ∀ x ∈ prog, persistableNode x = true) :
    ∀ c ∈ saveElements prog, c ≠ NL := by
  induction prog with
  | nil => simp [saveElements]
  | cons e es ih =>
    have he := (node_save_spec e (hall e (List.mem_cons_self _ _))).2.2.1
    have hes := ih (fun x hx => hall x (List.mem_cons_of_mem _ hx))
    cases es with
    | nil =>
      intro c hc
      exact (he c hc).2
    | cons e2 rest =>
      intro c hc
      simp only [saveElements, List.mem_append] at hc
      rcases hc with (h | h) | h
      · exact (he c h).2
      · have hsep : ∀ y ∈ ", ".toList, y ≠ NL := by decide
        exact hsep c h
      · exact hes c h

/-- A line of the data region written for a cell holds no newline and is read back with
its numbers rounded. -/
theorem line_spec (u : Uninit Rat) (kv : Nat × CustomCValue Rat) (hk : kv.1 < sizeMod)
    (hcell : persistableCell kv.2 = true) :
    (∀ c ∈ toDecimal kv.1 ++ ", ".toList ++ saveCell kv.2, (c != NL) = true) ∧
    parseLine u (toDecimal kv.1 ++ ", ".toList ++ saveCell kv.2) =
      .ok (kv.1, roundCell kv.2) := by
  obtain ⟨k, v⟩ := kv
  simp only at hk hcell ⊢
  have hkey : ∀ c ∈ toDecimal k ++ ", ".toList, (c != NL) = true := by
    intro c hc
    have hsep : ∀ y ∈ ", ".toList, (y != NL) = true := by decide
    rcases List.mem_append.mp hc with h | h
    · simpa using ((toDecimal_chars k).2.2 c h).2.2
    · exact hsep c h
  have hsplit : ∀ (t : Str), (∀ c ∈ t, c ≠ NL) →
      ∀ c ∈ toDecimal k ++ ", ".toList ++ t, (c != NL) = true := by
    intro t ht c hc
    rcases List.mem_append.mp hc with h | h
    · exact hkey c h
    · simpa using ht c h
  cases v with
  | monostate =>
    refine ⟨hsplit _ (by decide), parseLine_undefined u k hk⟩
  | double q =>
    refine ⟨hsplit _ (fun c hc => (number_char c (ratToStr_chars q c hc)).2.2.2.1), ?_⟩
    rw [parseLine_number u k q hk (wellPrinted_ratToStr q)]
    exact congrArg (fun x => Except.ok (k, CustomCValue.double x)) (scanRat_ratToStr q)
  | string s =>
    simp only [persistableCell, List.all_eq_true, Bool.and_eq_true, bne_iff_ne, ne_eq] at hcell
    have hnq : ∀ c ∈ s, c ≠ QUOTE := fun c hc => (hcell c hc).1
    refine ⟨hsplit _ ?_, parseLine_text u k s hk hnq⟩
    intro c hc
    simp only [saveCell, escape_plain s hnq, List.mem_append, List.mem_singleton] at hc
    rcases hc with (h | h) | h
    · rw [h]
      decide
    · exact (hcell c h).2
    · rw [h]
      decide
  | int i => simp [persistableCell] at hcell
  | expr prog =>
    simp only [persistableCell, List.all_eq_true] at hcell
    refine ⟨hsplit _ ?_, parseLine_program u k prog hk hcell⟩
    intro c hc
    simp only [saveCell, List.mem_append, List.mem_singleton] at hc
    rcases hc with (h | h) | h
    · rw [h]
      decide
    · exact saveElements_chars prog hcell c h
    · rw [h]
      decide

theorem loadLines_map_image {D : Type} [DoubleOps D] (u : Uninit D) (S : Sheet D)
    (f : Nat × CustomCValue D → Str) (g : Nat × CustomCValue D → Nat × CustomCValue D)
    (hparse : ∀ kv ∈ S, parseLine u (f kv) = .ok (g kv)) (sheet : Sheet D) :
    loadLines u (S.map f) sheet =
      .returned true ((S.map g).foldl (fun s kv => s.assign kv.1 kv.2) sheet) := by
  induction S generalizing sheet with
  | nil => rfl
  | cons kv rest ih =>
    simp only [List.map_cons, loadLines, hparse kv (List.mem_cons_self _ _), List.foldl_cons]
    exact ih (fun p hp => hparse p (List.mem_cons_of_mem _ hp)) _

/-- Loading what `save` wrote for a sheet of numbers, programs, plain texts and empty cells
gives the sheet with every number rounded to six decimals. -/
theorem load_save_roundSheet (u : Uninit Rat) (S : Sheet Rat)
    (hkeys : (S.map Prod.fst).Nodup)
    (hcells : ∀ kv ∈ S, kv.1 < sizeMod ∧ persistableCell kv.2 = true) :
    load u [] (save S) = .returned true (roundSheet S) := by
  have hkeys2 : ((S.map fun kv => (kv.1, roundCell kv.2)).map Prod.fst).Nodup := by
    rw [List.map_map]
    exact hkeys
  rw [load_save_passes_checks,
    allLines_saveData S (fun kv hkv => (line_spec u kv (hcells kv hkv).1 (hcells kv hkv).2).1),
    loadLines_map_image u S _ (fun kv => (kv.1, roundCell kv.2))
      (fun kv hkv => (line_spec u kv (hcells kv hkv).1 (hcells kv hkv).2).2),
    foldl_assign_fresh _ [] hkeys2 (by simp)]
  rfl

/-- The count of millionths of a number is the integer within half a unit of its magnitude
times `10^6`. -/
theorem sixDecimals_eq (q : Rat) (m : Nat) (h1 : (m : Rat) - 1 / 2 < |q| * 1000000)
    (h2 : |q| * 1000000 < (m : Rat) + 1 / 2) : sixDecimals q = m := by
  have hc := sixDecimals_close q
  rw [abs_le] at hc
  have hlo : ((sixDecimals q : Nat) : Rat) < (m : Rat) + 1 := by linarith
  have hhi : (m : Rat) < ((sixDecimals q : Nat) : Rat) + 1 := by linarith
  have hlo2 : sixDecimals q < m + 1 := by exact_mod_cast hlo
  have hhi2 : m < sixDecimals q + 1 := by exact_mod_cast hhi
  omega

theorem roundSix_of_nonneg (q : Rat) (m : Nat) (hq : 0 ≤ q)
    (h1 : (m : Rat) - 1 / 2 < q * 1000000) (h2 : q * 1000000 < (m : Rat) + 1 / 2) :
    roundSix q = (m : Rat) / 10 ^ 6 := by
  have hm : sixDecimals q = m := by
    apply sixDecimals_eq
    · rw [abs_of_nonneg hq]
      exact h1
    · rw [abs_of_nonneg hq]
      exact h2
  rw [roundSix, if_neg (not_lt.mpr hq), hm]

/-! ### Numbers after `save` and `load` -/

theorem find_roundSheet (S : Sheet Rat) (id : Nat) :
    (roundSheet S).find id = (S.find id).map roundCell := by
  induction S with
  | nil => rfl
  | cons kv rest ih =>
    obtain ⟨k, v⟩ := kv
    by_cases hk : k = id
    · simp [roundSheet, Sheet.find, hk]
    · simp only [roundSheet, List.map_cons, Sheet.find, hk, if_false]
      exact ih

theorem getValue_number (sheet : Sheet Rat) (pos : CPos) (q : Rat) (fuel : Nat)
    (h : sheet.find pos.getUniqueId = some (.double q) ∨
      sheet.find pos.getUniqueId = some (.expr [.constant q])) :
    getValue (fuel + 1) sheet [] pos = .done (.double q) [] := by
  rcases h with h | h
  · simp only [getValue, h]
  · simp only [getValue, h, List.not_mem_nil, if_false]
    rw [evaluateExpression_succ]
    simp only [runNodes, ExprElement.evaluate]

end Excel
